import Mathlib

/-!
Shallow embedding of the lockcheck static deadlock analyzer
(`src/lockcheck/src/analysis/pass.rs`) and proofs about its
invocation collector, guard-flow collector, dependency analysis,
cycle detector and diagnostic emission.

Machine integers (`u64` lock class counters, MIR indices) are modelled
as `Nat`; they are only ever incremented and compared in the source.
Rust panics (`panic!`, `todo!`, failing `HashMap`/`IndexVec` indexing)
are modelled by the `Step.fatal` outcome; the fuel parameter of the
recursive walks is an artifact of the embedding and `Step.outOfFuel`
never occurs for sufficient fuel (proved below).
-/

namespace Lockcheck

/-- Definition id (rustc `DefId`), an opaque identifier of an item. -/
abbrev DefId := Nat

/-- Source span, modelled as an opaque ordered identifier. -/
abbrev Span := Nat

/-- Lock class id (`LockClass(u64)` in the source). -/
abbrev LockClass := Nat

/-- MIR local slot index (`Local`); local 0 is the return place.
Places are collapsed to their base local: the source only ever reads
`place.local` and documents that projections are not tracked. -/
abbrev Local := Nat

/-- Basic block id: uniquely identifies any basic block in the whole
program (`Bbid { def_id, basic_block }`). -/
structure Bbid where
  def_id : Nat
  basic_block : Nat
deriving DecidableEq, Repr

/-- Bbid of the basic block at the start of a given function
(`Bbid::fn_start`; `START_BLOCK` is block 0). -/
def Bbid.fn_start (def_id : Nat) : Bbid := ⟨def_id, 0⟩

/-- Same function, different basic block (`Bbid::with_basic_block`). -/
def Bbid.with_basic_block (b : Bbid) (basic_block : Nat) : Bbid :=
  ⟨b.def_id, basic_block⟩

mutual
/-- MIR types as far as the analyzer inspects them: ADTs with their
`DefId` and generic arguments, references (so `peel_refs` is
meaningful), and everything else as opaque atoms. -/
inductive MirTy where
  | adt (did : Nat) (generics : MirTyList)
  | ref (inner : MirTy)
  | other (id : Nat)
deriving DecidableEq, Repr

/-- Generic-argument list of an ADT type (every generic argument the
analyzer meets is a type; `expect_ty` in the source). -/
inductive MirTyList where
  | nil
  | cons (head : MirTy) (tail : MirTyList)
deriving DecidableEq, Repr
end

/-- Number of generic arguments (`generic_args.len()`). -/
def MirTyList.length : MirTyList → Nat
  | .nil => 0
  | .cons _ t => t.length + 1

/-- First generic argument (`generic_args[0]`). -/
def MirTyList.first? : MirTyList → Option MirTy
  | .nil => none
  | .cons h _ => some h

/-- Strip all references from a type (`Ty::peel_refs`). -/
def MirTy.peel_refs : MirTy → MirTy
  | .ref inner => inner.peel_refs
  | t => t

/-- MIR operand. A constant operand carries `some d` exactly when it is
a zero-sized function item constant `FnDef(d)` (the only constants the
analyzer inspects, via `get_fn_def_id_from_terminator`), plus its type
(for `Operand::ty`). -/
inductive Operand where
  | copy (place : Nat)
  | move (place : Nat)
  | constant (fn_def : Option Nat) (ty : MirTy)
deriving DecidableEq, Repr

/-- MIR rvalue, as far as `calculate_new_local_after_statement`
distinguishes them. -/
inductive Rvalue where
  | use (operand : Operand)
  | aggregate (arguments : List Operand)
  | otherRvalue
deriving DecidableEq, Repr

/-- MIR statement kinds distinguished by the analyzer. -/
inductive StatementKind where
  | assign (dest : Nat) (rvalue : Rvalue)
  | deinit (place : Nat)
  | storageLive (slot : Nat)
  | storageDead (slot : Nat)
  | otherStatement
deriving DecidableEq, Repr

/-- MIR terminator kinds. Unwind edges are absent: the analyzer ignores
them (documented imprecision in the source). -/
inductive TerminatorKind where
  | goto (target : Nat)
  | switchInt (targets : List Nat) (otherwise : Nat)
  | unwindResume
  | unwindTerminate
  | ret
  | unreachable
  | drop (place : Nat) (target : Nat)
  | call (func : Operand) (args : List Operand) (destination : Nat) (target : Option Nat)
  | assert (target : Nat)
  | yield
  | generatorDrop
  | falseEdge (real_target : Nat)
  | falseUnwind (real_target : Nat)
  | inlineAsm (destination : Option Nat)
deriving DecidableEq, Repr

/-- Terminator: kind plus its source span (`source_info.span`). -/
structure Terminator where
  kind : TerminatorKind
  span : Nat
deriving DecidableEq, Repr

/-- Basic block data: statement list and terminator. -/
structure BasicBlockData where
  statements : List StatementKind
  terminator : Terminator
deriving DecidableEq, Repr

/-- MIR body: basic blocks indexed by position, and the types of the
locals (`local_decls`). -/
structure Body where
  basic_blocks : List BasicBlockData
  local_decls : List MirTy
deriving DecidableEq, Repr

/-- A function item of the compiled crate: its `DefId`, whether it is a
`Fn` item, whether its name is the synthetic lock-filler
(`__lock_check_resolve`) shim, and its optimized MIR body. -/
structure FnItem where
  def_id : Nat
  is_fn : Bool
  is_lock_filler : Bool
  body : Body
deriving DecidableEq, Repr

/-- The compilation unit: the list of items in definition order. -/
abbrev Crate := List FnItem

/-- Fail-safe MIR accessor (`TyCtxtExt::try_optimized_mir`): the body of
the first function item with the given id, or `none`. -/
def tryOptimizedMir (crate : Crate) (def_id : Nat) : Option Body :=
  (crate.find? (fun it => it.is_fn && it.def_id == def_id)).map (·.body)

/-- Outcome of running an analyzer operation: a value, a Rust panic
(`fatal`), or exhaustion of the embedding fuel (`outOfFuel`, which
never happens for sufficient fuel). -/
inductive Step (α : Type) where
  | ok (a : α) : Step α
  | fatal : Step α
  | outOfFuel : Step α
deriving DecidableEq, Repr

/-- Association-list lookup, modelling `HashMap::get`. -/
def alLookup {α : Type} [DecidableEq α] {β : Type} (l : List (α × β)) (k : α) : Option β :=
  (l.find? (fun p => p.1 == k)).map (·.2)

/-- Association-list insert, modelling `HashMap::insert` (replaces the
value if the key is present, appends otherwise). -/
def alInsert {α : Type} [DecidableEq α] {β : Type} : List (α × β) → α → β → List (α × β)
  | [], k, v => [(k, v)]
  | (k', v') :: rest, k, v =>
    if k' = k then (k, v) :: rest else (k', v') :: alInsert rest k v

/-- Keys of an association list. -/
def alKeys {α β : Type} (l : List (α × β)) : List α := l.map (·.1)

/-- Fold a panic-propagating step function over a list: the shared
shape of every loop in the analyzer that threads mutable state and
aborts on panic. -/
def stepFold {σ τ : Type} (step : σ → τ → Step σ) (l : List τ) (init : Step σ) : Step σ :=
  l.foldl (fun acc x =>
    match acc with
    | .ok s => step s x
    | .fatal => .fatal
    | .outOfFuel => .outOfFuel) init

/-- Three-valued summary of what happened to a lock guard handed to a
function (`GuardState`). -/
inductive GuardState where
  | Returned
  | Dropped
  | Undetermined
deriving DecidableEq, Repr, Fintype

/-- Merge of branch outcomes (`GuardState::combine`), with priority
`Returned`, then `Dropped`, then `Undetermined`. -/
def GuardState.combine : GuardState → GuardState → GuardState
  | .Returned, _ => .Returned
  | _, .Returned => .Returned
  | .Dropped, _ => .Dropped
  | _, .Dropped => .Dropped
  | _, _ => .Undetermined

/-- Rank of a guard state in the priority order
`Undetermined` before `Dropped` before `Returned`. -/
def GuardState.rank : GuardState → Nat
  | .Undetermined => 0
  | .Dropped => 1
  | .Returned => 2

/-- Record of one direct call site of a function: the caller block that
receives the return value and the local it lands in
(`ReturnLocation`). -/
structure ReturnLocation where
  return_bbid : Bbid
  return_local : Nat
deriving DecidableEq, Repr

/-- Map from a function definition id to all basic blocks it might
return to (`FunctionReturnMap`, a `HashMap<DefId, HashSet<ReturnLocation>>`). -/
abbrev FunctionReturnMap := List (Nat × List ReturnLocation)

/-- Record a return location under a callee
(`FunctionReturnMap::insert_return_location`; set semantics). -/
def insertReturnLocation : FunctionReturnMap → Nat → ReturnLocation → FunctionReturnMap
  | [], fn_def_id, rl => [(fn_def_id, [rl])]
  | (k, rls) :: rest, fn_def_id, rl =>
    if k = fn_def_id then (k, if rl ∈ rls then rls else rls ++ [rl]) :: rest
    else (k, rls) :: insertReturnLocation rest fn_def_id rl

/-- A lock invocation: its lock class, the source span of the lock
call, and the set of other invocations reachable while its guard is
live (`LockInvocation`; the `class` field is named `cls` because
`class` is a Lean keyword). -/
structure LockInvocation where
  cls : Nat
  span : Nat
  child_invocations : List Bbid
deriving DecidableEq, Repr

/-- Memoization key of the guard-flow walk (`LocalBlockPair`). -/
structure LocalBlockPair where
  block : Bbid
  lcl : Nat
deriving DecidableEq, Repr

/-- Function definition id of a call terminator whose callee is a
zero-sized function item constant (`get_fn_def_id_from_terminator`). -/
def getFnDefIdFromTerminator (terminator : Terminator) : Option Nat :=
  match terminator.kind with
  | .call func _ _ _ =>
    match func with
    | .constant fn_def _ => fn_def
    | _ => none
  | _ => none

/-- Successor blocks of a terminator, as traversed by reachability
(`Terminator::successors`, restricted to the modelled non-unwind
edges). -/
def TerminatorKind.successors : TerminatorKind → List Nat
  | .goto target => [target]
  | .switchInt targets otherwise => targets ++ [otherwise]
  | .unwindResume => []
  | .unwindTerminate => []
  | .ret => []
  | .unreachable => []
  | .drop _ target => [target]
  | .call _ _ _ target => target.toList
  | .assert target => [target]
  | .yield => []
  | .generatorDrop => []
  | .falseEdge real_target => [real_target]
  | .falseUnwind real_target => [real_target]
  | .inlineAsm destination => destination.toList

/-- Worklist traversal computing the reachable blocks of a body. -/
def reachableAux (body : Body) : Nat → List Nat → List Nat → List Nat
  | 0, visited, _ => visited
  | _ + 1, visited, [] => visited
  | fuel + 1, visited, w :: ws =>
    if w ∈ visited then reachableAux body fuel visited ws
    else
      match body.basic_blocks.get? w with
      | none => reachableAux body fuel visited ws
      | some bbd => reachableAux body fuel (visited ++ [w]) (ws ++ bbd.terminator.kind.successors)

/-- Iteration bound for `reachableAux`: one initial worklist item plus
one pushed item per successor edge of the body. -/
def reachableFuel (body : Body) : Nat :=
  1 + body.basic_blocks.length +
    body.basic_blocks.foldr (fun bbd acc => bbd.terminator.kind.successors.length + acc) 0

/-- Blocks reachable from the start block of a body
(`rustc_middle::mir::traversal::reachable`). -/
def Body.reachable (body : Body) : List Nat :=
  reachableAux body (reachableFuel body) [] [0]

/-- Environment of the guard-flow collector: the crate (for MIR
lookups), the invocation map and the return map, all borrowed read-only
(`DependantClassCollector`'s `tcx`, `invocation_map`, `return_map`). -/
structure CollectorEnv where
  crate : Crate
  invocation_map : List (Bbid × LockInvocation)
  return_map : FunctionReturnMap

/-- Mutable state of the guard-flow collector
(`DependantClassCollector`'s `dependant_classes`, `visited_blocks`,
`visited_functions`). -/
structure Collector where
  dependant_classes : List Bbid
  visited_blocks : List LocalBlockPair
  visited_functions : List Nat
deriving DecidableEq, Repr

/-- Insert into a list modelling a `HashSet` (no duplicates, insertion
order retained). -/
def insertBbidSet (l : List Bbid) (b : Bbid) : List Bbid :=
  if b ∈ l then l else l ++ [b]

/-- Mark the visited block pair (`self.visited_blocks.insert`). -/
def insertVisitedBlock (s : Collector) (p : LocalBlockPair) : Collector :=
  { s with visited_blocks := p :: s.visited_blocks }

/-- Mark the visited function (`self.visited_functions.insert`). -/
def insertVisitedFunction (s : Collector) (f : Nat) : Collector :=
  { s with visited_functions := f :: s.visited_functions }

/-- Record the current block as a dependant class if it is a recorded
lock invocation (`if self.invocation_map.contains_key(..) { self.dependant_classes.insert(..) }`). -/
def markInvocation (env : CollectorEnv) (s : Collector) (b : Bbid) : Collector :=
  if b ∈ alKeys env.invocation_map then
    { s with dependant_classes := insertBbidSet s.dependant_classes b }
  else s

/-- Scan of the operands of an aggregate rvalue: a move of the guard
local relocates the guard to the aggregate destination, a copy of it is
a panic (`none`). -/
def aggregateArgsScan (dest : Nat) (current_local : Nat) : List Operand → Option Nat
  | [] => some current_local
  | arg :: rest =>
    match arg with
    | .copy place => if place = current_local then none else aggregateArgsScan dest current_local rest
    | .move place => if place = current_local then some dest else aggregateArgsScan dest current_local rest
    | .constant _ _ => aggregateArgsScan dest current_local rest

/-- Where the guard local is after one statement
(`calculate_new_local_after_statement`); `none` models the panics
(guard copied, deinit or storage statement on the live guard). -/
def calculateNewLocalAfterStatement (statement : StatementKind) (current_local : Nat) : Option Nat :=
  match statement with
  | .assign dest rvalue =>
    match rvalue with
    | .use operand =>
      match operand with
      | .copy place => if place = current_local then none else some current_local
      | .move place => if place = current_local then some dest else some current_local
      | .constant _ _ => some current_local
    | .aggregate arguments => aggregateArgsScan dest current_local arguments
    | .otherRvalue => some current_local
  | .deinit place => if place = current_local then none else some current_local
  | .storageLive slot => if slot = current_local then none else some current_local
  | .storageDead slot => if slot = current_local then none else some current_local
  | .otherStatement => some current_local

/-- Fold the slot-transfer function over the statements of a block. -/
def applyStatements (statements : List StatementKind) (current_local : Nat) : Option Nat :=
  statements.foldl (fun acc st => acc.bind (fun l => calculateNewLocalAfterStatement st l)) (some current_local)

/-- Scan of call arguments for the guard (`for (i, arg) in
args.iter().enumerate()`): `some (some (i + 1))` when argument `i`
(0-based) moves the guard (the callee receives it in local `i + 1`),
`some none` when no argument involves it, `none` for the
guard-copied panic. -/
def findGuardArgLocal (current_local : Nat) : List Operand → Nat → Option (Option Nat)
  | [], _ => some none
  | arg :: rest, i =>
    match arg with
    | .move place =>
      if place = current_local then some (some (i + 1))
      else findGuardArgLocal current_local rest (i + 1)
    | .copy place =>
      if place = current_local then none
      else findGuardArgLocal current_local rest (i + 1)
    | .constant _ _ => findGuardArgLocal current_local rest (i + 1)

/-- Continue the per-block walk at the call target if present, else the
call diverges and the walk stops with `Undetermined` combined in. -/
def continueAt (next : Collector → Nat → Nat → GuardState → Step (GuardState × Collector))
    (s : Collector) (target : Option Nat) (lcl : Nat) (guard_state : GuardState) :
    Step (GuardState × Collector) :=
  match target with
  | some t => next s t lcl guard_state
  | none => .ok (guard_state.combine .Undetermined, s)

/-- Terminator dispatch of the guard-flow walk: the `match` at the end
of `DependantClassCollector::collect_inner`, with the three recursion
shapes abstracted as callbacks (`next` continues the loop in the same
function, `into` is a fresh `collect_inner` call, `sweep` is
`collect_all_invocations`). -/
def handleTerminator
    (next : Collector → Nat → Nat → GuardState → Step (GuardState × Collector))
    (into : Collector → Bbid → Nat → Bool → Step (GuardState × Collector))
    (sweep : Collector → Nat → Step Collector)
    (return_map : FunctionReturnMap) (basic_block_id : Bbid) (terminator : Terminator)
    (current_local : Nat) (examine_returns : Bool) (guard_state : GuardState)
    (s : Collector) : Step (GuardState × Collector) :=
  match terminator.kind with
  | .goto target => next s target current_local guard_state
  | .switchInt targets otherwise =>
    match stepFold (fun (p : GuardState × Collector) target =>
        match into p.2 (basic_block_id.with_basic_block target) current_local examine_returns with
        | .ok (gs', s') => .ok (p.1.combine gs', s')
        | .fatal => .fatal
        | .outOfFuel => .outOfFuel)
      targets (.ok (guard_state, s)) with
    | .ok (gs, s') => next s' otherwise current_local gs
    | .fatal => .fatal
    | .outOfFuel => .outOfFuel
  | .unwindResume => .ok (guard_state.combine .Undetermined, s)
  | .unwindTerminate => .ok (guard_state.combine .Undetermined, s)
  | .ret =>
    if examine_returns then
      if current_local = 0 then
        match alLookup return_map basic_block_id.def_id with
        | none => .fatal
        | some return_locations =>
          stepFold (fun (p : GuardState × Collector) (rl : ReturnLocation) =>
              match into p.2 rl.return_bbid rl.return_local true with
              | .ok (gs', s') => .ok (p.1.combine gs', s')
              | .fatal => .fatal
              | .outOfFuel => .outOfFuel)
            return_locations (.ok (guard_state, s))
      else .fatal
    else
      if current_local = 0 then .ok (guard_state.combine .Returned, s)
      else .fatal
  | .unreachable => .ok (guard_state.combine .Undetermined, s)
  | .drop place target =>
    if place = current_local then .ok (guard_state.combine .Dropped, s)
    else next s target current_local guard_state
  | .call _func args destination target =>
    if destination = current_local then .fatal
    else
      match findGuardArgLocal current_local args 0 with
      | none => .fatal
      | some guard_arg_local =>
        match guard_arg_local, getFnDefIdFromTerminator terminator with
        | some _arg, none => .ok (guard_state.combine .Dropped, s)
        | some arg, some fn_def_id =>
          match into s (Bbid.fn_start fn_def_id) arg false with
          | .ok (.Returned, s') => continueAt next s' target destination guard_state
          | .ok (.Dropped, s') => .ok (guard_state.combine .Dropped, s')
          | .ok (.Undetermined, s') => .ok (guard_state.combine .Undetermined, s')
          | .fatal => .fatal
          | .outOfFuel => .outOfFuel
        | none, some fn_def_id =>
          match sweep s fn_def_id with
          | .ok s' => continueAt next s' target current_local guard_state
          | .fatal => .fatal
          | .outOfFuel => .outOfFuel
        | none, none => continueAt next s target current_local guard_state
  | .assert target => next s target current_local guard_state
  | .yield => .fatal
  | .generatorDrop => .fatal
  | .falseEdge real_target => next s real_target current_local guard_state
  | .falseUnwind real_target => next s real_target current_local guard_state
  | .inlineAsm destination =>
    match destination with
    | some dest => next s dest current_local guard_state
    | none => .ok (guard_state.combine .Undetermined, s)

/-- Per-block handling of the whole-function invocation sweep: record
the block if it is a lock invocation, else recurse into a resolvable
callee (body of the loop in
`DependantClassCollector::collect_all_invocations`). -/
def sweepBlock (recurSweep : Collector → Nat → Step Collector) (env : CollectorEnv)
    (fn_def_id : Nat) (mir_body : Body) (s : Collector) (basic_block : Nat) : Step Collector :=
  let bbid : Bbid := ⟨fn_def_id, basic_block⟩
  if bbid ∈ alKeys env.invocation_map then
    .ok { s with dependant_classes := insertBbidSet s.dependant_classes bbid }
  else
    match mir_body.basic_blocks.get? basic_block with
    | none => .fatal
    | some bbd =>
      match getFnDefIdFromTerminator bbd.terminator with
      | some called_fn_def_id => recurSweep s called_fn_def_id
      | none => .ok s

/-- Whole-function invocation sweep
(`DependantClassCollector::collect_all_invocations`): add every
recorded lock invocation of a function (and, transitively, of its
resolvable callees) to the dependant classes; functions are memoized in
`visited_functions`. -/
def collectAllInvocations : Nat → CollectorEnv → Nat → Collector → Step Collector
  | 0, _, _, _ => .outOfFuel
  | fuel + 1, env, fn_def_id, s =>
    if fn_def_id ∈ s.visited_functions then .ok s
    else
      let s1 := insertVisitedFunction s fn_def_id
      match tryOptimizedMir env.crate fn_def_id with
      | none => .ok s1
      | some mir_body =>
        stepFold
          (fun s' bb => sweepBlock (fun s'' f => collectAllInvocations fuel env f s'') env fn_def_id mir_body s' bb)
          mir_body.reachable (.ok s1)

/-- The guard-flow walk (`DependantClassCollector::collect_inner`).
The source's in-function `loop` is expressed as recursion carrying the
accumulated `guard_state`; the fuel counts processed
`(block, local)` pairs and swept functions and never runs out when
large enough (proved below). -/
def collectInnerAux : Nat → CollectorEnv → Collector → Bbid → Nat → Bool → GuardState →
    Step (GuardState × Collector)
  | 0, _, _, _, _, _, _ => .outOfFuel
  | fuel + 1, env, s, basic_block_id, current_local, examine_returns, guard_state =>
    match tryOptimizedMir env.crate basic_block_id.def_id with
    | none => .ok (.Undetermined, s)
    | some mir_body =>
      if (⟨basic_block_id, current_local⟩ : LocalBlockPair) ∈ s.visited_blocks then
        .ok (.Undetermined, s)
      else
        let s1 := markInvocation env (insertVisitedBlock s ⟨basic_block_id, current_local⟩) basic_block_id
        match mir_body.basic_blocks.get? basic_block_id.basic_block with
        | none => .fatal
        | some basic_block_data =>
          match applyStatements basic_block_data.statements current_local with
          | none => .fatal
          | some current_local' =>
            handleTerminator
              (fun s' bb l gs => collectInnerAux fuel env s' (basic_block_id.with_basic_block bb) l examine_returns gs)
              (fun s' b l exr => collectInnerAux fuel env s' b l exr .Undetermined)
              (fun s' f => collectAllInvocations fuel env f s')
              env.return_map basic_block_id basic_block_data.terminator
              current_local' examine_returns guard_state s1

/-- Entry point of the guard-flow walk
(`DependantClassCollector::collect_inner` called from `collect` with a
fresh collector, forward mode). -/
def collectInner (fuel : Nat) (env : CollectorEnv) (s : Collector) (basic_block_id : Bbid)
    (lock_local : Nat) (examine_returns : Bool) : Step (GuardState × Collector) :=
  collectInnerAux fuel env s basic_block_id lock_local examine_returns .Undetermined

/-- Top-level guard-flow query (`DependantClassCollector::collect`):
walk from the block receiving the fresh guard and return the collected
dependant invocation set. -/
def collect (env : CollectorEnv) (fuel : Nat) (basic_block_id : Bbid) (lock_local : Nat) :
    Step (List Bbid) :=
  match collectInner fuel env ⟨[], [], []⟩ basic_block_id lock_local true with
  | .ok (_, s) => .ok s.dependant_classes
  | .fatal => .fatal
  | .outOfFuel => .outOfFuel


/-- Configured lock target of one analysis pass
(`AnalysisPassTarget`). -/
structure AnalysisPassTarget where
  lock : Nat
  lock_constructor : Nat
  lock_method : Nat
  guard : Nat
deriving DecidableEq, Repr

/-- Bidirectional lock class interning table plus the monotonic class
counter (`LockClassTyMap` and the `NEXT_LOCK_CLASS` atomic; the counter
is pass-state here, started at an arbitrary value per run). -/
structure LockClassTyMap where
  class_to_ty : List (Nat × MirTy)
  ty_to_class : List (MirTy × Nat)
  next_lock_class : Nat
deriving DecidableEq, Repr

/-- Intern a type to a lock class (`LockClassTyMap::get_lock_class`):
idempotent on known types, otherwise allocates the next class id. -/
def getLockClass (m : LockClassTyMap) (ty : MirTy) : Nat × LockClassTyMap :=
  match alLookup m.ty_to_class ty with
  | some c => (c, m)
  | none =>
    let c := m.next_lock_class
    (c, { class_to_ty := m.class_to_ty ++ [(c, ty)],
          ty_to_class := m.ty_to_class ++ [(ty, c)],
          next_lock_class := c + 1 })

/-- Type of a known lock class (`LockClassTyMap::get_ty`; the source
indexes the map, so a missing class is a panic at the call sites). -/
def getTy (m : LockClassTyMap) (c : Nat) : Option MirTy :=
  alLookup m.class_to_ty c

/-- Type of an operand (`Operand::ty`): the declared type of the place
local for copies and moves, the carried type for constants; `none`
models an out-of-range local (a panic in the source). -/
def operandTy (local_decls : List MirTy) : Operand → Option MirTy
  | .copy place => local_decls.get? place
  | .move place => local_decls.get? place
  | .constant _ ty => some ty

/-- Whether a terminator is a call to the configured lock method
(`AnalysisPass::is_terminator_lock_invocation`). -/
def isTerminatorLockInvocation (target : AnalysisPassTarget) (terminator : Terminator) : Bool :=
  match getFnDefIdFromTerminator terminator with
  | some def_id => def_id == target.lock_method
  | none => false

/-- Scan the call arguments for the first whose type, after stripping
references, is the configured lock ADT; intern its single generic
argument (the loop of `AnalysisPass::lock_class_from_terminator`).
Panics (`.fatal`) when the lock type has not exactly one generic
argument. -/
def findLockClassArg (target : AnalysisPassTarget) (tyMap : LockClassTyMap)
    (local_decls : List MirTy) : List Operand → Step (Option Nat × LockClassTyMap)
  | [] => .ok (none, tyMap)
  | arg :: rest =>
    match operandTy local_decls arg with
    | none => .fatal
    | some arg_type =>
      match arg_type.peel_refs with
      | .adt adt_did generic_args =>
        if adt_did = target.lock then
          if generic_args.length ≠ 1 then .fatal
          else
            match generic_args.first? with
            | some generic_type =>
              let r := getLockClass tyMap generic_type
              .ok (some r.1, r.2)
            | none => .fatal
        else findLockClassArg target tyMap local_decls rest
      | _ => findLockClassArg target tyMap local_decls rest

/-- Lock class of a lock-method call terminator
(`AnalysisPass::lock_class_from_terminator`): `some` class exactly when
the block's terminator calls the lock method with a lock-typed
argument. -/
def lockClassFromTerminator (target : AnalysisPassTarget) (tyMap : LockClassTyMap)
    (mir_body : Body) (basic_block : Nat) : Step (Option Nat × LockClassTyMap) :=
  match mir_body.basic_blocks.get? basic_block with
  | none => .fatal
  | some bbd =>
    if ¬ isTerminatorLockInvocation target bbd.terminator then .ok (none, tyMap)
    else
      match bbd.terminator.kind with
      | .call _ args _ _ => findLockClassArg target tyMap mir_body.local_decls args
      | _ => .ok (none, tyMap)

/-- Pass-local state built by the invocation collector
(`AnalysisPass`'s `invocations`, `return_map`, `lock_class_ty_map`). -/
structure PassState where
  invocations : List (Bbid × LockInvocation)
  return_map : FunctionReturnMap
  lock_class_ty_map : LockClassTyMap
deriving DecidableEq, Repr

/-- Per-block step of the invocation collector: record a
`LockInvocation` for a lock-method call with a lock-typed argument,
else record a `ReturnLocation` for any other resolvable call with a
success target (`AnalysisPass::collect_invocations_for_body`, loop
body). -/
def collectInvocationStep (target : AnalysisPassTarget) (def_id : Nat) (mir_body : Body)
    (st : PassState) (basic_block : Nat) : Step PassState :=
  match mir_body.basic_blocks.get? basic_block with
  | none => .fatal
  | some bbd =>
    match lockClassFromTerminator target st.lock_class_ty_map mir_body basic_block with
    | .fatal => .fatal
    | .outOfFuel => .outOfFuel
    | .ok (some lock_class, tyMap) =>
      .ok { st with
            invocations := alInsert st.invocations ⟨def_id, basic_block⟩
              ⟨lock_class, bbd.terminator.span, []⟩,
            lock_class_ty_map := tyMap }
    | .ok (none, _) =>
      match getFnDefIdFromTerminator bbd.terminator with
      | some called_fn_def_id =>
        match bbd.terminator.kind with
        | .call _ _ destination targetBlock =>
          match targetBlock with
          | some t =>
            .ok { st with
                  return_map := insertReturnLocation st.return_map called_fn_def_id
                    ⟨⟨def_id, t⟩, destination⟩ }
          | none => .ok st
        | _ => .fatal
      | none => .ok st

/-- Invocation collection over one body: every reachable block is
inspected (`AnalysisPass::collect_invocations_for_body`). -/
def collectInvocationsForBody (target : AnalysisPassTarget) (st : PassState) (def_id : Nat)
    (mir_body : Body) : Step PassState :=
  stepFold (collectInvocationStep target def_id mir_body) mir_body.reachable (.ok st)

/-- Invocation collection over the crate: every `Fn` item except the
synthetic lock-filler shim (`AnalysisPass::collect_invocations`). -/
def collectInvocations (crate : Crate) (target : AnalysisPassTarget) (st : PassState) :
    Step PassState :=
  stepFold (fun st' it =>
      if it.is_fn && !it.is_lock_filler then collectInvocationsForBody target st' it.def_id it.body
      else .ok st')
    crate (.ok st)

/-- Largest local named by a statement, as relevant to the slot
transfer (the assignment destination). -/
def stmtLocalSup : StatementKind → Nat
  | .assign dest _ => dest
  | _ => 0

/-- Largest local a terminator can hand to the walk: the call
destination and the argument count (the callee slot of a moved guard
argument is at most `args.length`). -/
def termLocalSup : TerminatorKind → Nat
  | .call _ args destination _ => max destination args.length
  | _ => 0

/-- Local bound contributed by one block. -/
def blockLocalSup (bbd : BasicBlockData) : Nat :=
  max (bbd.statements.foldr (fun st acc => max (stmtLocalSup st) acc) 0)
    (termLocalSup bbd.terminator.kind)

/-- Local bound contributed by one body. -/
def bodyLocalSup (body : Body) : Nat :=
  body.basic_blocks.foldr (fun bbd acc => max (blockLocalSup bbd) acc) 0

/-- Local bound contributed by the crate. -/
def crateLocalSup (crate : Crate) : Nat :=
  crate.foldr (fun it acc => max (bodyLocalSup it.body) acc) 0

/-- Local bound contributed by the return map. -/
def returnMapLocalSup (rm : FunctionReturnMap) : Nat :=
  rm.foldr (fun p acc => max (p.2.foldr (fun rl a => max rl.return_local a) 0) acc) 0

/-- Strict upper bound on every local the guard-flow walk can track in
a given environment. -/
def envLocalBound (env : CollectorEnv) : Nat :=
  max (crateLocalSup env.crate) (returnMapLocalSup env.return_map) + 1

/-- All `(block, local)` pairs the walk can visit: blocks of the
function items, locals below the environment bound. -/
def pairUniverse (env : CollectorEnv) : List LocalBlockPair :=
  (env.crate.filter (·.is_fn)).flatMap (fun it =>
    (List.range it.body.basic_blocks.length).flatMap (fun bb =>
      (List.range (envLocalBound env)).map (fun l => ⟨⟨it.def_id, bb⟩, l⟩)))

/-- All function ids the sweep can usefully visit. -/
def fnUniverse (env : CollectorEnv) : List Nat :=
  (env.crate.filter (·.is_fn)).map (·.def_id)

/-- Number of universe elements not yet visited: the termination
measure of the guard-flow walk. -/
def collectorMeasure (env : CollectorEnv) (s : Collector) : Nat :=
  ((pairUniverse env).dedup.filter (fun p => decide (p ∉ s.visited_blocks))).length +
    ((fnUniverse env).dedup.filter (fun f => decide (f ∉ s.visited_functions))).length

/-- Fuel that suffices for every guard-flow walk of a pass. -/
def passFuel (crate : Crate) (st : PassState) : Nat :=
  collectorMeasure ⟨crate, st.invocations, st.return_map⟩ ⟨[], [], []⟩ + 1

/-- Fill phase (`AnalysisPass::collect_dependant_lock_classes`): for
each recorded invocation, run a fresh guard-flow collector from the
block receiving the guard (the call's success target) with the guard in
the call destination, and store the result as the invocation's
children. -/
def fillInvocationStep (crate : Crate) (fuel : Nat) (st : PassState)
    (acc : List (Bbid × LockInvocation)) (p : Bbid × LockInvocation) :
    Step (List (Bbid × LockInvocation)) :=
  match tryOptimizedMir crate p.1.def_id with
  | none => .fatal
  | some mir_body =>
    match mir_body.basic_blocks.get? p.1.basic_block with
    | none => .fatal
    | some bbd =>
      match bbd.terminator.kind with
      | .call _ _ destination (some targetBlock) =>
        match collect ⟨crate, st.invocations, st.return_map⟩ fuel
            (p.1.with_basic_block targetBlock) destination with
        | .ok children => .ok (acc ++ [(p.1, { p.2 with child_invocations := children })])
        | .fatal => .fatal
        | .outOfFuel => .outOfFuel
      | _ => .fatal

def collectDependantLockClasses (crate : Crate) (fuel : Nat) (st : PassState) : Step PassState :=
  match stepFold (fillInvocationStep crate fuel st) st.invocations (.ok []) with
  | .ok invs => .ok { st with invocations := invs }
  | .fatal => .fatal
  | .outOfFuel => .outOfFuel

/-- The class-to-classes dependency multimap
(`AnalysisPass::get_dependant_map`): an entry for every invocation's
class, whose value collects the classes of its children (looked up in
the invocation map; a missing child is a panic). -/
abbrev DependantMap := List (Nat × List Nat)

/-- Ensure a key with a default empty value
(`dependant_map.entry(class).or_default()`). -/
def alEnsureKey (m : DependantMap) (k : Nat) : DependantMap :=
  match alLookup m k with
  | some _ => m
  | none => m ++ [(k, [])]

/-- Add a dependency edge (`HashSet::insert` on the entry's value). -/
def alAddDep : DependantMap → Nat → Nat → DependantMap
  | [], k, c => [(k, [c])]
  | (k', cs) :: rest, k, c =>
    if k' = k then (k', if c ∈ cs then cs else cs ++ [c]) :: rest
    else (k', cs) :: alAddDep rest k c

/-- Build the dependency map (`AnalysisPass::get_dependant_map`). -/
def getDependantMap (invs : List (Bbid × LockInvocation)) : Step DependantMap :=
  stepFold (fun m (p : Bbid × LockInvocation) =>
      stepFold (fun m' child_id =>
          match alLookup invs child_id with
          | none => .fatal
          | some child_invocation => .ok (alAddDep m' p.2.cls child_invocation.cls))
        p.2.child_invocations (.ok (alEnsureKey m p.2.cls)))
    invs (.ok [])

/-- Memoized DFS deciding whether `target_class` is reachable from
`current_class` by at least one edge of the dependency map
(`AnalysisPass::dependancies_contain`; the source's spelling is kept).
The boolean result is paired with the visited set it grew. -/
def dependanciesContain : Nat → Nat → Nat → DependantMap → List Nat →
    Step (Bool × List Nat)
  | 0, _, _, _, _ => .outOfFuel
  | fuel + 1, target_class, current_class, dependant_map, visited_classes =>
    if current_class ∈ visited_classes then .ok (false, visited_classes)
    else
      let visited_classes' := current_class :: visited_classes
      match alLookup dependant_map current_class with
      | none => .fatal
      | some dependancies =>
        if target_class ∈ dependancies then .ok (true, visited_classes')
        else
          stepFold (fun (p : Bool × List Nat) dependant =>
              if p.1 then .ok p
              else dependanciesContain fuel target_class dependant dependant_map p.2)
            dependancies (.ok (false, visited_classes'))

/-- The deadlock detection loop of `AnalysisPass::run_pass`: for every
invocation of the iteration sequence and every child, emit the pair
when the parent's class is reachable from the child's class. The
iteration sequence is a parameter because the source iterates a
`HashMap` in unspecified order; lookups go to the invocation map
itself. -/
def detectChildStep (fuel : Nat) (invs : List (Bbid × LockInvocation))
    (dependant_map : DependantMap) (p : Bbid × LockInvocation)
    (pairs : List (Bbid × Bbid)) (child_id : Bbid) : Step (List (Bbid × Bbid)) :=
  match alLookup invs child_id with
  | none => .fatal
  | some child_invocation =>
    match dependanciesContain fuel p.2.cls child_invocation.cls dependant_map [] with
    | .ok (true, _) => .ok (pairs ++ [(p.1, child_id)])
    | .ok (false, _) => .ok pairs
    | .fatal => .fatal
    | .outOfFuel => .outOfFuel

def runDetection (fuel : Nat) (iter invs : List (Bbid × LockInvocation)) (dependant_map : DependantMap) :
    Step (List (Bbid × Bbid)) :=
  stepFold (fun pairs (p : Bbid × LockInvocation) =>
      stepFold (detectChildStep fuel invs dependant_map p)
        p.2.child_invocations (.ok pairs))
    iter (.ok [])

/-- A detected deadlock error (`DeadlockError`): parent and child lock
class types and spans. Equality and order in the source compare only
the child span. -/
structure DeadlockError where
  parent_ty : MirTy
  child_ty : MirTy
  parent_span : Nat
  child_span : Nat
deriving DecidableEq, Repr

/-- Insertion into the `BTreeSet<DeadlockError>`: ordered by child
span; an error whose child span is already present is NOT inserted
(`BTreeSet::insert` keeps the existing element). -/
def insertError : List DeadlockError → DeadlockError → List DeadlockError
  | [], e => [e]
  | e' :: rest, e =>
    if e.child_span < e'.child_span then e :: e' :: rest
    else if e.child_span = e'.child_span then e' :: rest
    else e' :: insertError rest e

/-- Build the ordered error set from the detected pairs
(`AnalysisPass::emit_deadlock_error` for each detected pair, in
detection order). -/
def buildErrors (tyMap : LockClassTyMap) (invs : List (Bbid × LockInvocation))
    (pairs : List (Bbid × Bbid)) : Step (List DeadlockError) :=
  stepFold (fun errors (pq : Bbid × Bbid) =>
      match alLookup invs pq.1, alLookup invs pq.2 with
      | some parent_invocation, some child_invocation =>
        match getTy tyMap parent_invocation.cls, getTy tyMap child_invocation.cls with
        | some parent_ty, some child_ty =>
          .ok (insertError errors
            ⟨parent_ty, child_ty, parent_invocation.span, child_invocation.span⟩)
        | _, _ => .fatal
      | _, _ => .fatal)
    pairs (.ok [])

/-- Structural content of one emitted diagnostic: the primary span (the
child span) and the two labels (`AnalysisPass::emit_all_errors`). -/
structure Diagnostic where
  primary_span : Nat
  parent_span : Nat
  parent_ty : MirTy
  child_span : Nat
  child_ty : MirTy
deriving DecidableEq, Repr

/-- Result status of a pass (`ErrorStatus`). -/
inductive ErrorStatus where
  | Ok
  | DeadlockDetected
deriving DecidableEq, Repr

/-- Emit all errors in set order and report the status
(`AnalysisPass::emit_all_errors`). -/
def emitAllErrors (errors : List DeadlockError) : List Diagnostic × ErrorStatus :=
  (errors.map (fun e => ⟨e.child_span, e.parent_span, e.parent_ty, e.child_span, e.child_ty⟩),
   if errors.length > 0 then .DeadlockDetected else .Ok)

/-- Dependency analysis and diagnostics from a filled pass state,
iterating the detection loop over the given sequence (the tail of
`AnalysisPass::run_pass`). -/
def runPassDiagnostics (st : PassState) (iter : List (Bbid × LockInvocation)) :
    Step (List Diagnostic × ErrorStatus) :=
  match getDependantMap st.invocations with
  | .ok dependant_map =>
    match runDetection (dependant_map.length + 1) iter st.invocations dependant_map with
    | .ok pairs =>
      match buildErrors st.lock_class_ty_map st.invocations pairs with
      | .ok errors => .ok (emitAllErrors errors)
      | .fatal => .fatal
      | .outOfFuel => .outOfFuel
    | .fatal => .fatal
    | .outOfFuel => .outOfFuel
  | .fatal => .fatal
  | .outOfFuel => .outOfFuel

/-- Collection phases of one pass (`AnalysisPass::run_pass` up to and
including the guard-flow fill): invocation collection, then children
collection. `next_class` seeds the global lock class counter. -/
def runPassCollect (crate : Crate) (target : AnalysisPassTarget) (next_class : Nat) :
    Step PassState :=
  match collectInvocations crate target ⟨[], [], ⟨[], [], next_class⟩⟩ with
  | .ok st1 => collectDependantLockClasses crate (passFuel crate st1) st1
  | .fatal => .fatal
  | .outOfFuel => .outOfFuel

/-- One full analysis pass (`AnalysisPass::run_pass`), iterating the
detection loop over the invocation map in its canonical order. -/
def runPass (crate : Crate) (target : AnalysisPassTarget) (next_class : Nat) :
    Step (List Diagnostic × ErrorStatus) :=
  match runPassCollect crate target next_class with
  | .ok st => runPassDiagnostics st st.invocations
  | .fatal => .fatal
  | .outOfFuel => .outOfFuel


/-- Element type protected by the example mutex. -/
def tyX : MirTy := .other 7

/-- The example lock ADT type `Lock<X>` (`DefId` 50, one generic). -/
def lockTyX : MirTy := .adt 50 (.cons tyX .nil)

/-- The example guard type. -/
def guardTy : MirTy := .other 2

/-- The example pass target: lock 50, constructor 55, lock method 60,
guard 70. -/
def exampleTarget : AnalysisPassTarget := ⟨50, 55, 60, 70⟩

/-- The example lock-method callee operand. -/
def lockCallee : Operand := .constant (some 60) (.other 1)

/-- Body of a function that acquires the same lock three times in a row
without dropping (locals: 1 the lock, 2-4 the guards), then drops the
guards. -/
def tripleLockBody : Body :=
  { basic_blocks := [
      { statements := [], terminator := { kind := .call lockCallee [.move 1] 2 (some 1), span := 100 } },
      { statements := [], terminator := { kind := .call lockCallee [.move 1] 3 (some 2), span := 200 } },
      { statements := [], terminator := { kind := .call lockCallee [.move 1] 4 (some 3), span := 300 } },
      { statements := [], terminator := { kind := .drop 4 4, span := 0 } },
      { statements := [], terminator := { kind := .drop 3 5, span := 0 } },
      { statements := [], terminator := { kind := .drop 2 6, span := 0 } },
      { statements := [], terminator := { kind := .ret, span := 0 } }],
    local_decls := [.other 0, lockTyX, guardTy, guardTy, guardTy] }

/-- Crate with the triple-lock function (id 1). -/
def tripleLockCrate : Crate := [⟨1, true, false, tripleLockBody⟩]

/-- Caller body for the interprocedural walk examples: block 0 passes
the guard (local 5) as first call argument to function 11, destination
local 6. -/
def c2CallerBody : Body :=
  { basic_blocks := [
      { statements := [], terminator := { kind := .call (.constant (some 11) (.other 1)) [.move 5] 6 (some 1), span := 0 } },
      { statements := [], terminator := { kind := .unreachable, span := 0 } }],
    local_decls := [] }

/-- Callee body: drops its first argument (local 1) and returns. -/
def c2CalleeBody : Body :=
  { basic_blocks := [
      { statements := [], terminator := { kind := .drop 1 1, span := 0 } },
      { statements := [], terminator := { kind := .ret, span := 0 } }],
    local_decls := [] }

/-- Body whose switch branch returns the guard (local 3) while the
otherwise branch passes it to an unresolvable callee. -/
def c2SwitchBody : Body :=
  { basic_blocks := [
      { statements := [], terminator := { kind := .switchInt [1] 2, span := 0 } },
      { statements := [.assign 0 (.use (.move 3))], terminator := { kind := .ret, span := 0 } },
      { statements := [], terminator := { kind := .call (.constant none (.other 1)) [.move 3] 4 (some 3), span := 0 } },
      { statements := [], terminator := { kind := .unreachable, span := 0 } }],
    local_decls := [] }

/-- Crate for the call-arm examples: caller 10, callee 11, switching
function 12. -/
def c2Crate : Crate :=
  [⟨10, true, false, c2CallerBody⟩, ⟨11, true, false, c2CalleeBody⟩, ⟨12, true, false, c2SwitchBody⟩]

/-- Collector environment over `c2Crate` with no invocations and no
recorded return locations. -/
def c2Env : CollectorEnv := ⟨c2Crate, [], []⟩

/-- Body that acquires a lock and moves the guard into the return
place: the forward walk reaches `Return` with the guard in local 0
inside a function that is never called (no recorded return
locations). -/
def c6Body : Body :=
  { basic_blocks := [
      { statements := [], terminator := { kind := .call lockCallee [.move 2] 1 (some 1), span := 100 } },
      { statements := [.assign 0 (.use (.move 1))], terminator := { kind := .ret, span := 0 } }],
    local_decls := [.other 0, guardTy, lockTyX] }

/-- Crate with only the guard-returning entry function (id 20). -/
def c6Crate : Crate := [⟨20, true, false, c6Body⟩]

/-- Whether an operand is a move or copy of the given local (the cases
of the argument scan that act on the guard). -/
def operandMentions (cl : Nat) : Operand → Bool
  | .move place => place == cl
  | .copy place => place == cl
  | .constant _ _ => false

/-- The triple-lock invocation map after the children fill, written
out (the value of `collectDependantLockClasses` on the triple-lock
crate). -/
def tlFilledInvs : List (Bbid × LockInvocation) :=
  [(⟨1, 0⟩, ⟨0, 100, [⟨1, 1⟩, ⟨1, 2⟩]⟩), (⟨1, 1⟩, ⟨0, 200, [⟨1, 2⟩]⟩), (⟨1, 2⟩, ⟨0, 300, []⟩)]

/-- The filled triple-lock pass state. -/
def tlFilledState : PassState :=
  ⟨tlFilledInvs, [], ⟨[(0, .other 7)], [(.other 7, 0)], 1⟩⟩

/-- Growth relation of the guard-flow collector state: the visited sets
only grow, and every new dependant class is a key of the invocation
map. -/
def Evolves (keys : List Bbid) (s s' : Collector) : Prop :=
  (∀ p ∈ s.visited_blocks, p ∈ s'.visited_blocks) ∧
  (∀ f ∈ s.visited_functions, f ∈ s'.visited_functions) ∧
  (∀ b ∈ s'.dependant_classes, b ∈ s.dependant_classes ∨ b ∈ keys)

/-- Dependency edges of the dependency map (value-list membership under
the key). -/
def depsOf (m : DependantMap) (a : Nat) : List Nat :=
  (alLookup m a).getD []

/-- Directed path of length at least one in the dependency map. -/
inductive DepPath (m : DependantMap) : Nat → Nat → Prop where
  | edge {a b : Nat} : b ∈ depsOf m a → DepPath m a b
  | step {a b c : Nat} : b ∈ depsOf m a → DepPath m b c → DepPath m a c

/-- Whether some call argument's type, after stripping references, is
the configured lock ADT (the condition under which
`lock_class_from_terminator` finds a lock class or panics). -/
def hasLockArg (target : AnalysisPassTarget) (local_decls : List MirTy) (args : List Operand) : Bool :=
  args.any (fun arg =>
    match operandTy local_decls arg with
    | some arg_type =>
      match arg_type.peel_refs with
      | .adt adt_did _ => adt_did == target.lock
      | _ => false
    | none => false)

/-- Whether a terminator is a call carrying a lock-typed argument. -/
def terminatorHasLockArg (target : AnalysisPassTarget) (local_decls : List MirTy) :
    TerminatorKind → Bool
  | .call _ args _ _ => hasLockArg target local_decls args
  | _ => false

/-- Number of dependency-map keys not yet in the visited set: the
termination measure of the cycle-detection DFS. -/
def unvisitedKeys (m : DependantMap) (visited : List Nat) : Nat :=
  ((alKeys m).dedup.filter (fun c => decide (c ∉ visited))).length

/-- Boolean view of one child check of the detection loop: true exactly
when the child resolves and the DFS answers positively (used to
characterize a detection run that did not panic). -/
def detectBool (fuel : Nat) (invs : List (Bbid × LockInvocation)) (m : DependantMap)
    (cls : Nat) (j : Bbid) : Bool :=
  match alLookup invs j with
  | none => false
  | some child =>
    match dependanciesContain fuel cls child.cls m [] with
    | .ok (true, _) => true
    | _ => false

/-!
Theorems: generic fold and lookup lemmas, then the per-claim
development.
-/

theorem stepFold_nil {σ τ : Type} (step : σ → τ → Step σ) (init : Step σ) :
    stepFold step [] init = init := rfl

theorem stepFold_cons {σ τ : Type} (step : σ → τ → Step σ) (x : τ) (l : List τ) (s : σ) :
    stepFold step (x :: l) (.ok s) = stepFold step l (step s x) := rfl

theorem stepFold_fatal {σ τ : Type} (step : σ → τ → Step σ) (l : List τ) :
    stepFold step l .fatal = .fatal := by
  induction l with
  | nil => rfl
  | cons x xs ih => simpa [stepFold, List.foldl] using ih

theorem stepFold_outOfFuel {σ τ : Type} (step : σ → τ → Step σ) (l : List τ) :
    stepFold step l .outOfFuel = .outOfFuel := by
  induction l with
  | nil => rfl
  | cons x xs ih => simpa [stepFold, List.foldl] using ih

/-- If a `stepFold` run from an ok state ends in an ok state, any
reflexive transitive relation preserved by each step relates the
initial and final states. -/
theorem stepFold_ok_rel {σ τ : Type} (step : σ → τ → Step σ) (P : σ → σ → Prop)
    (hrefl : ∀ s, P s s) (htrans : ∀ a b c, P a b → P b c → P a c)
    (l : List τ) (s0 sF : σ)
    (hstep : ∀ s x s', x ∈ l → step s x = .ok s' → P s s')
    (h : stepFold step l (.ok s0) = .ok sF) : P s0 sF := by
  induction l generalizing s0 with
  | nil => simp only [stepFold_nil] at h; cases h; exact hrefl _
  | cons x xs ih =>
    rw [stepFold_cons] at h
    cases hx : step s0 x with
    | ok s1 =>
      rw [hx] at h
      exact htrans _ _ _ (hstep _ _ _ (List.mem_cons_self _ _) hx)
        (ih _ (fun s y s' hy => hstep s y s' (List.mem_cons_of_mem _ hy)) h)
    | fatal => rw [hx, stepFold_fatal] at h; cases h
    | outOfFuel => rw [hx, stepFold_outOfFuel] at h; cases h

/-- If a `stepFold` run succeeds, every list element was processed from
some intermediate ok state, whose successor state is related to the
final state by any reflexive transitive step-preserved relation. -/
theorem stepFold_ok_elem {σ τ : Type} (step : σ → τ → Step σ) (P : σ → σ → Prop)
    (hrefl : ∀ s, P s s) (htrans : ∀ a b c, P a b → P b c → P a c)
    (l : List τ) (sF : σ) (x : τ) :
    ∀ s0, (∀ s y s', y ∈ l → step s y = .ok s' → P s s') → x ∈ l →
      stepFold step l (.ok s0) = .ok sF →
      ∃ s1 s2, step s1 x = .ok s2 ∧ P s2 sF := by
  induction l with
  | nil => intro s0 _ hx; cases hx
  | cons y ys ih =>
    intro s0 hstep hx h
    rw [stepFold_cons] at h
    cases hy : step s0 y with
    | ok s1 =>
      rw [hy] at h
      rcases List.mem_cons.mp hx with rfl | hx'
      · exact ⟨s0, s1, hy,
          stepFold_ok_rel step P hrefl htrans ys s1 sF
            (fun s z s' hz => hstep s z s' (List.mem_cons_of_mem _ hz)) h⟩
      · exact ih _ (fun s z s' hz => hstep s z s' (List.mem_cons_of_mem _ hz)) hx' h
    | fatal => rw [hy, stepFold_fatal] at h; cases h
    | outOfFuel => rw [hy, stepFold_outOfFuel] at h; cases h

/-- A `stepFold` never runs out of fuel when no step does (under an
invariant preserved by the steps). -/
theorem stepFold_ne_outOfFuel {σ τ : Type} (step : σ → τ → Step σ) (Q : σ → Prop)
    (l : List τ) (s0 : σ)
    (hne : ∀ s x, x ∈ l → Q s → step s x ≠ .outOfFuel)
    (hpres : ∀ s x s', x ∈ l → Q s → step s x = .ok s' → Q s')
    (hQ : Q s0) : stepFold step l (.ok s0) ≠ .outOfFuel := by
  induction l generalizing s0 with
  | nil => simp [stepFold_nil]
  | cons x xs ih =>
    rw [stepFold_cons]
    cases hx : step s0 x with
    | ok s1 =>
      exact ih _ (fun s y hy => hne s y (List.mem_cons_of_mem _ hy))
        (fun s y s' hy => hpres s y s' (List.mem_cons_of_mem _ hy))
        (hpres _ _ _ (List.mem_cons_self _ _) hQ hx)
    | fatal => rw [stepFold_fatal]; intro hc; cases hc
    | outOfFuel => exact absurd hx (hne _ _ (List.mem_cons_self _ _) hQ)

theorem alLookup_mem {α : Type} [DecidableEq α] {β : Type} {l : List (α × β)} {k : α} {v : β}
    (h : alLookup l k = some v) : (k, v) ∈ l := by
  unfold alLookup at h
  cases hf : l.find? (fun p => p.1 == k) with
  | none => rw [hf] at h; cases h
  | some p =>
    rw [hf] at h
    have hm := List.mem_of_find?_eq_some hf
    have hp := List.find?_some hf
    simp only [beq_iff_eq] at hp
    cases h
    cases p with
    | mk a b => cases hp; exact hm

theorem alLookup_isSome_of_mem_keys {α : Type} [DecidableEq α] {β : Type}
    {l : List (α × β)} {k : α} (h : k ∈ alKeys l) : ∃ v, alLookup l k = some v := by
  induction l with
  | nil => cases h
  | cons p rest ih =>
    by_cases hk : p.1 = k
    · exact ⟨p.2, by simp [alLookup, List.find?, hk]⟩
    · have : k ∈ alKeys rest := by
        rcases List.mem_cons.mp h with h1 | h2
        · exact absurd h1.symm hk
        · exact h2
      rcases ih this with ⟨v, hv⟩
      refine ⟨v, ?_⟩
      simp only [alLookup, List.find?]
      have : (p.1 == k) = false := beq_false_of_ne hk
      rw [this]
      exact hv

theorem alKeys_alInsert {α : Type} [DecidableEq α] {β : Type} (l : List (α × β)) (k : α) (v : β) :
    ∀ a, a ∈ alKeys (alInsert l k v) ↔ a = k ∨ a ∈ alKeys l := by
  intro a
  induction l with
  | nil => simp [alInsert, alKeys]
  | cons p rest ih =>
    obtain ⟨k', v'⟩ := p
    by_cases hk : k' = k
    · subst hk
      have heq : alInsert ((k', v') :: rest) k' v = (k', v) :: rest := by
        simp [alInsert]
      rw [heq]
      simp only [alKeys, List.map_cons, List.mem_cons]
      tauto
    · have heq : alInsert ((k', v') :: rest) k v = (k', v') :: alInsert rest k v := by
        simp only [alInsert, if_neg hk]
      rw [heq]
      simp only [alKeys, List.map_cons, List.mem_cons]
      simp only [alKeys] at ih
      tauto

/-- Every reachable block index is a valid index into the body. -/
theorem reachable_valid (body : Body) :
    ∀ b ∈ body.reachable, ∃ bbd, body.basic_blocks.get? b = some bbd := by
  have key : ∀ fuel visited ws,
      (∀ b ∈ visited, ∃ bbd, body.basic_blocks.get? b = some bbd) →
      ∀ b ∈ reachableAux body fuel visited ws, ∃ bbd, body.basic_blocks.get? b = some bbd := by
    intro fuel
    induction fuel with
    | zero => intro visited ws h; exact h
    | succ n ih =>
      intro visited ws h
      cases ws with
      | nil => exact h
      | cons w rest =>
        by_cases hw : w ∈ visited
        · simp only [reachableAux, if_pos hw]
          exact ih visited rest h
        · simp only [reachableAux, if_neg hw]
          cases hb : body.basic_blocks.get? w with
          | none => exact ih visited rest h
          | some bbd =>
            refine ih _ _ ?_
            intro b hb'
            rcases List.mem_append.mp hb' with h1 | h2
            · exact h b h1
            · rcases List.mem_singleton.mp h2 with rfl
              exact ⟨bbd, hb⟩
  exact key _ [] [0] (by intro b hb; cases hb)

/-- Claim C8: `GuardState.combine` is the join of the total order
`Undetermined` before `Dropped` before `Returned`: it is commutative,
associative and idempotent, `Undetermined` is its identity, `Returned`
is absorbing, the result is `Returned` exactly when one argument is,
and its rank is the maximum of the argument ranks. -/
theorem guardState_combine_join :
    (∀ a b : GuardState, a.combine b = b.combine a) ∧
    (∀ a b c : GuardState, (a.combine b).combine c = a.combine (b.combine c)) ∧
    (∀ a : GuardState, a.combine a = a) ∧
    (∀ a : GuardState, GuardState.Undetermined.combine a = a ∧ a.combine .Undetermined = a) ∧
    (∀ a : GuardState, GuardState.Returned.combine a = .Returned ∧ a.combine .Returned = .Returned) ∧
    (∀ a b : GuardState, a.combine b = .Returned ↔ a = .Returned ∨ b = .Returned) ∧
    (∀ a b : GuardState, (a.combine b).rank = max a.rank b.rank) := by
  refine ⟨?_, ?_, ?_, ?_, ?_, ?_, ?_⟩ <;> decide

theorem Evolves.rfl {keys : List Bbid} (s : Collector) : Evolves keys s s :=
  ⟨fun _ h => h, fun _ h => h, fun _ h => Or.inl h⟩

theorem Evolves.trans {keys : List Bbid} {a b c : Collector}
    (h1 : Evolves keys a b) (h2 : Evolves keys b c) : Evolves keys a c := by
  refine ⟨fun p hp => h2.1 p (h1.1 p hp), fun f hf => h2.2.1 f (h1.2.1 f hf), fun x hx => ?_⟩
  rcases h2.2.2 x hx with h | h
  · exact h1.2.2 x h
  · exact Or.inr h

theorem mem_insertBbidSet {l : List Bbid} {b x : Bbid} (h : x ∈ insertBbidSet l b) :
    x ∈ l ∨ x = b := by
  unfold insertBbidSet at h
  by_cases hb : b ∈ l
  · rw [if_pos hb] at h; exact Or.inl h
  · rw [if_neg hb] at h
    rcases List.mem_append.mp h with h1 | h2
    · exact Or.inl h1
    · exact Or.inr (List.mem_singleton.mp h2)

theorem evolves_insertVisitedBlock (keys : List Bbid) (s : Collector) (p : LocalBlockPair) :
    Evolves keys s (insertVisitedBlock s p) :=
  ⟨fun q hq => List.mem_cons_of_mem _ hq, fun _ hf => hf, fun _ hx => Or.inl hx⟩

theorem evolves_insertVisitedFunction (keys : List Bbid) (s : Collector) (f : Nat) :
    Evolves keys s (insertVisitedFunction s f) :=
  ⟨fun q hq => hq, fun g hg => List.mem_cons_of_mem _ hg, fun _ hx => Or.inl hx⟩

theorem evolves_markInvocation (env : CollectorEnv) (s : Collector) (b : Bbid) :
    Evolves (alKeys env.invocation_map) s (markInvocation env s b) := by
  unfold markInvocation
  by_cases hb : b ∈ alKeys env.invocation_map
  · rw [if_pos hb]
    refine ⟨fun q hq => hq, fun f hf => hf, fun x hx => ?_⟩
    rcases mem_insertBbidSet hx with h | rfl
    · exact Or.inl h
    · exact Or.inr hb
  · rw [if_neg hb]; exact Evolves.rfl s

/-- Visited sets of `markInvocation` are unchanged. -/
theorem markInvocation_visited (env : CollectorEnv) (s : Collector) (b : Bbid) :
    (markInvocation env s b).visited_blocks = s.visited_blocks ∧
    (markInvocation env s b).visited_functions = s.visited_functions := by
  unfold markInvocation
  by_cases hb : b ∈ alKeys env.invocation_map
  · rw [if_pos hb]; exact ⟨rfl, rfl⟩
  · rw [if_neg hb]; exact ⟨rfl, rfl⟩

theorem length_filter_mono_pred {α : Type} (l : List α) (p q : α → Bool)
    (h : ∀ a ∈ l, p a = true → q a = true) :
    (l.filter p).length ≤ (l.filter q).length := by
  induction l with
  | nil => exact Nat.le_refl _
  | cons x xs ih =>
    have ih' := ih (fun a ha => h a (List.mem_cons_of_mem _ ha))
    by_cases hp : p x = true
    · have hq := h x (List.mem_cons_self _ _) hp
      simp only [List.filter_cons, hp, hq, if_true, List.length_cons]
      exact Nat.succ_le_succ ih'
    · have hp' : p x = false := by revert hp; cases p x <;> simp
      simp only [List.filter_cons, hp']
      by_cases hq : q x = true
      · simp only [hq, if_true, List.length_cons]
        exact Nat.le_succ_of_le ih'
      · have hq' : q x = false := by revert hq; cases q x <;> simp
        simp only [hq']
        exact ih'

theorem length_filter_insert_visited {α : Type} [DecidableEq α] :
    ∀ (l : List α), l.Nodup → ∀ (x : α) (v : List α), x ∈ l → x ∉ v →
    (l.filter (fun a => decide (a ∉ x :: v))).length + 1 =
      (l.filter (fun a => decide (a ∉ v))).length := by
  intro l
  induction l with
  | nil => intro _ x v hx; cases hx
  | cons y ys ih =>
    intro hnd x v hx hxv
    rcases List.mem_cons.mp hx with rfl | hx'
    · have hy1 : (decide (x ∉ x :: v)) = false := by simp
      have hy2 : (decide (x ∉ v)) = true := by simp [hxv]
      simp only [List.filter_cons, hy1, hy2, if_true, List.length_cons, if_false]
      have hnin : x ∉ ys := (List.nodup_cons.mp hnd).1
      have heq : List.filter (fun a => decide (a ∉ x :: v)) ys
          = List.filter (fun a => decide (a ∉ v)) ys := by
        apply List.filter_congr
        intro a ha
        have hay : a ≠ x := fun hc => hnin (hc ▸ ha)
        simp [List.mem_cons, hay]
      rw [heq]
      simp
    · have hxy : x ≠ y := fun hc => (List.nodup_cons.mp hnd).1 (hc ▸ hx')
      have heq : (decide (y ∉ x :: v)) = (decide (y ∉ v)) := by
        have hyx : y ≠ x := fun hc => hxy hc.symm
        simp [List.mem_cons, hyx]
      have ihr := ih (List.nodup_cons.mp hnd).2 x v hx' hxv
      by_cases hyv : y ∈ v
      · have h1 : (decide (y ∉ x :: v)) = false := by simp [List.mem_cons, hyv]
        have h2 : (decide (y ∉ v)) = false := by simp [hyv]
        simp only [List.filter_cons, h1, h2, if_false]
        exact ihr
      · have h2 : (decide (y ∉ v)) = true := by simp [hyv]
        have h1 : (decide (y ∉ x :: v)) = true := heq.trans h2
        simp only [List.filter_cons, h1, h2, if_true, List.length_cons]
        omega

theorem collectorMeasure_mono (env : CollectorEnv) {keys : List Bbid} {s s' : Collector}
    (h : Evolves keys s s') : collectorMeasure env s' ≤ collectorMeasure env s := by
  unfold collectorMeasure
  have h1 := length_filter_mono_pred ((pairUniverse env).dedup)
    (fun p => decide (p ∉ s'.visited_blocks)) (fun p => decide (p ∉ s.visited_blocks))
    (by
      intro a _ ha
      simp only [decide_eq_true_eq] at ha ⊢
      exact fun hc => ha (h.1 a hc))
  have h2 := length_filter_mono_pred ((fnUniverse env).dedup)
    (fun f => decide (f ∉ s'.visited_functions)) (fun f => decide (f ∉ s.visited_functions))
    (by
      intro a _ ha
      simp only [decide_eq_true_eq] at ha ⊢
      exact fun hc => ha (h.2.1 a hc))
  omega

theorem collectorMeasure_insertVisitedBlock (env : CollectorEnv) (s : Collector)
    (p : LocalBlockPair) (hp : p ∈ pairUniverse env) (hnv : p ∉ s.visited_blocks) :
    collectorMeasure env (insertVisitedBlock s p) + 1 = collectorMeasure env s := by
  unfold collectorMeasure insertVisitedBlock
  have := length_filter_insert_visited ((pairUniverse env).dedup) (List.nodup_dedup _)
    p s.visited_blocks (List.mem_dedup.mpr hp) hnv
  simp only []
  omega

theorem collectorMeasure_insertVisitedFunction (env : CollectorEnv) (s : Collector)
    (f : Nat) (hf : f ∈ fnUniverse env) (hnv : f ∉ s.visited_functions) :
    collectorMeasure env (insertVisitedFunction s f) + 1 = collectorMeasure env s := by
  unfold collectorMeasure insertVisitedFunction
  have := length_filter_insert_visited ((fnUniverse env).dedup) (List.nodup_dedup _)
    f s.visited_functions (List.mem_dedup.mpr hf) hnv
  simp only []
  omega

theorem collectorMeasure_markInvocation (env env2 : CollectorEnv) (s : Collector) (b : Bbid) :
    collectorMeasure env (markInvocation env2 s b) = collectorMeasure env s := by
  unfold collectorMeasure
  rw [(markInvocation_visited env2 s b).1, (markInvocation_visited env2 s b).2]

theorem le_foldr_max {α : Type} (f : α → Nat) (l : List α) :
    ∀ x ∈ l, f x ≤ l.foldr (fun y acc => max (f y) acc) 0 := by
  induction l with
  | nil => intro x hx; cases hx
  | cons y ys ih =>
    intro x hx
    rcases List.mem_cons.mp hx with rfl | hx'
    · exact Nat.le_max_left _ _
    · exact Nat.le_trans (ih x hx') (Nat.le_max_right _ _)

/-- A successful MIR lookup pins an `is_fn` crate item. -/
theorem tryOptimizedMir_mem {crate : Crate} {d : Nat} {body : Body}
    (h : tryOptimizedMir crate d = some body) :
    ∃ it ∈ crate, it.is_fn = true ∧ it.def_id = d ∧ it.body = body := by
  unfold tryOptimizedMir at h
  cases hf : crate.find? (fun it => it.is_fn && it.def_id == d) with
  | none => rw [hf] at h; cases h
  | some it =>
    rw [hf] at h
    have hm := List.mem_of_find?_eq_some hf
    have hp := List.find?_some hf
    simp only [Bool.and_eq_true, beq_iff_eq] at hp
    cases h
    exact ⟨it, hm, hp.1, hp.2, rfl⟩

/-- A pair with a valid block of a crate function and a bounded local
is in the pair universe. -/
theorem mem_pairUniverse {env : CollectorEnv} {d : Nat} {body : Body} {bb : Nat} {l : Nat}
    (hmir : tryOptimizedMir env.crate d = some body)
    (hbb : bb < body.basic_blocks.length) (hl : l < envLocalBound env) :
    (⟨⟨d, bb⟩, l⟩ : LocalBlockPair) ∈ pairUniverse env := by
  rcases tryOptimizedMir_mem hmir with ⟨it, hmem, hfn, hd, hbody⟩
  unfold pairUniverse
  refine List.mem_flatMap.mpr ⟨it, List.mem_filter.mpr ⟨hmem, by simp [hfn]⟩, ?_⟩
  refine List.mem_flatMap.mpr ⟨bb, List.mem_range.mpr (hbody ▸ hbb), ?_⟩
  refine List.mem_map.mpr ⟨l, List.mem_range.mpr hl, ?_⟩
  rw [hd]

/-- A function id with MIR is in the function universe. -/
theorem mem_fnUniverse {env : CollectorEnv} {d : Nat} {body : Body}
    (hmir : tryOptimizedMir env.crate d = some body) : d ∈ fnUniverse env := by
  rcases tryOptimizedMir_mem hmir with ⟨it, hmem, hfn, hd, _⟩
  unfold fnUniverse
  exact List.mem_map.mpr ⟨it, List.mem_filter.mpr ⟨hmem, by simp [hfn]⟩, hd⟩

/-- The whole-function sweep only grows the visited sets and only adds
dependant classes that are invocation-map keys. -/
theorem collectAllInvocations_evolves :
    ∀ (fuel : Nat) (env : CollectorEnv) (f : Nat) (s s' : Collector),
      collectAllInvocations fuel env f s = .ok s' →
      Evolves (alKeys env.invocation_map) s s' := by
  intro fuel
  induction fuel with
  | zero => intro env f s s' h; cases h
  | succ n ih =>
    intro env f s s' h
    unfold collectAllInvocations at h
    by_cases hf : f ∈ s.visited_functions
    · rw [if_pos hf] at h; cases h; exact Evolves.rfl _
    · rw [if_neg hf] at h
      have hstep : Evolves (alKeys env.invocation_map) s (insertVisitedFunction s f) :=
        evolves_insertVisitedFunction _ _ _
      cases hmir : tryOptimizedMir env.crate f with
      | none => rw [hmir] at h; cases h; exact hstep
      | some mir_body =>
        rw [hmir] at h
        refine hstep.trans (stepFold_ok_rel _ (Evolves (alKeys env.invocation_map))
          Evolves.rfl (fun _ _ _ => Evolves.trans) _ _ _ ?_ h)
        intro sa bb sb _ hstepOk
        simp only [sweepBlock] at hstepOk
        split at hstepOk
        · rename_i hkey
          cases hstepOk
          refine ⟨fun q hq => hq, fun g hg => hg, fun x hx => ?_⟩
          rcases mem_insertBbidSet hx with hx' | rfl
          · exact Or.inl hx'
          · exact Or.inr hkey
        · split at hstepOk
          · cases hstepOk
          · split at hstepOk
            · exact ih env _ sa sb hstepOk
            · cases hstepOk; exact Evolves.rfl _

/-- Folding branch walks (switch targets, return locations) with
`GuardState.combine` preserves collector evolution. -/
theorem combineStep_fold_evolves {τ : Type} (keys : List Bbid)
    (g : Collector → τ → Step (GuardState × Collector))
    (hg : ∀ s x gs' s', g s x = .ok (gs', s') → Evolves keys s s')
    (l : List τ) (gs0 : GuardState) (s0 : Collector) (gsF : GuardState) (sF : Collector)
    (h : stepFold (fun p x =>
        match g p.2 x with
        | .ok (gs', s') => .ok (p.1.combine gs', s')
        | .fatal => .fatal
        | .outOfFuel => .outOfFuel) l (.ok (gs0, s0)) = .ok (gsF, sF)) :
    Evolves keys s0 sF := by
  have := stepFold_ok_rel (σ := GuardState × Collector)
    (fun p x =>
        match g p.2 x with
        | .ok (gs', s') => .ok (p.1.combine gs', s')
        | .fatal => .fatal
        | .outOfFuel => .outOfFuel)
    (fun a b => Evolves keys a.2 b.2)
    (fun _ => Evolves.rfl _) (fun _ _ _ hab hbc => hab.trans hbc)
    l (gs0, s0) (gsF, sF) ?_ h
  · exact this
  · intro p x q _ hstep
    simp only [] at hstep
    cases hgx : g p.2 x with
    | ok r =>
      obtain ⟨a, b⟩ := r
      rw [hgx] at hstep
      cases hstep
      exact hg _ _ _ _ hgx
    | fatal => rw [hgx] at hstep; cases hstep
    | outOfFuel => rw [hgx] at hstep; cases hstep

/-- The terminator dispatch preserves collector evolution whenever its
three recursion callbacks do. -/
theorem handleTerminator_evolves
    {next : Collector → Nat → Nat → GuardState → Step (GuardState × Collector)}
    {into : Collector → Bbid → Nat → Bool → Step (GuardState × Collector)}
    {sweep : Collector → Nat → Step Collector}
    (keys : List Bbid)
    (hnext : ∀ s bb l gs gs' s', next s bb l gs = .ok (gs', s') → Evolves keys s s')
    (hinto : ∀ s b l e gs' s', into s b l e = .ok (gs', s') → Evolves keys s s')
    (hsweep : ∀ s f s', sweep s f = .ok s' → Evolves keys s s')
    (return_map : FunctionReturnMap) (basic_block_id : Bbid) (terminator : Terminator)
    (current_local : Nat) (examine_returns : Bool) (guard_state : GuardState)
    (s : Collector) (gs' : GuardState) (s' : Collector)
    (h : handleTerminator next into sweep return_map basic_block_id terminator
        current_local examine_returns guard_state s = .ok (gs', s')) :
    Evolves keys s s' := by
  obtain ⟨tk, tspan⟩ := terminator
  cases tk with
  | goto target =>
    exact hnext _ _ _ _ _ _ h
  | switchInt targets otherwise =>
    simp only [handleTerminator] at h
    split at h
    · rename_i gs2 s2 heq
      exact (combineStep_fold_evolves keys
        (fun sc t => into sc (basic_block_id.with_basic_block t) current_local examine_returns)
        (fun sc t a b hx => hinto _ _ _ _ _ _ hx) targets guard_state s gs2 s2 heq).trans
        (hnext _ _ _ _ _ _ h)
    · cases h
    · cases h
  | unwindResume => simp only [handleTerminator] at h; cases h; exact Evolves.rfl _
  | unwindTerminate => simp only [handleTerminator] at h; cases h; exact Evolves.rfl _
  | ret =>
    simp only [handleTerminator] at h
    by_cases hexr : examine_returns = true
    · rw [if_pos hexr] at h
      by_cases hcl : current_local = 0
      · rw [if_pos hcl] at h
        cases hlk : alLookup return_map basic_block_id.def_id with
        | none => rw [hlk] at h; cases h
        | some return_locations =>
          rw [hlk] at h
          simp only [] at h
          exact combineStep_fold_evolves keys
            (fun sc (rl : ReturnLocation) => into sc rl.return_bbid rl.return_local true)
            (fun sc rl a b hx => hinto _ _ _ _ _ _ hx) return_locations guard_state s gs' s' h
      · rw [if_neg hcl] at h; cases h
    · rw [if_neg hexr] at h
      by_cases hcl : current_local = 0
      · rw [if_pos hcl] at h; cases h; exact Evolves.rfl _
      · rw [if_neg hcl] at h; cases h
  | unreachable => simp only [handleTerminator] at h; cases h; exact Evolves.rfl _
  | drop place target =>
    simp only [handleTerminator] at h
    by_cases hd : place = current_local
    · rw [if_pos hd] at h; cases h; exact Evolves.rfl _
    · rw [if_neg hd] at h; exact hnext _ _ _ _ _ _ h
  | call func args destination target =>
    simp only [handleTerminator] at h
    by_cases hd : destination = current_local
    · rw [if_pos hd] at h; cases h
    · rw [if_neg hd] at h
      cases hga : findGuardArgLocal current_local args 0 with
      | none => rw [hga] at h; cases h
      | some guard_arg_local =>
        rw [hga] at h
        simp only [] at h
        cases guard_arg_local with
        | some arg =>
          cases hfd : getFnDefIdFromTerminator ⟨.call func args destination target, tspan⟩ with
          | none => rw [hfd] at h; simp only [] at h; cases h; exact Evolves.rfl _
          | some fn_def_id =>
            rw [hfd] at h
            simp only [] at h
            cases hin : into s (Bbid.fn_start fn_def_id) arg false with
            | ok r =>
              obtain ⟨gsr, s2⟩ := r
              rw [hin] at h
              have hev : Evolves keys s s2 := hinto _ _ _ _ _ _ hin
              cases gsr with
              | Returned =>
                simp only [continueAt] at h
                cases target with
                | some t => exact hev.trans (hnext _ _ _ _ _ _ h)
                | none => cases h; exact hev
              | Dropped => cases h; exact hev
              | Undetermined => cases h; exact hev
            | fatal => rw [hin] at h; cases h
            | outOfFuel => rw [hin] at h; cases h
        | none =>
          cases hfd : getFnDefIdFromTerminator ⟨.call func args destination target, tspan⟩ with
          | none =>
            rw [hfd] at h
            simp only [continueAt] at h
            cases target with
            | some t => exact hnext _ _ _ _ _ _ h
            | none => cases h; exact Evolves.rfl _
          | some fn_def_id =>
            rw [hfd] at h
            simp only [] at h
            cases hsw : sweep s fn_def_id with
            | ok s2 =>
              rw [hsw] at h
              have hev : Evolves keys s s2 := hsweep _ _ _ hsw
              simp only [continueAt] at h
              cases target with
              | some t => exact hev.trans (hnext _ _ _ _ _ _ h)
              | none => cases h; exact hev
            | fatal => rw [hsw] at h; cases h
            | outOfFuel => rw [hsw] at h; cases h
  | assert target => exact hnext _ _ _ _ _ _ h
  | yield => simp only [handleTerminator] at h; cases h
  | generatorDrop => simp only [handleTerminator] at h; cases h
  | falseEdge real_target => exact hnext _ _ _ _ _ _ h
  | falseUnwind real_target => exact hnext _ _ _ _ _ _ h
  | inlineAsm destination =>
    simp only [handleTerminator] at h
    cases destination with
    | some dest => exact hnext _ _ _ _ _ _ h
    | none => cases h; exact Evolves.rfl _

/-- The guard-flow walk only grows the visited sets and only adds
dependant classes that are invocation-map keys. -/
theorem collectInnerAux_evolves :
    ∀ (fuel : Nat) (env : CollectorEnv) (s : Collector) (b : Bbid) (l : Nat) (e : Bool)
      (g : GuardState) (gs' : GuardState) (s' : Collector),
      collectInnerAux fuel env s b l e g = .ok (gs', s') →
      Evolves (alKeys env.invocation_map) s s' := by
  intro fuel
  induction fuel with
  | zero => intro env s b l e g gs' s' h; cases h
  | succ n ih =>
    intro env s b l e g gs' s' h
    unfold collectInnerAux at h
    cases hmir : tryOptimizedMir env.crate b.def_id with
    | none => rw [hmir] at h; cases h; exact Evolves.rfl _
    | some mir_body =>
      rw [hmir] at h
      simp only [] at h
      by_cases hv : (⟨b, l⟩ : LocalBlockPair) ∈ s.visited_blocks
      · rw [if_pos hv] at h; cases h; exact Evolves.rfl _
      · rw [if_neg hv] at h
        have hev1 : Evolves (alKeys env.invocation_map) s
            (markInvocation env (insertVisitedBlock s ⟨b, l⟩) b) :=
          (evolves_insertVisitedBlock _ _ _).trans (evolves_markInvocation _ _ _)
        cases hget : mir_body.basic_blocks.get? b.basic_block with
        | none => rw [hget] at h; cases h
        | some basic_block_data =>
          rw [hget] at h
          simp only [] at h
          cases hst : applyStatements basic_block_data.statements l with
          | none => rw [hst] at h; simp only [] at h; cases h
          | some current_local' =>
            rw [hst] at h
            simp only [] at h
            refine hev1.trans (handleTerminator_evolves (alKeys env.invocation_map)
              ?_ ?_ ?_ _ _ _ _ _ _ _ _ _ h)
            · intro sa bb la ga gb sb hx
              exact ih env sa _ la e ga gb sb hx
            · intro sa ba la ea gb sb hx
              exact ih env sa ba la ea _ gb sb hx
            · intro sa fa sb hx
              exact collectAllInvocations_evolves n env fa sa sb hx

theorem aggregateArgsScan_bound {dest cur : Nat} {args : List Operand} {l' : Nat}
    (h : aggregateArgsScan dest cur args = some l') : l' = cur ∨ l' = dest := by
  induction args with
  | nil => cases h; exact Or.inl rfl
  | cons arg rest ih =>
    unfold aggregateArgsScan at h
    cases arg with
    | copy place =>
      simp only [] at h
      by_cases hp : place = cur
      · rw [if_pos hp] at h; cases h
      · rw [if_neg hp] at h; exact ih h
    | move place =>
      simp only [] at h
      by_cases hp : place = cur
      · rw [if_pos hp] at h; cases h; exact Or.inr rfl
      · rw [if_neg hp] at h; exact ih h
    | constant fn ty =>
      simp only [] at h
      exact ih h

theorem calculateNewLocal_bound {st : StatementKind} {cur l' : Nat}
    (h : calculateNewLocalAfterStatement st cur = some l') :
    l' = cur ∨ l' ≤ stmtLocalSup st := by
  cases st with
  | assign dest rvalue =>
    unfold calculateNewLocalAfterStatement at h
    cases rvalue with
    | use operand =>
      simp only [] at h
      cases operand with
      | copy place =>
        simp only [] at h
        by_cases hp : place = cur
        · rw [if_pos hp] at h; cases h
        · rw [if_neg hp] at h; cases h; exact Or.inl rfl
      | move place =>
        simp only [] at h
        by_cases hp : place = cur
        · rw [if_pos hp] at h; cases h; exact Or.inr (Nat.le_refl _)
        · rw [if_neg hp] at h; cases h; exact Or.inl rfl
      | constant fn ty => simp only [] at h; cases h; exact Or.inl rfl
    | aggregate arguments =>
      simp only [] at h
      rcases aggregateArgsScan_bound h with rfl | rfl
      · exact Or.inl rfl
      · exact Or.inr (Nat.le_refl _)
    | otherRvalue => simp only [] at h; cases h; exact Or.inl rfl
  | deinit place =>
    unfold calculateNewLocalAfterStatement at h
    simp only [] at h
    by_cases hp : place = cur
    · rw [if_pos hp] at h; cases h
    · rw [if_neg hp] at h; cases h; exact Or.inl rfl
  | storageLive slot =>
    unfold calculateNewLocalAfterStatement at h
    simp only [] at h
    by_cases hp : slot = cur
    · rw [if_pos hp] at h; cases h
    · rw [if_neg hp] at h; cases h; exact Or.inl rfl
  | storageDead slot =>
    unfold calculateNewLocalAfterStatement at h
    simp only [] at h
    by_cases hp : slot = cur
    · rw [if_pos hp] at h; cases h
    · rw [if_neg hp] at h; cases h; exact Or.inl rfl
  | otherStatement => cases h; exact Or.inl rfl

theorem foldl_bind_none (rest : List StatementKind) :
    List.foldl (fun acc st => acc.bind fun l => calculateNewLocalAfterStatement st l)
      none rest = none := by
  induction rest with
  | nil => rfl
  | cons y ys ih => simpa using ih

theorem applyStatements_bound {B : Nat} :
    ∀ (stmts : List StatementKind) (cur l' : Nat),
      applyStatements stmts cur = some l' → cur < B →
      (∀ st ∈ stmts, stmtLocalSup st < B) → l' < B := by
  intro stmts
  induction stmts with
  | nil =>
    intro cur l' h hcur _
    simp only [applyStatements, List.foldl_nil] at h
    cases h; exact hcur
  | cons st rest ih =>
    intro cur l' h hcur hsup
    simp only [applyStatements, List.foldl_cons, Option.some_bind] at h
    cases h1 : calculateNewLocalAfterStatement st cur with
    | none =>
      rw [h1, foldl_bind_none] at h
      cases h
    | some c1 =>
      rw [h1] at h
      have hc1 : c1 < B := by
        rcases calculateNewLocal_bound h1 with rfl | hle
        · exact hcur
        · exact Nat.lt_of_le_of_lt hle (hsup st (List.mem_cons_self _ _))
      exact ih c1 l' (by simpa [applyStatements] using h) hc1
        (fun st' hst' => hsup st' (List.mem_cons_of_mem _ hst'))

theorem findGuardArgLocal_le {cur : Nat} :
    ∀ (args : List Operand) (i : Nat) (a : Nat),
      findGuardArgLocal cur args i = some (some a) → a ≤ i + args.length := by
  intro args
  induction args with
  | nil => intro i a h; cases h
  | cons arg rest ih =>
    intro i a h
    unfold findGuardArgLocal at h
    cases arg with
    | move place =>
      simp only [] at h
      by_cases hp : place = cur
      · rw [if_pos hp] at h
        cases h
        simp only [List.length_cons]
        omega
      · rw [if_neg hp] at h
        have := ih (i + 1) a h
        simp only [List.length_cons]
        omega
    | copy place =>
      simp only [] at h
      by_cases hp : place = cur
      · rw [if_pos hp] at h; cases h
      · rw [if_neg hp] at h
        have := ih (i + 1) a h
        simp only [List.length_cons]
        omega
    | constant fn ty =>
      simp only [] at h
      have := ih (i + 1) a h
      simp only [List.length_cons]
      omega

/-- Statement and terminator local bounds of a block of a body found in
the environment's crate are below the environment local bound. -/
theorem block_sups_lt_bound {env : CollectorEnv} {d : Nat} {body : Body} {bb : Nat}
    {bbd : BasicBlockData} (hmir : tryOptimizedMir env.crate d = some body)
    (hget : body.basic_blocks.get? bb = some bbd) :
    (∀ st ∈ bbd.statements, stmtLocalSup st < envLocalBound env) ∧
      termLocalSup bbd.terminator.kind < envLocalBound env := by
  rcases tryOptimizedMir_mem hmir with ⟨it, hmem, _, _, hbody⟩
  have hbbd_mem : bbd ∈ body.basic_blocks := List.get?_mem hget
  have hblock : blockLocalSup bbd ≤ bodyLocalSup body :=
    le_foldr_max blockLocalSup body.basic_blocks bbd hbbd_mem
  have hbody_le : bodyLocalSup body ≤ crateLocalSup env.crate := by
    have h2 := le_foldr_max (fun it' => bodyLocalSup it'.body) env.crate it hmem
    simp only [] at h2
    rw [hbody] at h2
    exact h2
  have hcrate_lt : crateLocalSup env.crate < envLocalBound env := by
    unfold envLocalBound
    exact Nat.lt_succ_of_le (Nat.le_max_left _ _)
  constructor
  · intro st hst
    have h1 : stmtLocalSup st ≤ blockLocalSup bbd := by
      unfold blockLocalSup
      exact Nat.le_trans (le_foldr_max stmtLocalSup bbd.statements st hst) (Nat.le_max_left _ _)
    exact Nat.lt_of_le_of_lt (Nat.le_trans h1 (Nat.le_trans hblock hbody_le)) hcrate_lt
  · have h1 : termLocalSup bbd.terminator.kind ≤ blockLocalSup bbd := by
      unfold blockLocalSup
      exact Nat.le_max_right _ _
    exact Nat.lt_of_le_of_lt (Nat.le_trans h1 (Nat.le_trans hblock hbody_le)) hcrate_lt

/-- Return locations recorded in the environment's return map carry
locals below the environment local bound. -/
theorem returnLocation_lt_bound {env : CollectorEnv} {d : Nat} {rls : List ReturnLocation}
    (hlk : alLookup env.return_map d = some rls) :
    ∀ rl ∈ rls, rl.return_local < envLocalBound env := by
  intro rl hrl
  have hmem := alLookup_mem hlk
  have h1 : rl.return_local ≤ rls.foldr (fun rl' a => max rl'.return_local a) 0 :=
    le_foldr_max (fun rl' => rl'.return_local) rls rl hrl
  have h2 := le_foldr_max (fun (p : Nat × List ReturnLocation) =>
      p.2.foldr (fun rl' a => max rl'.return_local a) 0) env.return_map (d, rls) hmem
  simp only [] at h2
  have h3 : returnMapLocalSup env.return_map < envLocalBound env := by
    unfold envLocalBound
    exact Nat.lt_succ_of_le (Nat.le_max_right _ _)
  have h4 : rls.foldr (fun rl' a => max rl'.return_local a) 0 ≤ returnMapLocalSup env.return_map := h2
  omega

/-- Folding branch walks never runs out of fuel when the branch walk
does not (under a measure invariant preserved through evolution). -/
theorem combineStep_fold_ne_outOfFuel {τ : Type} (keys : List Bbid) (Q : Collector → Prop)
    (g : Collector → τ → Step (GuardState × Collector)) (l : List τ)
    (hQmono : ∀ s s', Evolves keys s s' → Q s → Q s')
    (hg_ne : ∀ s x, x ∈ l → Q s → g s x ≠ .outOfFuel)
    (hg_ev : ∀ s x gs' s', g s x = .ok (gs', s') → Evolves keys s s')
    (gs0 : GuardState) (s0 : Collector) (hQ : Q s0) :
    stepFold (fun p x =>
        match g p.2 x with
        | .ok (gs', s') => .ok (p.1.combine gs', s')
        | .fatal => .fatal
        | .outOfFuel => .outOfFuel) l (.ok (gs0, s0)) ≠ .outOfFuel := by
  refine stepFold_ne_outOfFuel _ (fun (p : GuardState × Collector) => Q p.2) l (gs0, s0)
    ?_ ?_ hQ
  · intro p x hmem hQp hc
    try simp only [] at hc
    cases hgx : g p.2 x with
    | ok r => rw [hgx] at hc; obtain ⟨a, b⟩ := r; cases hc
    | fatal => rw [hgx] at hc; cases hc
    | outOfFuel => exact hg_ne p.2 x hmem hQp hgx
  · intro p x q _ hQp hstep
    try simp only [] at hstep
    cases hgx : g p.2 x with
    | ok r =>
      obtain ⟨a, b⟩ := r
      rw [hgx] at hstep
      cases hstep
      exact hQmono _ _ (hg_ev _ _ _ _ hgx) hQp
    | fatal => rw [hgx] at hstep; cases hstep
    | outOfFuel => rw [hgx] at hstep; cases hstep

/-- The terminator dispatch never runs out of fuel when its callbacks
do not, given the locals it passes are below the environment bound. -/
theorem handleTerminator_ne_outOfFuel
    {next : Collector → Nat → Nat → GuardState → Step (GuardState × Collector)}
    {into : Collector → Bbid → Nat → Bool → Step (GuardState × Collector)}
    {sweep : Collector → Nat → Step Collector}
    (keys : List Bbid) (B : Nat) (Q : Collector → Prop)
    (hQmono : ∀ s s', Evolves keys s s' → Q s → Q s')
    (hnext_ev : ∀ s bb l gs gs' s', next s bb l gs = .ok (gs', s') → Evolves keys s s')
    (hinto_ev : ∀ s b l e gs' s', into s b l e = .ok (gs', s') → Evolves keys s s')
    (hsweep_ev : ∀ s f s', sweep s f = .ok s' → Evolves keys s s')
    (hnext_ne : ∀ s bb l gs, Q s → l < B → next s bb l gs ≠ .outOfFuel)
    (hinto_ne : ∀ s b l e, Q s → l < B → into s b l e ≠ .outOfFuel)
    (hsweep_ne : ∀ s f, Q s → sweep s f ≠ .outOfFuel)
    (return_map : FunctionReturnMap) (basic_block_id : Bbid) (terminator : Terminator)
    (current_local : Nat) (examine_returns : Bool) (guard_state : GuardState) (s : Collector)
    (hQ : Q s) (hcl : current_local < B)
    (hterm : termLocalSup terminator.kind < B)
    (hret : ∀ rls, alLookup return_map basic_block_id.def_id = some rls →
      ∀ rl ∈ rls, rl.return_local < B) :
    handleTerminator next into sweep return_map basic_block_id terminator
      current_local examine_returns guard_state s ≠ .outOfFuel := by
  obtain ⟨tk, tspan⟩ := terminator
  cases tk with
  | goto target => exact hnext_ne _ _ _ _ hQ hcl
  | switchInt targets otherwise =>
    intro hc
    simp only [handleTerminator] at hc
    have hfold := combineStep_fold_ne_outOfFuel keys Q
      (fun sc t => into sc (basic_block_id.with_basic_block t) current_local examine_returns)
      targets hQmono (fun sc t _ hq => hinto_ne _ _ _ _ hq hcl)
      (fun sc t a b hx => hinto_ev _ _ _ _ _ _ hx) guard_state s hQ
    cases hf : stepFold (fun (p : GuardState × Collector) t =>
        match into p.2 (basic_block_id.with_basic_block t) current_local examine_returns with
        | .ok (gs', s') => .ok (p.1.combine gs', s')
        | .fatal => .fatal
        | .outOfFuel => .outOfFuel) targets (.ok (guard_state, s)) with
    | ok p =>
      obtain ⟨gs2, s2⟩ := p
      rw [hf] at hc
      have hev := combineStep_fold_evolves keys
        (fun sc t => into sc (basic_block_id.with_basic_block t) current_local examine_returns)
        (fun sc t a b hx => hinto_ev _ _ _ _ _ _ hx) targets guard_state s gs2 s2 hf
      exact hnext_ne s2 otherwise current_local gs2 (hQmono _ _ hev hQ) hcl hc
    | fatal => rw [hf] at hc; cases hc
    | outOfFuel => exact hfold hf
  | unwindResume => intro hc; simp only [handleTerminator] at hc; cases hc
  | unwindTerminate => intro hc; simp only [handleTerminator] at hc; cases hc
  | ret =>
    intro hc
    simp only [handleTerminator] at hc
    by_cases hexr : examine_returns = true
    · rw [if_pos hexr] at hc
      by_cases hcl0 : current_local = 0
      · rw [if_pos hcl0] at hc
        cases hlk : alLookup return_map basic_block_id.def_id with
        | none => rw [hlk] at hc; cases hc
        | some return_locations =>
          rw [hlk] at hc
          simp only [] at hc
          exact combineStep_fold_ne_outOfFuel keys Q
            (fun sc (rl : ReturnLocation) => into sc rl.return_bbid rl.return_local true)
            return_locations hQmono
            (fun sc rl hrl hq => hinto_ne _ _ _ _ hq (hret _ hlk rl hrl))
            (fun sc rl a b hx => hinto_ev _ _ _ _ _ _ hx) guard_state s hQ hc
      · rw [if_neg hcl0] at hc; cases hc
    · rw [if_neg hexr] at hc
      by_cases hcl0 : current_local = 0
      · rw [if_pos hcl0] at hc; cases hc
      · rw [if_neg hcl0] at hc; cases hc
  | unreachable => intro hc; simp only [handleTerminator] at hc; cases hc
  | drop place target =>
    intro hc
    simp only [handleTerminator] at hc
    by_cases hd : place = current_local
    · rw [if_pos hd] at hc; cases hc
    · rw [if_neg hd] at hc; exact hnext_ne _ _ _ _ hQ hcl hc
  | call func args destination target =>
    intro hc
    simp only [handleTerminator] at hc
    by_cases hd : destination = current_local
    · rw [if_pos hd] at hc; cases hc
    · rw [if_neg hd] at hc
      cases hga : findGuardArgLocal current_local args 0 with
      | none => rw [hga] at hc; cases hc
      | some guard_arg_local =>
        rw [hga] at hc
        simp only [] at hc
        have hdest_lt : destination < B := by
          have : termLocalSup (.call func args destination target) =
              max destination args.length := rfl
          rw [this] at hterm
          omega
        have hargs_lt : args.length < B := by
          have : termLocalSup (.call func args destination target) =
              max destination args.length := rfl
          rw [this] at hterm
          omega
        cases guard_arg_local with
        | some arg =>
          cases hfd : getFnDefIdFromTerminator ⟨.call func args destination target, tspan⟩ with
          | none => rw [hfd] at hc; simp only [] at hc; cases hc
          | some fn_def_id =>
            rw [hfd] at hc
            simp only [] at hc
            have harg_lt : arg < B := by
              have := findGuardArgLocal_le args 0 arg hga
              omega
            cases hin : into s (Bbid.fn_start fn_def_id) arg false with
            | ok r =>
              obtain ⟨gsr, s2⟩ := r
              rw [hin] at hc
              have hQ2 : Q s2 := hQmono _ _ (hinto_ev _ _ _ _ _ _ hin) hQ
              cases gsr with
              | Returned =>
                simp only [continueAt] at hc
                cases target with
                | some t => exact hnext_ne _ _ _ _ hQ2 hdest_lt hc
                | none => cases hc
              | Dropped => cases hc
              | Undetermined => cases hc
            | fatal => rw [hin] at hc; cases hc
            | outOfFuel => exact hinto_ne _ _ _ _ hQ harg_lt hin
        | none =>
          cases hfd : getFnDefIdFromTerminator ⟨.call func args destination target, tspan⟩ with
          | none =>
            rw [hfd] at hc
            simp only [continueAt] at hc
            cases target with
            | some t => exact hnext_ne _ _ _ _ hQ hcl hc
            | none => cases hc
          | some fn_def_id =>
            rw [hfd] at hc
            simp only [] at hc
            cases hsw : sweep s fn_def_id with
            | ok s2 =>
              rw [hsw] at hc
              have hQ2 : Q s2 := hQmono _ _ (hsweep_ev _ _ _ hsw) hQ
              simp only [continueAt] at hc
              cases target with
              | some t => exact hnext_ne _ _ _ _ hQ2 hcl hc
              | none => cases hc
            | fatal => rw [hsw] at hc; cases hc
            | outOfFuel => exact hsweep_ne _ _ hQ hsw
  | assert target => exact hnext_ne _ _ _ _ hQ hcl
  | yield => intro hc; simp only [handleTerminator] at hc; cases hc
  | generatorDrop => intro hc; simp only [handleTerminator] at hc; cases hc
  | falseEdge real_target => exact hnext_ne _ _ _ _ hQ hcl
  | falseUnwind real_target => exact hnext_ne _ _ _ _ hQ hcl
  | inlineAsm destination =>
    intro hc
    simp only [handleTerminator] at hc
    cases destination with
    | some dest => exact hnext_ne _ _ _ _ hQ hcl hc
    | none => cases hc

/-- The whole-function sweep has enough fuel whenever the fuel exceeds
the number of unvisited universe elements. -/
theorem collectAllInvocations_ne_outOfFuel :
    ∀ (fuel : Nat) (env : CollectorEnv) (f : Nat) (s : Collector),
      collectorMeasure env s < fuel →
      collectAllInvocations fuel env f s ≠ .outOfFuel := by
  intro fuel
  induction fuel with
  | zero => intro env f s hm; exact absurd hm (Nat.not_lt_zero _)
  | succ n ih =>
    intro env f s hm
    unfold collectAllInvocations
    by_cases hf : f ∈ s.visited_functions
    · rw [if_pos hf]; intro hc; cases hc
    · rw [if_neg hf]
      simp only []
      cases hmir : tryOptimizedMir env.crate f with
      | none => intro hc; cases hc
      | some mir_body =>
        have hf_univ : f ∈ fnUniverse env := mem_fnUniverse hmir
        have hm1 : collectorMeasure env (insertVisitedFunction s f) < n := by
          have := collectorMeasure_insertVisitedFunction env s f hf_univ hf
          omega
        refine stepFold_ne_outOfFuel _ (fun st => collectorMeasure env st < n) _ _ ?_ ?_ hm1
        · intro st bb _ hQ hc
          simp only [sweepBlock] at hc
          split at hc
          · cases hc
          · split at hc
            · cases hc
            · split at hc
              · exact ih env _ st hQ hc
              · cases hc
        · intro st bb st' _ hQ hstep
          simp only [sweepBlock] at hstep
          have hev : Evolves (alKeys env.invocation_map) st st' := by
            split at hstep
            · rename_i hkey
              cases hstep
              refine ⟨fun q hq => hq, fun g hg => hg, fun x hx => ?_⟩
              rcases mem_insertBbidSet hx with hx' | rfl
              · exact Or.inl hx'
              · exact Or.inr hkey
            · split at hstep
              · cases hstep
              · split at hstep
                · exact collectAllInvocations_evolves n env _ st st' hstep
                · cases hstep; exact Evolves.rfl _
          have := collectorMeasure_mono env hev
          omega

/-- The guard-flow walk has enough fuel whenever the fuel exceeds the
number of unvisited universe elements and the tracked local is below
the environment bound. -/
theorem collectInnerAux_ne_outOfFuel :
    ∀ (fuel : Nat) (env : CollectorEnv) (s : Collector) (b : Bbid) (l : Nat) (e : Bool)
      (g : GuardState),
      collectorMeasure env s < fuel → l < envLocalBound env →
      collectInnerAux fuel env s b l e g ≠ .outOfFuel := by
  intro fuel
  induction fuel with
  | zero => intro env s b l e g hm; exact absurd hm (Nat.not_lt_zero _)
  | succ n ih =>
    intro env s b l e g hm hl hc
    unfold collectInnerAux at hc
    cases hmir : tryOptimizedMir env.crate b.def_id with
    | none => rw [hmir] at hc; cases hc
    | some mir_body =>
      rw [hmir] at hc
      simp only [] at hc
      by_cases hv : (⟨b, l⟩ : LocalBlockPair) ∈ s.visited_blocks
      · rw [if_pos hv] at hc; cases hc
      · rw [if_neg hv] at hc
        cases hget : mir_body.basic_blocks.get? b.basic_block with
        | none => rw [hget] at hc; simp only [] at hc; cases hc
        | some basic_block_data =>
          rw [hget] at hc
          simp only [] at hc
          cases hst : applyStatements basic_block_data.statements l with
          | none => rw [hst] at hc; simp only [] at hc; cases hc
          | some current_local' =>
            rw [hst] at hc
            simp only [] at hc
            have hbb_lt : b.basic_block < mir_body.basic_blocks.length :=
              (List.get?_eq_some.mp hget).1
            have hpair : (⟨b, l⟩ : LocalBlockPair) ∈ pairUniverse env := by
              have := mem_pairUniverse hmir hbb_lt hl
              cases b
              exact this
            have hm1 : collectorMeasure env
                (markInvocation env (insertVisitedBlock s ⟨b, l⟩) b) < n := by
              have h1 := collectorMeasure_insertVisitedBlock env s ⟨b, l⟩ hpair hv
              have h2 := collectorMeasure_markInvocation env env
                (insertVisitedBlock s ⟨b, l⟩) b
              omega
            have hsups := block_sups_lt_bound hmir hget
            have hcl' : current_local' < envLocalBound env :=
              applyStatements_bound basic_block_data.statements l current_local' hst hl hsups.1
            refine handleTerminator_ne_outOfFuel (alKeys env.invocation_map)
              (envLocalBound env) (fun st => collectorMeasure env st < n)
              ?_ ?_ ?_ ?_ ?_ ?_ ?_
              env.return_map b basic_block_data.terminator current_local' e g _
              hm1 hcl' hsups.2 ?_ hc
            · intro sa sb hev hq
              have := collectorMeasure_mono env hev
              omega
            · intro sa bb la ga gb sb hx
              exact collectInnerAux_evolves n env sa _ la e ga gb sb hx
            · intro sa ba la ea gb sb hx
              exact collectInnerAux_evolves n env sa ba la ea _ gb sb hx
            · intro sa fa sb hx
              exact collectAllInvocations_evolves n env fa sa sb hx
            · intro sa bb la ga hq hla
              exact ih env sa _ la e ga hq hla
            · intro sa ba la ea hq hla
              exact ih env sa ba la ea _ hq hla
            · intro sa fa hq
              exact collectAllInvocations_ne_outOfFuel n env fa sa hq
            · intro rls hlk rl hrl
              exact returnLocation_lt_bound hlk rl hrl

/-- Dependant classes added by the walk are invocation-map keys. -/
theorem collectInnerAux_depSubset {fuel : Nat} {env : CollectorEnv} {s : Collector} {b : Bbid}
    {l : Nat} {e : Bool} {g gs' : GuardState} {s' : Collector}
    (h : collectInnerAux fuel env s b l e g = .ok (gs', s')) :
    ∀ x ∈ s'.dependant_classes, x ∈ s.dependant_classes ∨ x ∈ alKeys env.invocation_map :=
  (collectInnerAux_evolves fuel env s b l e g gs' s' h).2.2

/-- Dependant classes added by the sweep are invocation-map keys. -/
theorem collectAllInvocations_depSubset {fuel : Nat} {env : CollectorEnv} {f : Nat}
    {s s' : Collector} (h : collectAllInvocations fuel env f s = .ok s') :
    ∀ x ∈ s'.dependant_classes, x ∈ s.dependant_classes ∨ x ∈ alKeys env.invocation_map :=
  (collectAllInvocations_evolves fuel env f s s' h).2.2

/-- A successful top-level guard-flow query returns only invocation-map
keys. -/
theorem collect_subset {env : CollectorEnv} {fuel : Nat} {b : Bbid} {l : Nat}
    {r : List Bbid} (h : collect env fuel b l = .ok r) :
    ∀ x ∈ r, x ∈ alKeys env.invocation_map := by
  unfold collect collectInner at h
  cases hw : collectInnerAux fuel env ⟨[], [], []⟩ b l true .Undetermined with
  | ok q =>
    obtain ⟨gs, s⟩ := q
    rw [hw] at h
    cases h
    intro x hx
    rcases collectInnerAux_depSubset hw x hx with hc | hc
    · cases hc
    · exact hc
  | fatal => rw [hw] at h; cases h
  | outOfFuel => rw [hw] at h; cases h

/-- Shape of one successful fill step: it appends exactly the processed
invocation with its collected children, which are all keys of the
pass's invocation map. -/
theorem fillInvocationStep_ok {crate : Crate} {fuel : Nat} {st : PassState}
    {acc acc' : List (Bbid × LockInvocation)} {p : Bbid × LockInvocation}
    (h : fillInvocationStep crate fuel st acc p = .ok acc') :
    ∃ children, acc' = acc ++ [(p.1, { p.2 with child_invocations := children })] ∧
      ∀ j ∈ children, j ∈ alKeys st.invocations := by
  unfold fillInvocationStep at h
  cases hmir : tryOptimizedMir crate p.1.def_id with
  | none => rw [hmir] at h; cases h
  | some mir_body =>
    rw [hmir] at h
    simp only [] at h
    cases hget : mir_body.basic_blocks.get? p.1.basic_block with
    | none => rw [hget] at h; cases h
    | some bbd =>
      rw [hget] at h
      simp only [] at h
      cases hk : bbd.terminator.kind with
      | call func args destination targetBlock =>
        rw [hk] at h
        cases targetBlock with
        | none => simp only [] at h; cases h
        | some t =>
          simp only [] at h
          cases hcol : collect ⟨crate, st.invocations, st.return_map⟩ fuel
              (p.1.with_basic_block t) destination with
          | ok children =>
            rw [hcol] at h
            cases h
            exact ⟨children, rfl, collect_subset hcol⟩
          | fatal => rw [hcol] at h; cases h
          | outOfFuel => rw [hcol] at h; cases h
      | goto a => rw [hk] at h; cases h
      | switchInt a b => rw [hk] at h; cases h
      | unwindResume => rw [hk] at h; cases h
      | unwindTerminate => rw [hk] at h; cases h
      | ret => rw [hk] at h; cases h
      | unreachable => rw [hk] at h; cases h
      | drop a b => rw [hk] at h; cases h
      | assert a => rw [hk] at h; cases h
      | yield => rw [hk] at h; cases h
      | generatorDrop => rw [hk] at h; cases h
      | falseEdge a => rw [hk] at h; cases h
      | falseUnwind a => rw [hk] at h; cases h
      | inlineAsm a => rw [hk] at h; cases h

/-- Shape of the whole fill fold: keys are preserved in order and every
produced entry's children are keys of the pass's invocation map. -/
theorem fillFold_spec {crate : Crate} {fuel : Nat} {st : PassState} :
    ∀ (items : List (Bbid × LockInvocation)) (acc invs : List (Bbid × LockInvocation)),
      stepFold (fillInvocationStep crate fuel st) items (.ok acc) = .ok invs →
      alKeys invs = alKeys acc ++ alKeys items ∧
      (∀ q ∈ invs, q ∈ acc ∨ ∀ j ∈ q.2.child_invocations, j ∈ alKeys st.invocations) := by
  intro items
  induction items with
  | nil =>
    intro acc invs h
    rw [stepFold_nil] at h
    cases h
    exact ⟨by simp [alKeys], fun q hq => Or.inl hq⟩
  | cons p rest ih =>
    intro acc invs h
    rw [stepFold_cons] at h
    cases hstep : fillInvocationStep crate fuel st acc p with
    | ok acc2 =>
      rw [hstep] at h
      rcases fillInvocationStep_ok hstep with ⟨children, rfl, hch⟩
      rcases ih _ _ h with ⟨hkeys, hmem⟩
      constructor
      · rw [hkeys]
        simp [alKeys]
      · intro q hq
        rcases hmem q hq with hq' | hq'
        · rcases List.mem_append.mp hq' with hacc | hnew
          · exact Or.inl hacc
          · rcases List.mem_singleton.mp hnew with rfl
            exact Or.inr hch
        · exact Or.inr hq'
    | fatal => rw [hstep, stepFold_fatal] at h; cases h
    | outOfFuel => rw [hstep, stepFold_outOfFuel] at h; cases h

/-- Claim C3: for every guard-flow query, the visited-blocks and
visited-functions sets only grow; a `(block, local)` pair already in
`visited_blocks` is not re-processed (the walk returns immediately with
`Undetermined` and an unchanged state), and a function already in
`visited_functions` is not re-swept; and with fuel exceeding the number
of unvisited universe elements the walk never exhausts its fuel, so the
guard-flow collection terminates on every finite program, cyclic
control flow included. -/
theorem c3_guardFlow_termination :
    (∀ (fuel : Nat) (env : CollectorEnv) (s : Collector) (b : Bbid) (l : Nat) (e : Bool)
        (g gs' : GuardState) (s' : Collector),
        collectInnerAux fuel env s b l e g = .ok (gs', s') →
        (∀ p ∈ s.visited_blocks, p ∈ s'.visited_blocks) ∧
        (∀ f ∈ s.visited_functions, f ∈ s'.visited_functions)) ∧
    (∀ (fuel : Nat) (env : CollectorEnv) (f : Nat) (s s' : Collector),
        collectAllInvocations fuel env f s = .ok s' →
        (∀ p ∈ s.visited_blocks, p ∈ s'.visited_blocks) ∧
        (∀ g ∈ s.visited_functions, g ∈ s'.visited_functions)) ∧
    (∀ (fuel : Nat) (env : CollectorEnv) (s : Collector) (b : Bbid) (l : Nat) (e : Bool)
        (g : GuardState), (⟨b, l⟩ : LocalBlockPair) ∈ s.visited_blocks →
        collectInnerAux (fuel + 1) env s b l e g = .ok (.Undetermined, s)) ∧
    (∀ (fuel : Nat) (env : CollectorEnv) (f : Nat) (s : Collector),
        f ∈ s.visited_functions →
        collectAllInvocations (fuel + 1) env f s = .ok s) ∧
    (∀ (fuel : Nat) (env : CollectorEnv) (s : Collector) (b : Bbid) (l : Nat) (e : Bool)
        (g : GuardState), collectorMeasure env s < fuel → l < envLocalBound env →
        collectInnerAux fuel env s b l e g ≠ .outOfFuel) := by
  refine ⟨?_, ?_, ?_, ?_, ?_⟩
  · intro fuel env s b l e g gs' s' h
    have hev := collectInnerAux_evolves fuel env s b l e g gs' s' h
    exact ⟨hev.1, hev.2.1⟩
  · intro fuel env f s s' h
    have hev := collectAllInvocations_evolves fuel env f s s' h
    exact ⟨hev.1, hev.2.1⟩
  · intro fuel env s b l e g hmem
    unfold collectInnerAux
    cases tryOptimizedMir env.crate b.def_id with
    | none => rfl
    | some mir_body =>
      simp only []
      rw [if_pos hmem]
  · intro fuel env f s hmem
    unfold collectAllInvocations
    rw [if_pos hmem]
  · exact collectInnerAux_ne_outOfFuel

/-- Witness for C3 at a concrete program: the walk of the call-arm
example crate does not run out of fuel at the canonical fuel, and a
visited pair returns immediately. -/
theorem c3_guardFlow_termination_witness :
    collectInnerAux 60 c2Env ⟨[], [], []⟩ ⟨10, 0⟩ 5 false .Undetermined ≠ .outOfFuel ∧
    collectInnerAux 1 c2Env ⟨[], [⟨⟨10, 0⟩, 5⟩], []⟩ ⟨10, 0⟩ 5 false .Undetermined
      = .ok (.Undetermined, ⟨[], [⟨⟨10, 0⟩, 5⟩], []⟩) :=
  ⟨c3_guardFlow_termination.2.2.2.2 60 c2Env ⟨[], [], []⟩ ⟨10, 0⟩ 5 false .Undetermined
      (by decide) (by decide),
    c3_guardFlow_termination.2.2.1 0 c2Env ⟨[], [⟨⟨10, 0⟩, 5⟩], []⟩ ⟨10, 0⟩ 5 false
      .Undetermined (by decide)⟩

/-- Claim C7: every BBID the guard-flow collector adds to a children
set is a key of the pass's invocation map: this holds for each
state-growing operation of the walk and the sweep, for the top-level
query, and for the filled pass state after
`collect_dependant_lock_classes` (whose invocation keys are
unchanged). -/
theorem c7_children_are_invocation_keys :
    (∀ (fuel : Nat) (env : CollectorEnv) (s : Collector) (b : Bbid) (l : Nat) (e : Bool)
        (g gs' : GuardState) (s' : Collector),
        collectInnerAux fuel env s b l e g = .ok (gs', s') →
        ∀ x ∈ s'.dependant_classes, x ∈ s.dependant_classes ∨ x ∈ alKeys env.invocation_map) ∧
    (∀ (fuel : Nat) (env : CollectorEnv) (f : Nat) (s s' : Collector),
        collectAllInvocations fuel env f s = .ok s' →
        ∀ x ∈ s'.dependant_classes, x ∈ s.dependant_classes ∨ x ∈ alKeys env.invocation_map) ∧
    (∀ (env : CollectorEnv) (fuel : Nat) (b : Bbid) (l : Nat) (r : List Bbid),
        collect env fuel b l = .ok r → ∀ x ∈ r, x ∈ alKeys env.invocation_map) ∧
    (∀ (crate : Crate) (fuel : Nat) (st st' : PassState),
        collectDependantLockClasses crate fuel st = .ok st' →
        alKeys st'.invocations = alKeys st.invocations ∧
        ∀ q ∈ st'.invocations, ∀ j ∈ q.2.child_invocations, j ∈ alKeys st'.invocations) := by
  refine ⟨?_, ?_, ?_, ?_⟩
  · intro fuel env s b l e g gs' s' h
    exact collectInnerAux_depSubset h
  · intro fuel env f s s' h
    exact collectAllInvocations_depSubset h
  · intro env fuel b l r h
    exact collect_subset h
  · intro crate fuel st st' h
    unfold collectDependantLockClasses at h
    cases hfold : stepFold (fillInvocationStep crate fuel st) st.invocations (.ok []) with
    | ok invs =>
      rw [hfold] at h
      cases h
      rcases fillFold_spec st.invocations [] invs hfold with ⟨hkeys, hmem⟩
      have hkeys' : alKeys invs = alKeys st.invocations := by
        rw [hkeys]; rfl
      refine ⟨hkeys', ?_⟩
      intro q hq j hj
      rcases hmem q hq with hq' | hq'
      · cases hq'
      · rw [hkeys']
        exact hq' j hj
    | fatal => rw [hfold] at h; cases h
    | outOfFuel => rw [hfold] at h; cases h

/-- Witness for C7 at a concrete program: in the filled triple-lock
pass state, the first recorded child of the first invocation is a key
of the invocation map. -/
theorem c7_children_are_invocation_keys_witness :
    (⟨1, 1⟩ : Bbid) ∈ alKeys
      [((⟨1, 0⟩ : Bbid), (⟨0, 100, [⟨1, 1⟩, ⟨1, 2⟩]⟩ : LockInvocation)),
        (⟨1, 1⟩, ⟨0, 200, [⟨1, 2⟩]⟩), (⟨1, 2⟩, ⟨0, 300, []⟩)] :=
  (c7_children_are_invocation_keys.2.2.2 tripleLockCrate 37
      ⟨[(⟨1, 0⟩, ⟨0, 100, []⟩), (⟨1, 1⟩, ⟨0, 200, []⟩), (⟨1, 2⟩, ⟨0, 300, []⟩)], [],
        ⟨[(0, tyX)], [(tyX, 0)], 1⟩⟩
      ⟨[(⟨1, 0⟩, ⟨0, 100, [⟨1, 1⟩, ⟨1, 2⟩]⟩),
          (⟨1, 1⟩, ⟨0, 200, [⟨1, 2⟩]⟩), (⟨1, 2⟩, ⟨0, 300, []⟩)], [],
        ⟨[(0, tyX)], [(tyX, 0)], 1⟩⟩
      (by decide)).2
    (⟨1, 0⟩, ⟨0, 100, [⟨1, 1⟩, ⟨1, 2⟩]⟩) (by decide) ⟨1, 1⟩ (by decide)

/-- The cycle-detection DFS only grows its visited set. -/
theorem dependanciesContain_mono :
    ∀ (fuel t c : Nat) (m : DependantMap) (v : List Nat) (b : Bool) (v' : List Nat),
      dependanciesContain fuel t c m v = .ok (b, v') → ∀ x ∈ v, x ∈ v' := by
  intro fuel
  induction fuel with
  | zero => intro t c m v b v' h; cases h
  | succ n ih =>
    intro t c m v b v' h
    unfold dependanciesContain at h
    by_cases hc : c ∈ v
    · rw [if_pos hc] at h; cases h; exact fun x hx => hx
    · rw [if_neg hc] at h
      simp only [] at h
      cases hlk : alLookup m c with
      | none => rw [hlk] at h; cases h
      | some dependancies =>
        rw [hlk] at h
        simp only [] at h
        by_cases ht : t ∈ dependancies
        · rw [if_pos ht] at h
          cases h
          exact fun x hx => List.mem_cons_of_mem _ hx
        · rw [if_neg ht] at h
          have key : ∀ (deps : List Nat) (b0 : Bool) (v0 : List Nat),
              stepFold (fun (p : Bool × List Nat) dependant =>
                if p.1 then .ok p else dependanciesContain n t dependant m p.2)
                deps (.ok (b0, v0)) = .ok (b, v') → ∀ x ∈ v0, x ∈ v' := by
            intro deps
            induction deps with
            | nil => intro b0 v0 hf; rw [stepFold_nil] at hf; cases hf; exact fun x hx => hx
            | cons d rest ihd =>
              intro b0 v0 hf
              rw [stepFold_cons] at hf
              simp only [] at hf
              by_cases hb : b0 = true
              · subst hb
                rw [if_pos rfl] at hf
                exact ihd _ _ hf
              · have hb' : b0 = false := by revert hb; cases b0 <;> simp
                subst hb'
                rw [if_neg (by decide : ¬(false = true))] at hf
                cases hrec : dependanciesContain n t d m v0 with
                | ok r =>
                  obtain ⟨b1, v1⟩ := r
                  rw [hrec] at hf
                  intro x hx
                  exact ihd _ _ hf x (ih t d m v0 b1 v1 hrec x hx)
                | fatal => rw [hrec, stepFold_fatal] at hf; cases hf
                | outOfFuel => rw [hrec, stepFold_outOfFuel] at hf; cases hf
          intro x hx
          exact key dependancies false (c :: v) h x (List.mem_cons_of_mem _ hx)

/-- When the fold of the DFS starts from a found result it returns it
unchanged. -/
theorem dfsFold_true_fixed (recur : Nat → List Nat → Step (Bool × List Nat)) :
    ∀ (deps : List Nat) (v : List Nat),
      stepFold (fun (p : Bool × List Nat) dependant =>
        if p.1 then .ok p else recur dependant p.2) deps (.ok (true, v)) = .ok (true, v) := by
  intro deps
  induction deps with
  | nil => intro v; rfl
  | cons d rest ih => intro v; rw [stepFold_cons]; exact ih v

/-- A found result of the DFS fold originates from some dependant. -/
theorem dfsFold_true_origin (recur : Nat → List Nat → Step (Bool × List Nat)) :
    ∀ (deps : List Nat) (v v' : List Nat),
      stepFold (fun (p : Bool × List Nat) dependant =>
        if p.1 then .ok p else recur dependant p.2) deps (.ok (false, v)) = .ok (true, v') →
      ∃ d ∈ deps, ∃ v0, recur d v0 = .ok (true, v') := by
  intro deps
  induction deps with
  | nil => intro v v' h; rw [stepFold_nil] at h; cases h
  | cons d rest ih =>
    intro v v' h
    rw [stepFold_cons] at h
    simp only [] at h
    rw [if_neg (by decide : ¬(false = true))] at h
    cases hrec : recur d v with
    | ok r =>
      obtain ⟨b1, v1⟩ := r
      rw [hrec] at h
      cases b1 with
      | true =>
        rw [dfsFold_true_fixed] at h
        cases h
        exact ⟨d, List.mem_cons_self _ _, v, hrec⟩
      | false =>
        rcases ih _ _ h with ⟨d', hd', v0, hr⟩
        exact ⟨d', List.mem_cons_of_mem _ hd', v0, hr⟩
    | fatal => rw [hrec, stepFold_fatal] at h; cases h
    | outOfFuel => rw [hrec, stepFold_outOfFuel] at h; cases h

/-- Soundness of the DFS: a positive answer exhibits a directed path of
length at least one. -/
theorem dependanciesContain_sound :
    ∀ (fuel t c : Nat) (m : DependantMap) (v v' : List Nat),
      dependanciesContain fuel t c m v = .ok (true, v') → DepPath m c t := by
  intro fuel
  induction fuel with
  | zero => intro t c m v v' h; cases h
  | succ n ih =>
    intro t c m v v' h
    unfold dependanciesContain at h
    by_cases hc : c ∈ v
    · rw [if_pos hc] at h; cases h
    · rw [if_neg hc] at h
      simp only [] at h
      cases hlk : alLookup m c with
      | none => rw [hlk] at h; cases h
      | some dependancies =>
        rw [hlk] at h
        simp only [] at h
        have hdeps : depsOf m c = dependancies := by
          unfold depsOf; rw [hlk]; rfl
        by_cases ht : t ∈ dependancies
        · rw [if_pos ht] at h
          exact DepPath.edge (hdeps ▸ ht)
        · rw [if_neg ht] at h
          rcases dfsFold_true_origin _ dependancies _ _ h with ⟨d, hd, v0, hr⟩
          exact DepPath.step (hdeps ▸ hd) (ih t d m v0 v' hr)

/-- Completeness invariant of the DFS fold: a negative fold leaves the
visited set closed under the new vertices' edges and avoiding the
target there. -/
theorem dfsFold_false_closed (m : DependantMap) (t : Nat)
    (recur : Nat → List Nat → Step (Bool × List Nat))
    (hmono : ∀ d v b v', recur d v = .ok (b, v') → ∀ x ∈ v, x ∈ v')
    (hclosed : ∀ d v v1, recur d v = .ok (false, v1) →
      d ∈ v1 ∧ ∀ x ∈ v1, x ∉ v → (t ∉ depsOf m x ∧ ∀ y ∈ depsOf m x, y ∈ v1)) :
    ∀ (deps : List Nat) (v v' : List Nat),
      stepFold (fun (p : Bool × List Nat) dependant =>
        if p.1 then .ok p else recur dependant p.2) deps (.ok (false, v)) = .ok (false, v') →
      (∀ x ∈ v, x ∈ v') ∧ (∀ d ∈ deps, d ∈ v') ∧
        (∀ x ∈ v', x ∉ v → (t ∉ depsOf m x ∧ ∀ y ∈ depsOf m x, y ∈ v')) := by
  intro deps
  induction deps with
  | nil =>
    intro v v' h
    rw [stepFold_nil] at h
    cases h
    exact ⟨fun x hx => hx, fun d hd => absurd hd (List.not_mem_nil d),
      fun x hx hnx => absurd hx hnx⟩
  | cons d rest ih =>
    intro v v' h
    rw [stepFold_cons] at h
    simp only [] at h
    rw [if_neg (by decide : ¬(false = true))] at h
    cases hrec : recur d v with
    | ok r =>
      obtain ⟨b1, v1⟩ := r
      rw [hrec] at h
      cases b1 with
      | true => rw [dfsFold_true_fixed] at h; cases h
      | false =>
        rcases hclosed d v v1 hrec with ⟨hd1, hcl1⟩
        rcases ih v1 v' h with ⟨hsub, hdeps, hcl2⟩
        have hv_sub : ∀ x ∈ v, x ∈ v' := fun x hx => hsub x (hmono d v false v1 hrec x hx)
        refine ⟨hv_sub, ?_, ?_⟩
        · intro d' hd'
          rcases List.mem_cons.mp hd' with rfl | hd''
          · exact hsub d' hd1
          · exact hdeps d' hd''
        · intro x hx hnx
          by_cases hx1 : x ∈ v1
          · rcases hcl1 x hx1 hnx with ⟨h1, h2⟩
            exact ⟨h1, fun y hy => hsub y (h2 y hy)⟩
          · exact hcl2 x hx hx1
    | fatal => rw [hrec, stepFold_fatal] at h; cases h
    | outOfFuel => rw [hrec, stepFold_outOfFuel] at h; cases h

/-- Completeness invariant of the DFS: a negative answer leaves a
visited set containing the start vertex, closed under edges of its new
vertices and avoiding the target there. -/
theorem dependanciesContain_false_closed :
    ∀ (fuel t c : Nat) (m : DependantMap) (v v' : List Nat),
      dependanciesContain fuel t c m v = .ok (false, v') →
      (∀ x ∈ v, x ∈ v') ∧ c ∈ v' ∧
        (∀ x ∈ v', x ∉ v → (t ∉ depsOf m x ∧ ∀ y ∈ depsOf m x, y ∈ v')) := by
  intro fuel
  induction fuel with
  | zero => intro t c m v v' h; cases h
  | succ n ih =>
    intro t c m v v' h
    unfold dependanciesContain at h
    by_cases hc : c ∈ v
    · rw [if_pos hc] at h
      cases h
      exact ⟨fun x hx => hx, hc, fun x hx hnx => absurd hx hnx⟩
    · rw [if_neg hc] at h
      simp only [] at h
      cases hlk : alLookup m c with
      | none => rw [hlk] at h; cases h
      | some dependancies =>
        rw [hlk] at h
        simp only [] at h
        have hdeps : depsOf m c = dependancies := by
          unfold depsOf; rw [hlk]; rfl
        by_cases ht : t ∈ dependancies
        · rw [if_pos ht] at h; cases h
        · rw [if_neg ht] at h
          have hfold := dfsFold_false_closed m t (fun d v0 => dependanciesContain n t d m v0)
            (fun d v0 b v1 hr => dependanciesContain_mono n t d m v0 b v1 hr)
            (fun d v0 v1 hr => ⟨(ih t d m v0 v1 hr).2.1, (ih t d m v0 v1 hr).2.2⟩)
            dependancies (c :: v) v' h
          rcases hfold with ⟨hsub, hdeps_sub, hcl⟩
          refine ⟨fun x hx => hsub x (List.mem_cons_of_mem _ hx),
            hsub c (List.mem_cons_self _ _), ?_⟩
          intro x hx hnx
          by_cases hxc : x = c
          · subst hxc
            rw [hdeps]
            exact ⟨ht, hdeps_sub⟩
          · have : x ∉ c :: v := by
              intro hmem
              rcases List.mem_cons.mp hmem with rfl | hmem'
              · exact hxc rfl
              · exact hnx hmem'
            exact hcl x hx this

/-- No vertex of a closed target-avoiding set reaches the target. -/
theorem depPath_not_of_closed {m : DependantMap} {t : Nat} {v' : List Nat}
    (hcl : ∀ x ∈ v', t ∉ depsOf m x ∧ ∀ y ∈ depsOf m x, y ∈ v') :
    ∀ {a b : Nat}, DepPath m a b → a ∈ v' → b = t → False := by
  intro a b hp
  induction hp with
  | edge h => intro ha hbt; subst hbt; exact (hcl _ ha).1 h
  | step h hp ih => intro ha hbt; exact ih ((hcl _ ha).2 _ h) hbt

theorem unvisitedKeys_mono {m : DependantMap} {v v' : List Nat}
    (h : ∀ x ∈ v, x ∈ v') : unvisitedKeys m v' ≤ unvisitedKeys m v := by
  unfold unvisitedKeys
  apply length_filter_mono_pred
  intro a _ ha
  simp only [decide_eq_true_eq] at ha ⊢
  exact fun hc => ha (h a hc)

theorem unvisitedKeys_insert {m : DependantMap} {c : Nat} {v : List Nat}
    (hc : c ∈ alKeys m) (hnv : c ∉ v) :
    unvisitedKeys m (c :: v) + 1 = unvisitedKeys m v := by
  unfold unvisitedKeys
  exact length_filter_insert_visited ((alKeys m).dedup) (List.nodup_dedup _) c v
    (List.mem_dedup.mpr hc) hnv

theorem unvisitedKeys_le_length (m : DependantMap) (v : List Nat) :
    unvisitedKeys m v ≤ m.length := by
  unfold unvisitedKeys
  calc ((alKeys m).dedup.filter (fun c => decide (c ∉ v))).length
      ≤ (alKeys m).dedup.length := List.length_filter_le _ _
    _ ≤ (alKeys m).length := (List.dedup_sublist _).length_le
    _ = m.length := by unfold alKeys; exact List.length_map _ _

/-- The cycle-detection DFS neither panics nor runs out of fuel when
the map's values are keys, the start vertex is a key or already
visited, and the fuel exceeds the unvisited key count. -/
theorem dependanciesContain_ok :
    ∀ (fuel t c : Nat) (m : DependantMap) (v : List Nat),
      (∀ q ∈ m, ∀ y ∈ q.2, y ∈ alKeys m) → (c ∈ alKeys m ∨ c ∈ v) →
      unvisitedKeys m v < fuel →
      ∃ b v', dependanciesContain fuel t c m v = .ok (b, v') := by
  intro fuel
  induction fuel with
  | zero => intro t c m v _ _ hm; exact absurd hm (Nat.not_lt_zero _)
  | succ n ih =>
    intro t c m v hwf hc hm
    unfold dependanciesContain
    by_cases hcv : c ∈ v
    · rw [if_pos hcv]; exact ⟨false, v, rfl⟩
    · rw [if_neg hcv]
      simp only []
      have hck : c ∈ alKeys m := by
        rcases hc with h | h
        · exact h
        · exact absurd h hcv
      rcases alLookup_isSome_of_mem_keys hck with ⟨dependancies, hlk⟩
      rw [hlk]
      simp only []
      by_cases ht : t ∈ dependancies
      · rw [if_pos ht]; exact ⟨true, c :: v, rfl⟩
      · rw [if_neg ht]
        have hdeps_keys : ∀ y ∈ dependancies, y ∈ alKeys m :=
          fun y hy => hwf (c, dependancies) (alLookup_mem hlk) y hy
        have hm1 : unvisitedKeys m (c :: v) < n := by
          have := unvisitedKeys_insert hck hcv
          omega
        have key : ∀ (deps : List Nat), (∀ y ∈ deps, y ∈ alKeys m) →
            ∀ (b0 : Bool) (v0 : List Nat), unvisitedKeys m v0 < n →
            ∃ b v', stepFold (fun (p : Bool × List Nat) dependant =>
                if p.1 then .ok p else dependanciesContain n t dependant m p.2)
              deps (.ok (b0, v0)) = .ok (b, v') := by
          intro deps
          induction deps with
          | nil => intro _ b0 v0 _; exact ⟨b0, v0, rfl⟩
          | cons d rest ihd =>
            intro hdk b0 v0 hv0
            rw [stepFold_cons]
            by_cases hb : b0 = true
            · subst hb
              rcases ihd (fun y hy => hdk y (List.mem_cons_of_mem _ hy)) true v0 hv0
                with ⟨b, v', hrest⟩
              exact ⟨b, v', hrest⟩
            · have hb' : b0 = false := by revert hb; cases b0 <;> simp
              subst hb'
              rcases ih t d m v0 hwf (Or.inl (hdk d (List.mem_cons_self _ _))) hv0
                with ⟨b1, v1, hr⟩
              have hv1 : unvisitedKeys m v1 < n :=
                Nat.lt_of_le_of_lt
                  (unvisitedKeys_mono (dependanciesContain_mono n t d m v0 b1 v1 hr)) hv0
              rcases ihd (fun y hy => hdk y (List.mem_cons_of_mem _ hy)) b1 v1 hv1
                with ⟨b, v', hrest⟩
              refine ⟨b, v', ?_⟩
              simp only []
              rw [if_neg (by decide : ¬(false = true)), hr]
              exact hrest
        exact key dependancies hdeps_keys false (c :: v) hm1

/-- Correctness of the cycle-detection DFS from an empty visited set:
it succeeds and answers positively exactly when the dependency map has
a directed path of length at least one from the start class to the
target class. -/
theorem dependanciesContain_iff (fuel t c : Nat) (m : DependantMap)
    (hwf : ∀ q ∈ m, ∀ y ∈ q.2, y ∈ alKeys m) (hck : c ∈ alKeys m)
    (hfuel : m.length < fuel) :
    ∃ b v', dependanciesContain fuel t c m [] = .ok (b, v') ∧
      (b = true ↔ DepPath m c t) := by
  rcases dependanciesContain_ok fuel t c m [] hwf (Or.inl hck)
      (Nat.lt_of_le_of_lt (unvisitedKeys_le_length m []) hfuel) with ⟨b, v', h⟩
  refine ⟨b, v', h, ?_⟩
  cases b with
  | true =>
    exact ⟨fun _ => dependanciesContain_sound fuel t c m [] v' h, fun _ => rfl⟩
  | false =>
    constructor
    · intro hc; cases hc
    · intro hp
      rcases dependanciesContain_false_closed fuel t c m [] v' h with ⟨_, hcv, hcl⟩
      exact (depPath_not_of_closed (fun x hx => hcl x hx (List.not_mem_nil x)) hp hcv rfl).elim

theorem stepFold_ok_of_steps {σ τ : Type} (step : σ → τ → Step σ) (l : List τ)
    (h : ∀ s x, x ∈ l → ∃ s', step s x = .ok s') :
    ∀ s0, ∃ sF, stepFold step l (.ok s0) = .ok sF := by
  induction l with
  | nil => intro s0; exact ⟨s0, rfl⟩
  | cons x xs ih =>
    intro s0
    rcases h s0 x (List.mem_cons_self _ _) with ⟨s1, hs1⟩
    rcases ih (fun s y hy => h s y (List.mem_cons_of_mem _ hy)) s1 with ⟨sF, hF⟩
    exact ⟨sF, by rw [stepFold_cons, hs1]; exact hF⟩

theorem stepFold_ok_pred {σ τ : Type} (step : σ → τ → Step σ) (A : σ → Prop) (l : List τ)
    (hstep : ∀ s x s', x ∈ l → step s x = .ok s' → A s → A s') :
    ∀ s0 sF, stepFold step l (.ok s0) = .ok sF → A s0 → A sF := by
  induction l with
  | nil => intro s0 sF h hA; rw [stepFold_nil] at h; cases h; exact hA
  | cons x xs ih =>
    intro s0 sF h hA
    rw [stepFold_cons] at h
    cases hx : step s0 x with
    | ok s1 =>
      rw [hx] at h
      exact ih (fun s y s' hy => hstep s y s' (List.mem_cons_of_mem _ hy)) s1 sF h
        (hstep s0 x s1 (List.mem_cons_self _ _) hx hA)
    | fatal => rw [hx, stepFold_fatal] at h; cases h
    | outOfFuel => rw [hx, stepFold_outOfFuel] at h; cases h

theorem alKeys_alEnsureKey (m : DependantMap) (k : Nat) :
    ∀ a, a ∈ alKeys (alEnsureKey m k) ↔ a = k ∨ a ∈ alKeys m := by
  intro a
  unfold alEnsureKey
  cases hlk : alLookup m k with
  | some v =>
    constructor
    · exact fun h => Or.inr h
    · rintro (rfl | h)
      · unfold alKeys
        exact List.mem_map.mpr ⟨(a, v), alLookup_mem hlk, rfl⟩
      · exact h
  | none =>
    unfold alKeys
    rw [List.map_append]
    simp only [List.mem_append, List.map_cons, List.map_nil, List.mem_singleton]
    tauto

theorem alKeys_alAddDep (m : DependantMap) (k c : Nat) :
    ∀ a, a ∈ alKeys (alAddDep m k c) ↔ a = k ∨ a ∈ alKeys m := by
  intro a
  induction m with
  | nil => simp [alAddDep, alKeys]
  | cons p rest ih =>
    obtain ⟨k', cs⟩ := p
    by_cases hk : k' = k
    · subst hk
      have heq : alAddDep ((k', cs) :: rest) k' c
          = (k', if c ∈ cs then cs else cs ++ [c]) :: rest := by
        simp [alAddDep]
      rw [heq]
      simp only [alKeys, List.map_cons, List.mem_cons]
      tauto
    · have heq : alAddDep ((k', cs) :: rest) k c = (k', cs) :: alAddDep rest k c := by
        simp only [alAddDep, if_neg hk]
      rw [heq]
      simp only [alKeys, List.map_cons, List.mem_cons]
      simp only [alKeys] at ih
      tauto

theorem alAddDep_values {P : Nat → Prop} {m : DependantMap} {k c : Nat}
    (hm : ∀ q ∈ m, ∀ y ∈ q.2, P y) (hc : P c) :
    ∀ q ∈ alAddDep m k c, ∀ y ∈ q.2, P y := by
  induction m with
  | nil =>
    intro q hq y hy
    unfold alAddDep at hq
    rcases List.mem_singleton.mp hq with rfl
    rcases List.mem_singleton.mp hy with rfl
    exact hc
  | cons p rest ih =>
    obtain ⟨k', cs⟩ := p
    intro q hq y hy
    by_cases hk : k' = k
    · subst hk
      have heq : alAddDep ((k', cs) :: rest) k' c
          = (k', if c ∈ cs then cs else cs ++ [c]) :: rest := by
        simp [alAddDep]
      rw [heq] at hq
      rcases List.mem_cons.mp hq with rfl | hq'
      · by_cases hcc : c ∈ cs
        · rw [if_pos hcc] at hy
          exact hm (k', cs) (List.mem_cons_self _ _) y hy
        · rw [if_neg hcc] at hy
          rcases List.mem_append.mp hy with hy1 | hy2
          · exact hm (k', cs) (List.mem_cons_self _ _) y hy1
          · rcases List.mem_singleton.mp hy2 with rfl
            exact hc
      · exact hm q (List.mem_cons_of_mem _ hq') y hy
    · have heq : alAddDep ((k', cs) :: rest) k c = (k', cs) :: alAddDep rest k c := by
        simp only [alAddDep, if_neg hk]
      rw [heq] at hq
      rcases List.mem_cons.mp hq with rfl | hq'
      · exact hm (k', cs) (List.mem_cons_self _ _) y hy
      · exact ih (fun q' hq'' y' hy' => hm q' (List.mem_cons_of_mem _ hq'') y' hy') q hq' y hy

theorem alEnsureKey_values {P : Nat → Prop} {m : DependantMap} {k : Nat}
    (hm : ∀ q ∈ m, ∀ y ∈ q.2, P y) :
    ∀ q ∈ alEnsureKey m k, ∀ y ∈ q.2, P y := by
  unfold alEnsureKey
  cases alLookup m k with
  | some v => exact hm
  | none =>
    intro q hq y hy
    rcases List.mem_append.mp hq with hq1 | hq2
    · exact hm q hq1 y hy
    · rcases List.mem_singleton.mp hq2 with rfl
      cases hy

/-- In a list with nodup keys, a key determines its value. -/
theorem alNodupKeys_eq {α : Type} {l : List (Bbid × α)} (hnd : (alKeys l).Nodup)
    {k : Bbid} {a b : α} (h1 : (k, a) ∈ l) (h2 : (k, b) ∈ l) : a = b := by
  induction l with
  | nil => cases h1
  | cons p rest ih =>
    have hnd' : p.1 ∉ alKeys rest ∧ (alKeys rest).Nodup := by
      unfold alKeys at hnd ⊢
      rw [List.map_cons] at hnd
      exact ⟨(List.nodup_cons.mp hnd).1, (List.nodup_cons.mp hnd).2⟩
    rcases List.mem_cons.mp h1 with rfl | h1'
    · rcases List.mem_cons.mp h2 with heq | h2'
      · cases heq; rfl
      · exact absurd (List.mem_map.mpr ⟨(k, b), h2', rfl⟩) hnd'.1
    · rcases List.mem_cons.mp h2 with rfl | h2'
      · exact absurd (List.mem_map.mpr ⟨(k, a), h1', rfl⟩) hnd'.1
      · exact ih hnd'.2 h1' h2'

/-- The dependency map built from a filled invocation map: it exists
(no lookup fails under the children invariant), contains a key for
every invocation's class, and every value element is some invocation's
class. -/
theorem getDependantMap_spec (invs : List (Bbid × LockInvocation))
    (hinv : ∀ p ∈ invs, ∀ j ∈ p.2.child_invocations, j ∈ alKeys invs) :
    ∃ m, getDependantMap invs = .ok m ∧
      (∀ p ∈ invs, p.2.cls ∈ alKeys m) ∧
      (∀ q ∈ m, ∀ y ∈ q.2, ∃ p ∈ invs, y = p.2.cls) := by
  have hstep_ok : ∀ (m0 : DependantMap) (p : Bbid × LockInvocation), p ∈ invs →
      ∃ m', stepFold (fun m' child_id =>
          match alLookup invs child_id with
          | none => .fatal
          | some child_invocation => .ok (alAddDep m' p.2.cls child_invocation.cls))
        p.2.child_invocations (.ok (alEnsureKey m0 p.2.cls)) = .ok m' := by
    intro m0 p hp
    apply stepFold_ok_of_steps
    intro m' j hj
    rcases alLookup_isSome_of_mem_keys (hinv p hp j hj) with ⟨child, hchild⟩
    rw [hchild]
    exact ⟨_, rfl⟩
  have hinner_grow : ∀ (p : Bbid × LockInvocation) (ma mb : DependantMap),
      stepFold (fun m' child_id =>
          match alLookup invs child_id with
          | none => .fatal
          | some child_invocation => .ok (alAddDep m' p.2.cls child_invocation.cls))
        p.2.child_invocations (.ok ma) = .ok mb →
      ∀ x ∈ alKeys ma, x ∈ alKeys mb := by
    intro p ma mb hf
    refine stepFold_ok_rel _ (fun m1 m2 => ∀ x ∈ alKeys m1, x ∈ alKeys m2)
      (fun _ _ h => h) (fun _ _ _ h1 h2 x hx => h2 x (h1 x hx)) _ _ _ ?_ hf
    intro m1 j m2 _ hstep
    cases hj : alLookup invs j with
    | none => rw [hj] at hstep; cases hstep
    | some child =>
      rw [hj] at hstep
      cases hstep
      intro x hx
      exact (alKeys_alAddDep m1 p.2.cls child.cls x).mpr (Or.inr hx)
  have hstep_grow : ∀ (p : Bbid × LockInvocation) (ma mb : DependantMap),
      (fun m (p : Bbid × LockInvocation) =>
        stepFold (fun m' child_id =>
            match alLookup invs child_id with
            | none => .fatal
            | some child_invocation => .ok (alAddDep m' p.2.cls child_invocation.cls))
          p.2.child_invocations (.ok (alEnsureKey m p.2.cls))) ma p = .ok mb →
      ∀ x ∈ alKeys ma, x ∈ alKeys mb := by
    intro p ma mb hstep x hx
    exact hinner_grow p _ _ hstep x ((alKeys_alEnsureKey ma p.2.cls x).mpr (Or.inr hx))
  have hok : ∃ m, stepFold (fun m (p : Bbid × LockInvocation) =>
      stepFold (fun m' child_id =>
          match alLookup invs child_id with
          | none => .fatal
          | some child_invocation => .ok (alAddDep m' p.2.cls child_invocation.cls))
        p.2.child_invocations (.ok (alEnsureKey m p.2.cls)))
      invs (.ok []) = .ok m := by
    apply stepFold_ok_of_steps
    intro m0 p hp
    exact hstep_ok m0 p hp
  rcases hok with ⟨m, hm⟩
  refine ⟨m, ?_, ?_, ?_⟩
  · unfold getDependantMap
    exact hm
  · intro p hp
    rcases stepFold_ok_elem _ (fun m1 m2 => ∀ x ∈ alKeys m1, x ∈ alKeys m2)
      (fun _ _ h => h) (fun _ _ _ h1 h2 x hx => h2 x (h1 x hx)) invs m p
      [] (fun m1 q m2 hq hstep => hstep_grow q m1 m2 hstep) hp hm
      with ⟨m1, m2, hstep, hgrow⟩
    refine hgrow p.2.cls ?_
    exact hinner_grow p _ _ hstep p.2.cls
      ((alKeys_alEnsureKey m1 p.2.cls p.2.cls).mpr (Or.inl rfl))
  · refine stepFold_ok_pred _
      (fun mm => ∀ q ∈ mm, ∀ y ∈ q.2, ∃ p ∈ invs, y = p.2.cls) invs ?_ [] m hm
      (fun q hq => absurd hq (List.not_mem_nil q))
    intro m1 p m2 hp hstep hval1
    have hens : ∀ q ∈ alEnsureKey m1 p.2.cls, ∀ y ∈ q.2, ∃ p' ∈ invs, y = p'.2.cls :=
      alEnsureKey_values hval1
    refine stepFold_ok_pred _
      (fun mm => ∀ q ∈ mm, ∀ y ∈ q.2, ∃ p' ∈ invs, y = p'.2.cls)
      p.2.child_invocations ?_ _ _ hstep hens
    intro ma j mb _ hstep2 hvala
    cases hj : alLookup invs j with
    | none => rw [hj] at hstep2; cases hstep2
    | some child =>
      rw [hj] at hstep2
      cases hstep2
      exact alAddDep_values hvala ⟨(j, child), alLookup_mem hj, rfl⟩

/-- Characterization of the per-invocation child fold of the detection
loop: it appends exactly the children whose check is positive. -/
theorem detectChildFold_spec (fuel : Nat) (invs : List (Bbid × LockInvocation))
    (m : DependantMap) (p : Bbid × LockInvocation) :
    ∀ (children : List Bbid) (pairs0 pairsF : List (Bbid × Bbid)),
      stepFold (detectChildStep fuel invs m p) children (.ok pairs0) = .ok pairsF →
      pairsF = pairs0 ++
        (children.filter (fun j => detectBool fuel invs m p.2.cls j)).map (fun j => (p.1, j)) := by
  intro children
  induction children with
  | nil =>
    intro pairs0 pairsF h
    rw [stepFold_nil] at h
    cases h
    simp
  | cons j rest ih =>
    intro pairs0 pairsF h
    rw [stepFold_cons] at h
    unfold detectChildStep at h
    cases hj : alLookup invs j with
    | none => rw [hj, stepFold_fatal] at h; cases h
    | some child =>
      rw [hj] at h
      simp only [] at h
      cases hdfs : dependanciesContain fuel p.2.cls child.cls m [] with
      | ok r =>
        obtain ⟨b, v⟩ := r
        rw [hdfs] at h
        have hdb : detectBool fuel invs m p.2.cls j
            = b := by
          unfold detectBool
          rw [hj]
          simp only []
          rw [hdfs]
          cases b <;> rfl
        cases b with
        | true =>
          have := ih _ _ h
          rw [this]
          rw [List.filter_cons_of_pos (by rw [hdb])]
          simp
        | false =>
          have := ih _ _ h
          rw [this]
          rw [List.filter_cons_of_neg (by rw [hdb]; exact Bool.false_ne_true)]
      | fatal => rw [hdfs, stepFold_fatal] at h; cases h
      | outOfFuel => rw [hdfs, stepFold_outOfFuel] at h; cases h

/-- Characterization of a successful detection run: the emitted pairs
are exactly the parent-child pairs whose check is positive, in
iteration order. -/
theorem runDetection_spec (fuel : Nat) (iter invs : List (Bbid × LockInvocation))
    (m : DependantMap) (pairs : List (Bbid × Bbid))
    (h : runDetection fuel iter invs m = .ok pairs) :
    pairs = iter.flatMap (fun p =>
      (p.2.child_invocations.filter (fun j => detectBool fuel invs m p.2.cls j)).map
        (fun j => (p.1, j))) := by
  unfold runDetection at h
  suffices key : ∀ (items : List (Bbid × LockInvocation)) (acc pairsF : List (Bbid × Bbid)),
      stepFold (fun pairs' (p : Bbid × LockInvocation) =>
        stepFold (detectChildStep fuel invs m p) p.2.child_invocations (.ok pairs'))
        items (.ok acc) = .ok pairsF →
      pairsF = acc ++ items.flatMap (fun p =>
        (p.2.child_invocations.filter (fun j => detectBool fuel invs m p.2.cls j)).map
          (fun j => (p.1, j))) by
    have := key iter [] pairs h
    simpa using this
  intro items
  induction items with
  | nil =>
    intro acc pairsF hf
    rw [stepFold_nil] at hf
    cases hf
    simp
  | cons p rest ih =>
    intro acc pairsF hf
    rw [stepFold_cons] at hf
    cases hstep : stepFold (detectChildStep fuel invs m p) p.2.child_invocations (.ok acc) with
    | ok acc1 =>
      rw [hstep] at hf
      have h1 := detectChildFold_spec fuel invs m p _ _ _ hstep
      have h2 := ih _ _ hf
      rw [h2, h1]
      simp [List.flatMap_cons, List.append_assoc]
    | fatal => rw [hstep, stepFold_fatal] at hf; cases hf
    | outOfFuel => rw [hstep, stepFold_outOfFuel] at hf; cases hf

/-- The detection loop neither panics nor runs out of fuel under the
children invariant, when every child's class is a key of a
value-closed dependency map and the DFS fuel exceeds the key count. -/
theorem runDetection_ok (fuel : Nat) (iter invs : List (Bbid × LockInvocation))
    (m : DependantMap)
    (hiter : ∀ p ∈ iter, ∀ j ∈ p.2.child_invocations, j ∈ alKeys invs)
    (hwf : ∀ q ∈ m, ∀ y ∈ q.2, y ∈ alKeys m)
    (hcls : ∀ j child, alLookup invs j = some child → child.cls ∈ alKeys m)
    (hfuel : m.length < fuel) :
    ∃ pairs, runDetection fuel iter invs m = .ok pairs := by
  unfold runDetection
  apply stepFold_ok_of_steps
  intro pairs0 p hp
  apply stepFold_ok_of_steps
  intro pairs1 j hj
  rcases alLookup_isSome_of_mem_keys (hiter p hp j hj) with ⟨child, hchild⟩
  unfold detectChildStep
  rw [hchild]
  simp only []
  rcases dependanciesContain_ok fuel p.2.cls child.cls m [] hwf
      (Or.inl (hcls j child hchild))
      (Nat.lt_of_le_of_lt (unvisitedKeys_le_length m []) hfuel) with ⟨b, v', hdfs⟩
  rw [hdfs]
  cases b with
  | true => exact ⟨_, rfl⟩
  | false => exact ⟨_, rfl⟩

/-- Claim C10: under the invariant that every child BBID is an
invocation-map key, the dependency map construction succeeds, it has a
key for every invocation's class, its values are again keys, and
therefore no map lookup of the projection or of the cycle-detection
DFS ever fails during `run_pass`'s detection loop. -/
theorem c10_dependant_map_lookups_safe (invs : List (Bbid × LockInvocation))
    (hinv : ∀ p ∈ invs, ∀ j ∈ p.2.child_invocations, j ∈ alKeys invs) :
    ∃ m, getDependantMap invs = .ok m ∧
      (∀ p ∈ invs, p.2.cls ∈ alKeys m) ∧
      (∀ q ∈ m, ∀ y ∈ q.2, y ∈ alKeys m) ∧
      (∀ fuel, m.length < fuel →
        ∀ p ∈ invs, ∀ j ∈ p.2.child_invocations, ∃ child, alLookup invs j = some child ∧
          ∃ b v', dependanciesContain fuel p.2.cls child.cls m [] = .ok (b, v')) ∧
      ∃ pairs, runDetection (m.length + 1) invs invs m = .ok pairs := by
  rcases getDependantMap_spec invs hinv with ⟨m, hm, hkeys, hvals⟩
  have hwf : ∀ q ∈ m, ∀ y ∈ q.2, y ∈ alKeys m := by
    intro q hq y hy
    rcases hvals q hq y hy with ⟨p, hp, rfl⟩
    exact hkeys p hp
  have hcls : ∀ j child, alLookup invs j = some child → child.cls ∈ alKeys m :=
    fun j child hchild => hkeys (j, child) (alLookup_mem hchild)
  refine ⟨m, hm, hkeys, hwf, ?_, ?_⟩
  · intro fuel hfuel p hp j hj
    rcases alLookup_isSome_of_mem_keys (hinv p hp j hj) with ⟨child, hchild⟩
    refine ⟨child, hchild, ?_⟩
    exact dependanciesContain_ok fuel p.2.cls child.cls m [] hwf
      (Or.inl (hcls j child hchild))
      (Nat.lt_of_le_of_lt (unvisitedKeys_le_length m []) hfuel)
  · exact runDetection_ok (m.length + 1) invs invs m hinv hwf hcls (Nat.lt_succ_self _)

/-- Witness for C10 at the filled triple-lock pass state. -/
theorem c10_dependant_map_lookups_safe_witness :
    ∃ m, getDependantMap
        [((⟨1, 0⟩ : Bbid), (⟨0, 100, [⟨1, 1⟩, ⟨1, 2⟩]⟩ : LockInvocation)),
          (⟨1, 1⟩, ⟨0, 200, [⟨1, 2⟩]⟩), (⟨1, 2⟩, ⟨0, 300, []⟩)] = .ok m ∧
      (∀ p ∈ [((⟨1, 0⟩ : Bbid), (⟨0, 100, [⟨1, 1⟩, ⟨1, 2⟩]⟩ : LockInvocation)),
          (⟨1, 1⟩, ⟨0, 200, [⟨1, 2⟩]⟩), (⟨1, 2⟩, ⟨0, 300, []⟩)], p.2.cls ∈ alKeys m) ∧
      (∀ q ∈ m, ∀ y ∈ q.2, y ∈ alKeys m) ∧
      (∀ fuel, m.length < fuel →
        ∀ p ∈ [((⟨1, 0⟩ : Bbid), (⟨0, 100, [⟨1, 1⟩, ⟨1, 2⟩]⟩ : LockInvocation)),
          (⟨1, 1⟩, ⟨0, 200, [⟨1, 2⟩]⟩), (⟨1, 2⟩, ⟨0, 300, []⟩)],
          ∀ j ∈ p.2.child_invocations, ∃ child, alLookup
            [((⟨1, 0⟩ : Bbid), (⟨0, 100, [⟨1, 1⟩, ⟨1, 2⟩]⟩ : LockInvocation)),
              (⟨1, 1⟩, ⟨0, 200, [⟨1, 2⟩]⟩), (⟨1, 2⟩, ⟨0, 300, []⟩)] j = some child ∧
          ∃ b v', dependanciesContain fuel p.2.cls child.cls m [] = .ok (b, v')) ∧
      ∃ pairs, runDetection (m.length + 1)
        [((⟨1, 0⟩ : Bbid), (⟨0, 100, [⟨1, 1⟩, ⟨1, 2⟩]⟩ : LockInvocation)),
          (⟨1, 1⟩, ⟨0, 200, [⟨1, 2⟩]⟩), (⟨1, 2⟩, ⟨0, 300, []⟩)]
        [((⟨1, 0⟩ : Bbid), (⟨0, 100, [⟨1, 1⟩, ⟨1, 2⟩]⟩ : LockInvocation)),
          (⟨1, 1⟩, ⟨0, 200, [⟨1, 2⟩]⟩), (⟨1, 2⟩, ⟨0, 300, []⟩)] m = .ok pairs :=
  c10_dependant_map_lookups_safe
    [((⟨1, 0⟩ : Bbid), (⟨0, 100, [⟨1, 1⟩, ⟨1, 2⟩]⟩ : LockInvocation)),
      (⟨1, 1⟩, ⟨0, 200, [⟨1, 2⟩]⟩), (⟨1, 2⟩, ⟨0, 300, []⟩)] (by decide)

/-- Claim C1: for every filled pass state (children recorded, keys
unique), the detection loop of `run_pass` emits the pair of an
invocation `I` and one of its children `J` if and only if the
dependency map has a directed path of length at least one from `J`'s
class to `I`'s class. -/
theorem c1_cycle_detector_iff_path (invs : List (Bbid × LockInvocation)) (m : DependantMap)
    (pairs : List (Bbid × Bbid)) (bI : Bbid) (invI : LockInvocation) (bJ : Bbid)
    (invJ : LockInvocation)
    (hinv : ∀ p ∈ invs, ∀ j ∈ p.2.child_invocations, j ∈ alKeys invs)
    (hnodup : (alKeys invs).Nodup)
    (hm : getDependantMap invs = .ok m)
    (hdet : runDetection (m.length + 1) invs invs m = .ok pairs)
    (hmem : (bI, invI) ∈ invs) (hchild : bJ ∈ invI.child_invocations)
    (hJ : alLookup invs bJ = some invJ) :
    (bI, bJ) ∈ pairs ↔ DepPath m invJ.cls invI.cls := by
  rcases getDependantMap_spec invs hinv with ⟨m0, hm0, hkeys0, hvals0⟩
  rw [hm0] at hm
  cases hm
  have hwf : ∀ q ∈ m, ∀ y ∈ q.2, y ∈ alKeys m := by
    intro q hq y hy
    rcases hvals0 q hq y hy with ⟨p, hp, rfl⟩
    exact hkeys0 p hp
  have hspec := runDetection_spec (m.length + 1) invs invs m pairs hdet
  have hdbiff : ∀ (cls : Nat), cls ∈ alKeys m →
      (detectBool (m.length + 1) invs m cls bJ = true ↔ DepPath m invJ.cls cls) := by
    intro cls hcls
    have hJk : invJ.cls ∈ alKeys m := hkeys0 (bJ, invJ) (alLookup_mem hJ)
    rcases dependanciesContain_iff (m.length + 1) cls invJ.cls m hwf hJk
        (Nat.lt_succ_self _) with ⟨b, v', hdfs, hiff⟩
    unfold detectBool
    rw [hJ]
    simp only []
    rw [hdfs]
    cases b with
    | true => simpa using hiff
    | false =>
      simp only [Bool.false_eq_true, false_iff] at hiff ⊢
      exact hiff
  rw [hspec]
  constructor
  · intro hin
    rcases List.mem_flatMap.mp hin with ⟨p, hp, hpin⟩
    rcases List.mem_map.mp hpin with ⟨j, hjf, heq⟩
    obtain ⟨pk, pv⟩ := p
    simp only [] at heq hjf
    injection heq with h1 h2
    rw [h1] at hp
    have hpv : pv = invI := alNodupKeys_eq hnodup hp hmem
    have hjf' := List.mem_filter.mp hjf
    have hdb := hjf'.2
    rw [h2, hpv] at hdb
    exact (hdbiff invI.cls (hkeys0 (bI, invI) hmem)).mp hdb
  · intro hdep
    have hIk : invI.cls ∈ alKeys m := hkeys0 (bI, invI) hmem
    have hdb : detectBool (m.length + 1) invs m invI.cls bJ = true :=
      (hdbiff invI.cls hIk).mpr hdep
    refine List.mem_flatMap.mpr ⟨(bI, invI), hmem, ?_⟩
    refine List.mem_map.mpr ⟨bJ, ?_, rfl⟩
    exact List.mem_filter.mpr ⟨hchild, by simpa using hdb⟩

/-- The argument scan finds the first move of the guard at 0-based
index `k` and reports callee local `accumulator + k + 1`. -/
theorem findGuardArgLocal_index (cl : Nat) :
    ∀ (args : List Operand) (k i : Nat),
      args.get? k = some (.move cl) →
      (∀ j, j < k → ∀ a, args.get? j = some a → operandMentions cl a = false) →
      findGuardArgLocal cl args i = some (some (i + k + 1)) := by
  intro args
  induction args with
  | nil => intro k i hget _; cases k <;> cases hget
  | cons arg rest ih =>
    intro k i hget hprev
    cases k with
    | zero =>
      simp only [List.get?] at hget
      cases hget
      unfold findGuardArgLocal
      simp
    | succ k' =>
      simp only [List.get?] at hget
      have harg : operandMentions cl arg = false :=
        hprev 0 (Nat.succ_pos _) arg rfl
      have hprev' : ∀ j, j < k' → ∀ a, rest.get? j = some a → operandMentions cl a = false := by
        intro j hj a ha
        exact hprev (j + 1) (Nat.succ_lt_succ hj) a ha
      have hrec := ih k' (i + 1) hget hprev'
      have harith : i + 1 + k' + 1 = i + (k' + 1) + 1 := by omega
      cases arg with
      | move place =>
        unfold operandMentions at harg
        simp only [] at harg
        have hne : ¬(place = cl) := by
          intro hc; rw [hc] at harg; simp at harg
        unfold findGuardArgLocal
        simp only []
        rw [if_neg hne, hrec, harith]
      | copy place =>
        unfold operandMentions at harg
        simp only [] at harg
        have hne : ¬(place = cl) := by
          intro hc; rw [hc] at harg; simp at harg
        unfold findGuardArgLocal
        simp only []
        rw [if_neg hne, hrec, harith]
      | constant f ty =>
        unfold findGuardArgLocal
        simp only []
        rw [hrec, harith]

/-- Claim C2 (amended): in the guard-flow walk, when a Call terminator
is reached with the guard live and argument `k` (0-based) the first to
move it, the callee receives the guard in local `k + 1` (its 1-based
argument position, not that position plus one); an unresolvable callee
yields the accumulated guard state combined with `Dropped` (not bare
`Dropped`); a resolvable callee is entered at its first block in
callee mode, and its result is mapped: `Returned` places the guard in
the call destination and continues, while `Dropped` and `Undetermined`
stop with the accumulated state combined with that state. -/
theorem c2_call_arm_behavior :
    (∀ (cl : Nat) (args : List Operand) (k i : Nat),
        args.get? k = some (.move cl) →
        (∀ j, j < k → ∀ a, args.get? j = some a → operandMentions cl a = false) →
        findGuardArgLocal cl args i = some (some (i + k + 1))) ∧
    (∀ (next : Collector → Nat → Nat → GuardState → Step (GuardState × Collector))
        (into : Collector → Bbid → Nat → Bool → Step (GuardState × Collector))
        (sweep : Collector → Nat → Step Collector)
        (rm : FunctionReturnMap) (bbid : Bbid) (func : Operand) (args : List Operand)
        (destination : Nat) (target : Option Nat) (sp cl : Nat) (exr : Bool)
        (gs : GuardState) (s : Collector) (arg : Nat),
        destination ≠ cl →
        findGuardArgLocal cl args 0 = some (some arg) →
        getFnDefIdFromTerminator ⟨.call func args destination target, sp⟩ = none →
        handleTerminator next into sweep rm bbid ⟨.call func args destination target, sp⟩ cl exr gs s
          = .ok (gs.combine .Dropped, s)) ∧
    (∀ (next : Collector → Nat → Nat → GuardState → Step (GuardState × Collector))
        (into : Collector → Bbid → Nat → Bool → Step (GuardState × Collector))
        (sweep : Collector → Nat → Step Collector)
        (rm : FunctionReturnMap) (bbid : Bbid) (func : Operand) (args : List Operand)
        (destination : Nat) (target : Option Nat) (sp cl : Nat) (exr : Bool)
        (gs : GuardState) (s : Collector) (arg f : Nat),
        destination ≠ cl →
        findGuardArgLocal cl args 0 = some (some arg) →
        getFnDefIdFromTerminator ⟨.call func args destination target, sp⟩ = some f →
        handleTerminator next into sweep rm bbid ⟨.call func args destination target, sp⟩ cl exr gs s
          = match into s (Bbid.fn_start f) arg false with
            | .ok (.Returned, s') => continueAt next s' target destination gs
            | .ok (.Dropped, s') => .ok (gs.combine .Dropped, s')
            | .ok (.Undetermined, s') => .ok (gs.combine .Undetermined, s')
            | .fatal => .fatal
            | .outOfFuel => .outOfFuel) := by
  refine ⟨findGuardArgLocal_index, ?_, ?_⟩
  · intro next into sweep rm bbid func args destination target sp cl exr gs s arg
      hdest hfind hfn
    unfold handleTerminator
    simp only []
    rw [if_neg hdest, hfind]
    simp only []
    rw [hfn]
  · intro next into sweep rm bbid func args destination target sp cl exr gs s arg f
      hdest hfind hfn
    unfold handleTerminator
    simp only []
    rw [if_neg hdest, hfind]
    simp only []
    rw [hfn]

/-- Witness for C2 (amended) at a concrete argument list: the second
argument (0-based index 1) moves the guard, so the callee receives it
in local 2. -/
theorem c2_call_arm_behavior_witness :
    findGuardArgLocal 5 [.copy 4, .move 5] 0 = some (some 2) :=
  c2_call_arm_behavior.1 5 [.copy 4, .move 5] 1 0 (by decide) (by decide)

/-- Counterexample to C2 as stated: in the caller crate the guard
(local 5) is the first call argument, and the walk passes it to the
callee in local 1 (0-based index 0 plus one) and ends `Dropped`, while
entering the callee at local 2 — the slot the claim's 1-based reading
prescribes — aborts; and a walk that accumulated `Returned` on a
switch branch ends `Returned`, not `Dropped`, at an unresolvable
callee taking the guard. -/
theorem c2_call_arm_counterexample :
    findGuardArgLocal 5 [.move 5] 0 = some (some 1) ∧
    collectInnerAux 60 c2Env ⟨[], [], []⟩ ⟨10, 0⟩ 5 false .Undetermined
      = .ok (.Dropped, ⟨[], [⟨⟨11, 0⟩, 1⟩, ⟨⟨10, 0⟩, 5⟩], []⟩) ∧
    collectInnerAux 60 c2Env ⟨[], [], []⟩ ⟨11, 0⟩ 2 false .Undetermined = .fatal ∧
    collectInnerAux 60 c2Env ⟨[], [], []⟩ ⟨12, 0⟩ 3 false .Undetermined
      = .ok (.Returned,
          ⟨[], [⟨⟨12, 2⟩, 3⟩, ⟨⟨12, 1⟩, 3⟩, ⟨⟨12, 0⟩, 3⟩], []⟩) := by
  refine ⟨by decide, by decide, by decide, by decide⟩

/-- A call-argument scan that sees a lock-typed argument never
succeeds with `none`: it interns a class or panics. -/
theorem findLockClassArg_some (target : AnalysisPassTarget) (ld : List MirTy) :
    ∀ (args : List Operand) (tyMap : LockClassTyMap) (r : Option Nat × LockClassTyMap),
      hasLockArg target ld args = true →
      findLockClassArg target tyMap ld args = .ok r → ∃ c, r.1 = some c := by
  intro args
  induction args with
  | nil =>
    intro tyMap r hany _
    unfold hasLockArg at hany
    simp at hany
  | cons arg rest ih =>
    intro tyMap r hany hfind
    unfold findLockClassArg at hfind
    cases hty : operandTy ld arg with
    | none => rw [hty] at hfind; cases hfind
    | some arg_type =>
      rw [hty] at hfind
      simp only [] at hfind
      have hany' : hasLockArg target ld rest = true ∨
          (match arg_type.peel_refs with
            | .adt did _ => did == target.lock
            | _ => false) = true := by
        unfold hasLockArg at hany
        rw [List.any_cons] at hany
        simp only [Bool.or_eq_true] at hany
        rcases hany with h | h
        · right
          rw [hty] at h
          exact h
        · left
          exact h
      cases hpeel : arg_type.peel_refs with
      | adt did gargs =>
        rw [hpeel] at hfind
        simp only [] at hfind
        by_cases hdid : did = target.lock
        · rw [if_pos hdid] at hfind
          by_cases hlen : gargs.length = 1
          · rw [if_neg (by simp [hlen])] at hfind
            cases gargs with
            | nil => simp [MirTyList.length] at hlen
            | cons hd tl =>
              simp only [MirTyList.first?] at hfind
              cases hfind
              exact ⟨(getLockClass tyMap hd).1, rfl⟩
          · rw [if_pos hlen] at hfind
            cases hfind
        · rw [if_neg hdid] at hfind
          refine ih tyMap r ?_ hfind
          rcases hany' with h | h
          · exact h
          · rw [hpeel] at h
            simp only [] at h
            exact absurd (eq_of_beq h) hdid
      | ref inner =>
        rw [hpeel] at hfind
        refine ih tyMap r ?_ hfind
        rcases hany' with h | h
        · exact h
        · rw [hpeel] at h
          simp only [] at h
          cases h
      | other i =>
        rw [hpeel] at hfind
        refine ih tyMap r ?_ hfind
        rcases hany' with h | h
        · exact h
        · rw [hpeel] at h
          simp only [] at h
          cases h

/-- One invocation-collector block step only grows the set of recorded
invocation keys. -/
theorem collectInvocationStep_keys (target : AnalysisPassTarget) (d : Nat) (mb : Body)
    (st : PassState) (bb : Nat) (st' : PassState)
    (h : collectInvocationStep target d mb st bb = .ok st') :
    ∀ k ∈ alKeys st.invocations, k ∈ alKeys st'.invocations := by
  unfold collectInvocationStep at h
  cases hget : mb.basic_blocks.get? bb with
  | none => rw [hget] at h; cases h
  | some bbd =>
    rw [hget] at h
    cases hlc : lockClassFromTerminator target st.lock_class_ty_map mb bb with
    | fatal => rw [hlc] at h; cases h
    | outOfFuel => rw [hlc] at h; cases h
    | ok p =>
      obtain ⟨oc, tyMap'⟩ := p
      rw [hlc] at h
      cases oc with
      | some c =>
        cases h
        intro k hk
        exact (alKeys_alInsert _ _ _ k).mpr (Or.inr hk)
      | none =>
        simp only [] at h
        cases hfn : getFnDefIdFromTerminator bbd.terminator with
        | some f =>
          rw [hfn] at h
          cases hkind : bbd.terminator.kind
          all_goals rw [hkind] at h
          case call fo args dest tgt =>
            cases tgt with
            | some t =>
              cases h
              intro k hk
              exact hk
            | none =>
              cases h
              intro k hk
              exact hk
          all_goals cases h
        | none =>
          rw [hfn] at h
          cases h
          intro k hk
          exact hk

/-- A block whose terminator calls the lock method with a lock-typed
argument has an invocation recorded at its BBID by a successful
collector step. -/
theorem collectInvocationStep_records (target : AnalysisPassTarget) (d : Nat) (mb : Body)
    (st : PassState) (bb : Nat) (st' : PassState) (bbd : BasicBlockData)
    (hget : mb.basic_blocks.get? bb = some bbd)
    (hlock : isTerminatorLockInvocation target bbd.terminator = true)
    (harg : terminatorHasLockArg target mb.local_decls bbd.terminator.kind = true)
    (h : collectInvocationStep target d mb st bb = .ok st') :
    (⟨d, bb⟩ : Bbid) ∈ alKeys st'.invocations := by
  unfold collectInvocationStep at h
  rw [hget] at h
  cases hlc : lockClassFromTerminator target st.lock_class_ty_map mb bb with
  | fatal => rw [hlc] at h; cases h
  | outOfFuel => rw [hlc] at h; cases h
  | ok p =>
    obtain ⟨oc, tyMap'⟩ := p
    rw [hlc] at h
    cases oc with
    | some c =>
      cases h
      exact (alKeys_alInsert _ _ _ _).mpr (Or.inl rfl)
    | none =>
      exfalso
      unfold lockClassFromTerminator at hlc
      rw [hget] at hlc
      simp only [] at hlc
      rw [if_neg (not_not_intro hlock)] at hlc
      cases hkind : bbd.terminator.kind
      all_goals rw [hkind] at harg hlc
      case call fo args dest tgt =>
        unfold terminatorHasLockArg at harg
        simp only [] at harg
        rcases findLockClassArg_some target mb.local_decls args st.lock_class_ty_map
          (none, tyMap') harg hlc with ⟨c, hc⟩
        cases hc
      all_goals (unfold terminatorHasLockArg at harg; simp only [] at harg; cases harg)

/-- Claim C4: the invocation collector scans every `Fn` item except
the synthetic lock-filler shim, and for every reachable basic block
whose terminator calls the configured lock method with a lock-typed
argument, the final pass state records an invocation at that block's
BBID. -/
theorem c4_invocation_collector_complete
    (crate : Crate) (target : AnalysisPassTarget) (st0 stF : PassState)
    (hrun : collectInvocations crate target st0 = .ok stF)
    (item : FnItem) (hitem : item ∈ crate) (hfn : item.is_fn = true)
    (hshim : item.is_lock_filler = false)
    (bb : Nat) (hbb : bb ∈ item.body.reachable)
    (bbd : BasicBlockData) (hget : item.body.basic_blocks.get? bb = some bbd)
    (hlock : isTerminatorLockInvocation target bbd.terminator = true)
    (harg : terminatorHasLockArg target item.body.local_decls bbd.terminator.kind = true) :
    (⟨item.def_id, bb⟩ : Bbid) ∈ alKeys stF.invocations := by
  unfold collectInvocations at hrun
  have houter : ∀ (s : PassState) (y : FnItem) (s' : PassState), y ∈ crate →
      (if y.is_fn && !y.is_lock_filler then collectInvocationsForBody target s y.def_id y.body
        else .ok s) = .ok s' →
      ∀ k ∈ alKeys s.invocations, k ∈ alKeys s'.invocations := by
    intro s y s' hy hstep
    by_cases hcond : (y.is_fn && !y.is_lock_filler) = true
    · rw [if_pos hcond] at hstep
      unfold collectInvocationsForBody at hstep
      exact stepFold_ok_rel _ (fun (a b : PassState) => ∀ k ∈ alKeys a.invocations, k ∈ alKeys b.invocations)
        (fun s k hk => hk) (fun a b c hab hbc k hk => hbc k (hab k hk))
        y.body.reachable s s'
        (fun u x u' _ hu => collectInvocationStep_keys target y.def_id y.body u x u' hu)
        hstep
    · rw [if_neg hcond] at hstep
      cases hstep
      intro k hk
      exact hk
  rcases stepFold_ok_elem _ (fun (a b : PassState) => ∀ k ∈ alKeys a.invocations, k ∈ alKeys b.invocations)
      (fun s k hk => hk) (fun a b c hab hbc k hk => hbc k (hab k hk))
      crate stF item st0 houter hitem hrun with ⟨s1, s2, hstepx, hP2F⟩
  have hc : (item.is_fn && !item.is_lock_filler) = true := by rw [hfn, hshim]; rfl
  rw [if_pos hc] at hstepx
  unfold collectInvocationsForBody at hstepx
  rcases stepFold_ok_elem _ (fun (a b : PassState) => ∀ k ∈ alKeys a.invocations, k ∈ alKeys b.invocations)
      (fun s k hk => hk) (fun a b c hab hbc k hk => hbc k (hab k hk))
      item.body.reachable s2 bb s1
      (fun s y s' _ hy => collectInvocationStep_keys target item.def_id item.body s y s' hy)
      hbb hstepx with ⟨t1, t2, hstep_bb, hPt2⟩
  exact hP2F _ (hPt2 _ (collectInvocationStep_records target item.def_id item.body
    t1 bb t2 bbd hget hlock harg hstep_bb))

/-- Witness for C4 on the triple-lock crate: block 0 of function 1
calls the lock method on a lock-typed argument and is recorded. -/
theorem c4_invocation_collector_complete_witness :
    ((⟨1, 0⟩ : Bbid) ∈ alKeys
      (⟨[(⟨1, 0⟩, ⟨0, 100, []⟩), (⟨1, 1⟩, ⟨0, 200, []⟩), (⟨1, 2⟩, ⟨0, 300, []⟩)],
        [], ⟨[(0, .other 7)], [(.other 7, 0)], 1⟩⟩ : PassState).invocations) :=
  c4_invocation_collector_complete tripleLockCrate exampleTarget ⟨[], [], ⟨[], [], 0⟩⟩
    ⟨[(⟨1, 0⟩, ⟨0, 100, []⟩), (⟨1, 1⟩, ⟨0, 200, []⟩), (⟨1, 2⟩, ⟨0, 300, []⟩)],
      [], ⟨[(0, .other 7)], [(.other 7, 0)], 1⟩⟩
    (by decide) ⟨1, true, false, tripleLockBody⟩ (by decide) rfl rfl 0 (by decide)
    { statements := [], terminator := { kind := .call lockCallee [.move 1] 2 (some 1), span := 100 } }
    (by decide) (by decide) (by decide)

/-- Claim C6, actual behavior: a forward-mode walk reaching a Return
terminator with the guard in local 0 inside a function with no
recorded return locations panics on the return-map index — it does not
traverse an empty set and terminate silently. -/
theorem c6_return_missing_entry_aborts
    (next : Collector → Nat → Nat → GuardState → Step (GuardState × Collector))
    (into : Collector → Bbid → Nat → Bool → Step (GuardState × Collector))
    (sweep : Collector → Nat → Step Collector)
    (rm : FunctionReturnMap) (bbid : Bbid) (sp : Nat) (gs : GuardState) (s : Collector)
    (hrm : alLookup rm bbid.def_id = none) :
    handleTerminator next into sweep rm bbid ⟨.ret, sp⟩ 0 true gs s = .fatal := by
  unfold handleTerminator
  simp only [if_true]
  rw [hrm]

/-- Witness for C6's actual-behavior theorem at a concrete Return
site with an empty return map. -/
theorem c6_return_missing_entry_aborts_witness :
    handleTerminator (fun s _ _ gs => .ok (gs, s)) (fun s _ _ _ => .ok (.Undetermined, s))
      (fun s _ => .ok s) [] ⟨20, 1⟩ ⟨.ret, 0⟩ 0 true .Undetermined ⟨[], [], []⟩ = .fatal :=
  c6_return_missing_entry_aborts (fun s _ _ gs => .ok (gs, s))
    (fun s _ _ _ => .ok (.Undetermined, s)) (fun s _ => .ok s) [] ⟨20, 1⟩ 0 .Undetermined
    ⟨[], [], []⟩ (by decide)

/-- Counterexample to C6 as stated: on the crate whose only function
acquires a lock and moves the guard into the return place, the
collection phases of the pass abort (the fill-phase walk hits Return
with the guard in local 0 and no return-map entry for the function)
instead of terminating silently. -/
theorem c6_silent_return_counterexample :
    runPassCollect c6Crate exampleTarget 0 = .fatal := by decide

/-- Every element of the ordered error set after an insertion is the
inserted error or was already present. -/
theorem insertError_mem (e : DeadlockError) :
    ∀ (l : List DeadlockError) (x : DeadlockError), x ∈ insertError l e → x = e ∨ x ∈ l := by
  intro l
  induction l with
  | nil =>
    intro x hx
    unfold insertError at hx
    rcases List.mem_singleton.mp hx with rfl
    exact Or.inl rfl
  | cons e' rest ih =>
    intro x hx
    unfold insertError at hx
    by_cases hlt : e.child_span < e'.child_span
    · rw [if_pos hlt] at hx
      rcases List.mem_cons.mp hx with rfl | hx'
      · exact Or.inl rfl
      · exact Or.inr hx'
    · rw [if_neg hlt] at hx
      by_cases heq : e.child_span = e'.child_span
      · rw [if_pos heq] at hx
        exact Or.inr hx
      · rw [if_neg heq] at hx
        rcases List.mem_cons.mp hx with rfl | hx'
        · exact Or.inr (List.mem_cons_self _ _)
        · rcases ih x hx' with h | h
          · exact Or.inl h
          · exact Or.inr (List.mem_cons_of_mem _ h)

/-- Insertion preserves strict sortedness of the error set by child
span. -/
theorem insertError_pairwise (e : DeadlockError) :
    ∀ (l : List DeadlockError),
      List.Pairwise (fun a b => a.child_span < b.child_span) l →
      List.Pairwise (fun a b => a.child_span < b.child_span) (insertError l e) := by
  intro l
  induction l with
  | nil =>
    intro _
    unfold insertError
    exact List.pairwise_singleton _ _
  | cons e' rest ih =>
    intro hp
    rcases List.pairwise_cons.mp hp with ⟨hhead, htail⟩
    unfold insertError
    by_cases hlt : e.child_span < e'.child_span
    · rw [if_pos hlt]
      refine List.pairwise_cons.mpr ⟨?_, hp⟩
      intro x hx
      rcases List.mem_cons.mp hx with rfl | hx'
      · exact hlt
      · exact Nat.lt_trans hlt (hhead x hx')
    · rw [if_neg hlt]
      by_cases heq : e.child_span = e'.child_span
      · rw [if_pos heq]
        exact hp
      · rw [if_neg heq]
        refine List.pairwise_cons.mpr ⟨?_, ih htail⟩
        intro x hx
        rcases insertError_mem e rest x hx with rfl | hx'
        · omega
        · exact hhead x hx'

/-- Child spans present after an insertion: the inserted error's span
and the previous ones. -/
theorem insertError_span_mem (e : DeadlockError) :
    ∀ (l : List DeadlockError) (s : Nat),
      (s ∈ (insertError l e).map DeadlockError.child_span ↔
        s = e.child_span ∨ s ∈ l.map DeadlockError.child_span) := by
  intro l
  induction l with
  | nil =>
    intro s
    unfold insertError
    simp
  | cons e' rest ih =>
    intro s
    unfold insertError
    by_cases hlt : e.child_span < e'.child_span
    · rw [if_pos hlt]
      simp [List.mem_cons]
    · rw [if_neg hlt]
      by_cases heq : e.child_span = e'.child_span
      · rw [if_pos heq]
        simp only [List.map_cons, List.mem_cons]
        constructor
        · intro h
          exact Or.inr h
        · intro h
          rcases h with rfl | h
          · exact Or.inl heq
          · exact h
      · rw [if_neg heq]
        simp only [List.map_cons, List.mem_cons]
        rw [ih s]
        tauto

/-- An error whose child span is already present is not inserted: the
existing element — with its own parent data — is kept. -/
theorem insertError_drop (e : DeadlockError) :
    ∀ (l : List DeadlockError),
      List.Pairwise (fun a b => a.child_span < b.child_span) l →
      e.child_span ∈ l.map DeadlockError.child_span → insertError l e = l := by
  intro l
  induction l with
  | nil =>
    intro _ hs
    simp at hs
  | cons e' rest ih =>
    intro hp hs
    rcases List.pairwise_cons.mp hp with ⟨hhead, htail⟩
    unfold insertError
    by_cases hlt : e.child_span < e'.child_span
    · exfalso
      simp only [List.map_cons, List.mem_cons] at hs
      rcases hs with h | h
      · omega
      · rcases List.mem_map.mp h with ⟨x, hx, hxs⟩
        have := hhead x hx
        omega
    · rw [if_neg hlt]
      by_cases heq : e.child_span = e'.child_span
      · rw [if_pos heq]
      · rw [if_neg heq]
        have hs' : e.child_span ∈ rest.map DeadlockError.child_span := by
          simp only [List.map_cons, List.mem_cons] at hs
          rcases hs with h | h
          · exact absurd h heq
          · exact h
        rw [ih htail hs']

/-- An error with a fresh child span is inserted: the set grows by one
and contains it. -/
theorem insertError_new (e : DeadlockError) :
    ∀ (l : List DeadlockError),
      e.child_span ∉ l.map DeadlockError.child_span →
      (insertError l e).length = l.length + 1 ∧ e ∈ insertError l e := by
  intro l
  induction l with
  | nil =>
    intro _
    exact ⟨rfl, List.mem_singleton.mpr rfl⟩
  | cons e' rest ih =>
    intro hs
    have hne : e.child_span ≠ e'.child_span := by
      intro hc
      exact hs (by simp [hc])
    have hs' : e.child_span ∉ rest.map DeadlockError.child_span := by
      intro hc
      exact hs (by simp [hc])
    unfold insertError
    by_cases hlt : e.child_span < e'.child_span
    · rw [if_pos hlt]
      exact ⟨rfl, List.mem_cons_self _ _⟩
    · rw [if_neg hlt, if_neg hne]
      rcases ih hs' with ⟨hlen, hmem⟩
      constructor
      · simp only [List.length_cons, hlen]
      · exact List.mem_cons_of_mem _ hmem

/-- The error set built from the detected pairs is strictly sorted by
child span. -/
theorem buildErrors_pairwise (tyMap : LockClassTyMap) (invs : List (Bbid × LockInvocation))
    (pairs : List (Bbid × Bbid)) (errors : List DeadlockError)
    (h : buildErrors tyMap invs pairs = .ok errors) :
    List.Pairwise (fun a b => a.child_span < b.child_span) errors := by
  unfold buildErrors at h
  refine stepFold_ok_pred _ (List.Pairwise (fun a b => a.child_span < b.child_span)) pairs
    ?_ [] errors h List.Pairwise.nil
  intro s pq s' _ hstep hA
  cases h1 : alLookup invs pq.1 with
  | none => rw [h1] at hstep; cases hstep
  | some pi =>
    cases h2 : alLookup invs pq.2 with
    | none => rw [h1, h2] at hstep; cases hstep
    | some ci =>
      rw [h1, h2] at hstep
      simp only [] at hstep
      cases h3 : getTy tyMap pi.cls with
      | none => rw [h3] at hstep; cases hstep
      | some pt =>
        cases h4 : getTy tyMap ci.cls with
        | none => rw [h3, h4] at hstep; cases hstep
        | some ct =>
          rw [h3, h4] at hstep
          cases hstep
          exact insertError_pairwise _ s hA

/-- Child spans of the built error set: exactly the child invocation
spans of the detected pairs. -/
theorem buildErrors_spans (tyMap : LockClassTyMap) (invs : List (Bbid × LockInvocation)) :
    ∀ (pairs : List (Bbid × Bbid)) (acc errors : List DeadlockError),
      stepFold (fun errors (pq : Bbid × Bbid) =>
          match alLookup invs pq.1, alLookup invs pq.2 with
          | some parent_invocation, some child_invocation =>
            match getTy tyMap parent_invocation.cls, getTy tyMap child_invocation.cls with
            | some parent_ty, some child_ty =>
              .ok (insertError errors
                ⟨parent_ty, child_ty, parent_invocation.span, child_invocation.span⟩)
            | _, _ => .fatal
          | _, _ => .fatal)
        pairs (.ok acc) = .ok errors →
      ∀ s, (s ∈ errors.map DeadlockError.child_span ↔
        s ∈ acc.map DeadlockError.child_span ∨
          ∃ pq ∈ pairs, ∃ ci, alLookup invs pq.2 = some ci ∧ ci.span = s) := by
  intro pairs
  induction pairs with
  | nil =>
    intro acc errors h s
    rw [stepFold_nil] at h
    cases h
    simp
  | cons pq rest ih =>
    intro acc errors h s
    rw [stepFold_cons] at h
    cases h1 : alLookup invs pq.1 with
    | none => rw [h1, stepFold_fatal] at h; cases h
    | some pi =>
      cases h2 : alLookup invs pq.2 with
      | none => rw [h1, h2, stepFold_fatal] at h; cases h
      | some ci =>
        rw [h1, h2] at h
        simp only [] at h
        cases h3 : getTy tyMap pi.cls with
        | none => rw [h3, stepFold_fatal] at h; cases h
        | some pt =>
          cases h4 : getTy tyMap ci.cls with
          | none => rw [h3, h4, stepFold_fatal] at h; cases h
          | some ct =>
            rw [h3, h4] at h
            simp only [] at h
            have := ih _ _ h s
            rw [this]
            rw [insertError_span_mem ⟨pt, ct, pi.span, ci.span⟩ acc s]
            constructor
            · intro hin
              rcases hin with (rfl | hacc) | ⟨q, hq, ci', hci', hsp⟩
              · exact Or.inr ⟨pq, List.mem_cons_self _ _, ci, h2, rfl⟩
              · exact Or.inl hacc
              · exact Or.inr ⟨q, List.mem_cons_of_mem _ hq, ci', hci', hsp⟩
            · intro hin
              rcases hin with hacc | ⟨q, hq, ci', hci', hsp⟩
              · exact Or.inl (Or.inr hacc)
              · rcases List.mem_cons.mp hq with rfl | hq'
                · rw [h2] at hci'
                  cases hci'
                  exact Or.inl (Or.inl hsp.symm)
                · exact Or.inr ⟨q, hq', ci', hci', hsp⟩

/-- Two strictly sorted lists of naturals with the same members are
equal. -/
theorem strictSorted_eq_of_mem_iff :
    ∀ (l1 l2 : List Nat), List.Pairwise (fun a b => a < b) l1 →
      List.Pairwise (fun a b => a < b) l2 → (∀ x, x ∈ l1 ↔ x ∈ l2) → l1 = l2 := by
  intro l1
  induction l1 with
  | nil =>
    intro l2 _ _ hmem
    cases l2 with
    | nil => rfl
    | cons b t2 => exact absurd ((hmem b).mpr (List.mem_cons_self _ _)) (List.not_mem_nil b)
  | cons a t1 ih =>
    intro l2 hp1 hp2 hmem
    cases l2 with
    | nil => exact absurd ((hmem a).mp (List.mem_cons_self _ _)) (List.not_mem_nil a)
    | cons b t2 =>
      rcases List.pairwise_cons.mp hp1 with ⟨hh1, ht1⟩
      rcases List.pairwise_cons.mp hp2 with ⟨hh2, ht2⟩
      have hab : a = b := by
        have ha : a ∈ b :: t2 := (hmem a).mp (List.mem_cons_self _ _)
        have hb : b ∈ a :: t1 := (hmem b).mpr (List.mem_cons_self _ _)
        rcases List.mem_cons.mp ha with h | h
        · exact h
        · rcases List.mem_cons.mp hb with h' | h'
          · exact h'.symm
          · have := hh2 a h
            have := hh1 b h'
            omega
      subst hab
      have hmem' : ∀ x, x ∈ t1 ↔ x ∈ t2 := by
        intro x
        constructor
        · intro hx
          have hxl2 : x ∈ a :: t2 := (hmem x).mp (List.mem_cons_of_mem _ hx)
          rcases List.mem_cons.mp hxl2 with rfl | h
          · exact absurd (hh1 x hx) (lt_irrefl x)
          · exact h
        · intro hx
          have hxl1 : x ∈ a :: t1 := (hmem x).mpr (List.mem_cons_of_mem _ hx)
          rcases List.mem_cons.mp hxl1 with rfl | h
          · exact absurd (hh2 x hx) (lt_irrefl x)
          · exact h
      rw [ih t2 ht1 ht2 hmem']

/-- The emitted diagnostics' primary spans are the error set's child
spans, in order. -/
theorem emitAllErrors_primary (errors : List DeadlockError) :
    (emitAllErrors errors).1.map Diagnostic.primary_span = errors.map DeadlockError.child_span := by
  unfold emitAllErrors
  simp [List.map_map]

/-- Claim C5 (amended): for every run of a pass, exactly one
diagnostic is emitted per distinct CHILD span among the detected
deadlock errors — an error whose child span is already present is
dropped regardless of its parent span — and the diagnostics are
emitted in increasing child-span order. -/
theorem c5_one_diagnostic_per_child_span :
    (∀ (tyMap : LockClassTyMap) (invs : List (Bbid × LockInvocation))
        (pairs : List (Bbid × Bbid)) (errors : List DeadlockError),
        buildErrors tyMap invs pairs = .ok errors →
        List.Pairwise (fun a b => a.child_span < b.child_span) errors) ∧
    (∀ (l : List DeadlockError) (e : DeadlockError),
        List.Pairwise (fun a b => a.child_span < b.child_span) l →
        e.child_span ∈ l.map DeadlockError.child_span → insertError l e = l) ∧
    (∀ (l : List DeadlockError) (e : DeadlockError),
        e.child_span ∉ l.map DeadlockError.child_span →
        (insertError l e).length = l.length + 1 ∧ e ∈ insertError l e) ∧
    (∀ errors : List DeadlockError,
        (emitAllErrors errors).1.length = errors.length ∧
        (emitAllErrors errors).1.map Diagnostic.primary_span
          = errors.map DeadlockError.child_span ∧
        (List.Pairwise (fun a b => a.child_span < b.child_span) errors →
          List.Pairwise (fun (a b : Nat) => a < b)
            ((emitAllErrors errors).1.map Diagnostic.primary_span))) := by
  refine ⟨buildErrors_pairwise, fun l e hp hm => insertError_drop e l hp hm,
    fun l e hm => insertError_new e l hm, ?_⟩
  intro errors
  refine ⟨?_, emitAllErrors_primary errors, ?_⟩
  · unfold emitAllErrors
    simp
  · intro hp
    rw [emitAllErrors_primary]
    exact List.pairwise_map.mpr hp

/-- Witness for C5 (amended): inserting an error with a fresh child
span into the empty set grows it to one element containing it. -/
theorem c5_one_diagnostic_per_child_span_witness :
    (insertError [] ⟨.other 0, .other 0, 5, 7⟩).length = ([] : List DeadlockError).length + 1 ∧
      (⟨.other 0, .other 0, 5, 7⟩ : DeadlockError) ∈ insertError [] ⟨.other 0, .other 0, 5, 7⟩ :=
  c5_one_diagnostic_per_child_span.2.2.1 [] ⟨.other 0, .other 0, 5, 7⟩ (by decide)

/-- Counterexample to C5 as stated: on the triple-lock crate the
detector finds three pairs with three distinct (parent span, child
span) span pairs, yet the pass emits only two diagnostics — dedup is
by child span alone, so the pair (200, 300) is merged with
(100, 300). -/
theorem c5_span_pair_counterexample :
    runDetection 2
      [((⟨1, 0⟩ : Bbid), (⟨0, 100, [⟨1, 1⟩, ⟨1, 2⟩]⟩ : LockInvocation)),
        (⟨1, 1⟩, ⟨0, 200, [⟨1, 2⟩]⟩), (⟨1, 2⟩, ⟨0, 300, []⟩)]
      [((⟨1, 0⟩ : Bbid), (⟨0, 100, [⟨1, 1⟩, ⟨1, 2⟩]⟩ : LockInvocation)),
        (⟨1, 1⟩, ⟨0, 200, [⟨1, 2⟩]⟩), (⟨1, 2⟩, ⟨0, 300, []⟩)] [(0, [0])]
      = .ok [((⟨1, 0⟩ : Bbid), (⟨1, 1⟩ : Bbid)), (⟨1, 0⟩, ⟨1, 2⟩), (⟨1, 1⟩, ⟨1, 2⟩)] ∧
    (List.map (fun pq : Bbid × Bbid =>
        ((alLookup [((⟨1, 0⟩ : Bbid), (⟨0, 100, [⟨1, 1⟩, ⟨1, 2⟩]⟩ : LockInvocation)),
            (⟨1, 1⟩, ⟨0, 200, [⟨1, 2⟩]⟩), (⟨1, 2⟩, ⟨0, 300, []⟩)] pq.1).map LockInvocation.span,
          (alLookup [((⟨1, 0⟩ : Bbid), (⟨0, 100, [⟨1, 1⟩, ⟨1, 2⟩]⟩ : LockInvocation)),
            (⟨1, 1⟩, ⟨0, 200, [⟨1, 2⟩]⟩), (⟨1, 2⟩, ⟨0, 300, []⟩)] pq.2).map LockInvocation.span))
      [((⟨1, 0⟩ : Bbid), (⟨1, 1⟩ : Bbid)), (⟨1, 0⟩, ⟨1, 2⟩), (⟨1, 1⟩, ⟨1, 2⟩)]).Nodup ∧
    runPass tripleLockCrate exampleTarget 0
      = .ok ([⟨200, 100, .other 7, 200, .other 7⟩, ⟨300, 100, .other 7, 300, .other 7⟩],
          .DeadlockDetected) :=
  ⟨by decide, by decide, by decide⟩

/-- Claim C9 (amended): two runs of the detection-and-emission tail of
`run_pass` over the same pass state that iterate the invocation map in
any two permuted orders emit diagnostics with the same primary-span
sequence, the same count and the same status — but the parent data
attached to a child span may differ between the runs, since dedup is
keyed by child span and keeps the first-inserted error. -/
theorem c9_diagnostics_iteration_order (st : PassState)
    (iter1 iter2 : List (Bbid × LockInvocation)) (d1 d2 : List Diagnostic × ErrorStatus)
    (hperm : iter1.Perm iter2)
    (h1 : runPassDiagnostics st iter1 = .ok d1)
    (h2 : runPassDiagnostics st iter2 = .ok d2) :
    d1.1.map Diagnostic.primary_span = d2.1.map Diagnostic.primary_span ∧
    d1.1.length = d2.1.length ∧ d1.2 = d2.2 := by
  unfold runPassDiagnostics at h1 h2
  cases hm : getDependantMap st.invocations with
  | fatal => rw [hm] at h1; cases h1
  | outOfFuel => rw [hm] at h1; cases h1
  | ok m =>
    rw [hm] at h1 h2
    simp only [] at h1 h2
    cases hdet1 : runDetection (m.length + 1) iter1 st.invocations m with
    | fatal => rw [hdet1] at h1; cases h1
    | outOfFuel => rw [hdet1] at h1; cases h1
    | ok pairs1 =>
      cases hdet2 : runDetection (m.length + 1) iter2 st.invocations m with
      | fatal => rw [hdet2] at h2; cases h2
      | outOfFuel => rw [hdet2] at h2; cases h2
      | ok pairs2 =>
        rw [hdet1] at h1
        rw [hdet2] at h2
        simp only [] at h1 h2
        cases hbe1 : buildErrors st.lock_class_ty_map st.invocations pairs1 with
        | fatal => rw [hbe1] at h1; cases h1
        | outOfFuel => rw [hbe1] at h1; cases h1
        | ok errors1 =>
          cases hbe2 : buildErrors st.lock_class_ty_map st.invocations pairs2 with
          | fatal => rw [hbe2] at h2; cases h2
          | outOfFuel => rw [hbe2] at h2; cases h2
          | ok errors2 =>
            rw [hbe1] at h1
            rw [hbe2] at h2
            cases h1
            cases h2
            have hs1 := runDetection_spec _ _ _ _ _ hdet1
            have hs2 := runDetection_spec _ _ _ _ _ hdet2
            have hpmem : ∀ pq : Bbid × Bbid, pq ∈ pairs1 ↔ pq ∈ pairs2 := by
              intro pq
              rw [hs1, hs2]
              constructor
              · intro hin
                rcases List.mem_flatMap.mp hin with ⟨p, hp, hin'⟩
                exact List.mem_flatMap.mpr ⟨p, hperm.mem_iff.mp hp, hin'⟩
              · intro hin
                rcases List.mem_flatMap.mp hin with ⟨p, hp, hin'⟩
                exact List.mem_flatMap.mpr ⟨p, hperm.mem_iff.mpr hp, hin'⟩
            have hsp1 := buildErrors_spans st.lock_class_ty_map st.invocations pairs1 [] errors1 hbe1
            have hsp2 := buildErrors_spans st.lock_class_ty_map st.invocations pairs2 [] errors2 hbe2
            have hmemiff : ∀ s, s ∈ errors1.map DeadlockError.child_span ↔
                s ∈ errors2.map DeadlockError.child_span := by
              intro s
              rw [hsp1 s, hsp2 s]
              constructor
              · rintro (h | ⟨pq, hpq, ci, hci, hsp⟩)
                · simp at h
                · exact Or.inr ⟨pq, (hpmem pq).mp hpq, ci, hci, hsp⟩
              · rintro (h | ⟨pq, hpq, ci, hci, hsp⟩)
                · simp at h
                · exact Or.inr ⟨pq, (hpmem pq).mpr hpq, ci, hci, hsp⟩
            have hp1 := buildErrors_pairwise _ _ _ _ hbe1
            have hp2 := buildErrors_pairwise _ _ _ _ hbe2
            have hspan : errors1.map DeadlockError.child_span
                = errors2.map DeadlockError.child_span :=
              strictSorted_eq_of_mem_iff _ _ (List.pairwise_map.mpr hp1)
                (List.pairwise_map.mpr hp2) hmemiff
            have hlen : errors1.length = errors2.length := by
              have := congrArg List.length hspan
              simpa [List.length_map] using this
            refine ⟨?_, ?_, ?_⟩
            · rw [emitAllErrors_primary, emitAllErrors_primary, hspan]
            · unfold emitAllErrors
              simp [hlen]
            · unfold emitAllErrors
              simp only []
              rw [hlen]

/-- Witness for C9 (amended) at the filled triple-lock pass state and
the reversed iteration order: primary spans, count and status agree. -/
theorem c9_diagnostics_iteration_order_witness :
    (([(⟨200, 100, .other 7, 200, .other 7⟩ : Diagnostic), ⟨300, 100, .other 7, 300, .other 7⟩],
        (.DeadlockDetected : ErrorStatus)).1.map Diagnostic.primary_span
      = (([(⟨200, 100, .other 7, 200, .other 7⟩ : Diagnostic), ⟨300, 200, .other 7, 300, .other 7⟩],
        (.DeadlockDetected : ErrorStatus)).1.map Diagnostic.primary_span)) ∧
    (([(⟨200, 100, .other 7, 200, .other 7⟩ : Diagnostic), ⟨300, 100, .other 7, 300, .other 7⟩],
        (.DeadlockDetected : ErrorStatus)).1.length
      = ([(⟨200, 100, .other 7, 200, .other 7⟩ : Diagnostic), ⟨300, 200, .other 7, 300, .other 7⟩],
        (.DeadlockDetected : ErrorStatus)).1.length) ∧
    (([(⟨200, 100, .other 7, 200, .other 7⟩ : Diagnostic), ⟨300, 100, .other 7, 300, .other 7⟩],
        (.DeadlockDetected : ErrorStatus)).2
      = ([(⟨200, 100, .other 7, 200, .other 7⟩ : Diagnostic), ⟨300, 200, .other 7, 300, .other 7⟩],
        (.DeadlockDetected : ErrorStatus)).2) :=
  c9_diagnostics_iteration_order tlFilledState tlFilledInvs tlFilledInvs.reverse
    ([⟨200, 100, .other 7, 200, .other 7⟩, ⟨300, 100, .other 7, 300, .other 7⟩], .DeadlockDetected)
    ([⟨200, 100, .other 7, 200, .other 7⟩, ⟨300, 200, .other 7, 300, .other 7⟩], .DeadlockDetected)
    (List.reverse_perm tlFilledInvs).symm (by decide) (by decide)

/-- Counterexample to C9 as stated: iterating the triple-lock
invocation map in its two orders yields diagnostics that differ in a
parent span (100 vs 200 for child span 300), so the emitted
diagnostics are not identical across runs when the map's iteration
order changes. -/
theorem c9_iteration_order_counterexample :
    runPassDiagnostics tlFilledState tlFilledInvs
      = .ok ([⟨200, 100, .other 7, 200, .other 7⟩, ⟨300, 100, .other 7, 300, .other 7⟩],
          .DeadlockDetected) ∧
    runPassDiagnostics tlFilledState tlFilledInvs.reverse
      = .ok ([⟨200, 100, .other 7, 200, .other 7⟩, ⟨300, 200, .other 7, 300, .other 7⟩],
          .DeadlockDetected) ∧
    tlFilledInvs.reverse.Perm tlFilledInvs ∧
    ([(⟨200, 100, .other 7, 200, .other 7⟩ : Diagnostic), ⟨300, 100, .other 7, 300, .other 7⟩]
      ≠ [(⟨200, 100, .other 7, 200, .other 7⟩ : Diagnostic), ⟨300, 200, .other 7, 300, .other 7⟩]) :=
  ⟨by decide, by decide, List.reverse_perm tlFilledInvs, by decide⟩

/-- Witness for C1 at the filled triple-lock pass state: the emitted
pair of the first invocation and its first child corresponds to a
dependency path on the concrete map. -/
theorem c1_cycle_detector_iff_path_witness :
    (((⟨1, 0⟩ : Bbid), (⟨1, 1⟩ : Bbid)) ∈
        [((⟨1, 0⟩ : Bbid), (⟨1, 1⟩ : Bbid)), (⟨1, 0⟩, ⟨1, 2⟩), (⟨1, 1⟩, ⟨1, 2⟩)] ↔
      DepPath [(0, [0])] 0 0) :=
  c1_cycle_detector_iff_path
    [((⟨1, 0⟩ : Bbid), (⟨0, 100, [⟨1, 1⟩, ⟨1, 2⟩]⟩ : LockInvocation)),
      (⟨1, 1⟩, ⟨0, 200, [⟨1, 2⟩]⟩), (⟨1, 2⟩, ⟨0, 300, []⟩)]
    [(0, [0])]
    [((⟨1, 0⟩ : Bbid), (⟨1, 1⟩ : Bbid)), (⟨1, 0⟩, ⟨1, 2⟩), (⟨1, 1⟩, ⟨1, 2⟩)]
    ⟨1, 0⟩ ⟨0, 100, [⟨1, 1⟩, ⟨1, 2⟩]⟩ ⟨1, 1⟩ ⟨0, 200, [⟨1, 2⟩]⟩
    (by decide) (by decide) (by decide) (by decide) (by decide) (by decide) (by decide)

end Lockcheck
